import Mathlib

/-!
Verification of the geometry pipeline of the WebGPU icosahedron demo:
icosahedron subdivision (`generateIcosahedron`), spherical UV projection
(`calculateBetterUVs`) and texture-seam repair (`fixTextureSeamProperly`).

Vertex data is modelled exactly as in the source: a flat list of scalars
with the source's stride (8 for the seam-repair input: position 3,
normal 3, uv 2).  Seam repair performs only comparisons and `+ 1.0` on
u-coordinates, so it is embedded over `ℚ`, which keeps every statement
about it decidable.
-/

namespace SeamFix

/-- `vertices[i * stride + 6]`: the u texture coordinate of vertex `i`
in a flat stride-8 vertex array (out-of-range reads default to 0). -/
def uOf (verts : List ℚ) (i : ℕ) : ℚ := verts.getD (i * 8 + 6) 0

/-- The seam-crossing test of `fixTextureSeamProperly`:
some pairwise difference of the three corner u values exceeds 0.5. -/
def seamCrossing (u0 u1 u2 : ℚ) : Prop :=
  |u0 - u1| > 1/2 ∨ |u1 - u2| > 1/2 ∨ |u0 - u2| > 1/2

instance (u0 u1 u2 : ℚ) : Decidable (seamCrossing u0 u1 u2) := by
  unfold seamCrossing; infer_instance

/-- The per-corner duplication condition inside a flagged triangle:
the corner's own u is below 0.3 while some corner of the triangle
has u above 0.7. -/
def dupCond (u0 u1 u2 u : ℚ) : Prop :=
  u < 3/10 ∧ (u0 > 7/10 ∨ u1 > 7/10 ∨ u2 > 7/10)

instance (u0 u1 u2 u : ℚ) : Decidable (dupCond u0 u1 u2 u) := by
  unfold dupCond; infer_instance

/-- The 8-scalar clone of vertex `oi`: all attributes copied, slot 6
(the u coordinate) bumped by exactly 1.0. -/
def cloneVertex (verts : List ℚ) (oi : ℕ) : List ℚ :=
  (List.range 8).map fun k =>
    if k = 6 then verts.getD (oi * 8 + 6) 0 + 1 else verts.getD (oi * 8 + k) 0

/-- One iteration of the inner `j` loop of `fixTextureSeamProperly`:
processing corner `oi` of a flagged triangle whose corner u values are
`u0 u1 u2`, with `next` the index the next appended clone would get.
Returns (appended scalars, the corner's possibly rewritten index,
updated `next`). -/
def fixCorner (verts : List ℚ) (u0 u1 u2 : ℚ) (oi : ℕ) (next : ℕ) :
    List ℚ × ℕ × ℕ :=
  if dupCond u0 u1 u2 (uOf verts oi) then (cloneVertex verts oi, next, next + 1)
  else ([], oi, next)

/-- The inner `j = 0,1,2` loop of a flagged triangle, over the list of
its corner indices. -/
def fixCorners (verts : List ℚ) (u0 u1 u2 : ℚ) :
    List ℕ → ℕ → List ℚ × List ℕ × ℕ
  | [], next => ([], [], next)
  | oi :: rest, next =>
    let r := fixCorner verts u0 u1 u2 oi next
    let rr := fixCorners verts u0 u1 u2 rest r.2.2
    (r.1 ++ rr.1, r.2.1 :: rr.2.1, rr.2.2)

/-- One iteration of the outer triangle loop: the seam test and, when it
fires, the three corner steps in order. Returns (appended scalars, the
triangle's three output indices, updated `next`). -/
def fixTriangle (verts : List ℚ) (i0 i1 i2 : ℕ) (next : ℕ) :
    List ℚ × List ℕ × ℕ :=
  let u0 := uOf verts i0
  let u1 := uOf verts i1
  let u2 := uOf verts i2
  if seamCrossing u0 u1 u2 then fixCorners verts u0 u1 u2 [i0, i1, i2] next
  else ([], [i0, i1, i2], next)

/-- The triangle loop of `fixTextureSeamProperly` over the flat index list
(three indices per triangle; a trailing fragment of fewer than three
indices is out of reach of the source's `i + 2 < indices.length` access
pattern and passes through unchanged).
Returns (scalars appended to the vertex array, rewritten index list). -/
def fixLoop (verts : List ℚ) : List ℕ → ℕ → List ℚ × List ℕ
  | i0 :: i1 :: i2 :: rest, next =>
    let r := fixTriangle verts i0 i1 i2 next
    let rr := fixLoop verts rest r.2.2
    (r.1 ++ rr.1, r.2.1 ++ rr.2)
  | rest, _ => ([], rest)

/-- `new Uint16Array(numbers)`: each stored element wraps modulo 2^16. -/
def toUint16 (l : List ℕ) : List ℕ := l.map (· % 65536)

/-- `new Uint32Array(numbers)`: each stored element wraps modulo 2^32. -/
def toUint32 (l : List ℕ) : List ℕ := l.map (· % 4294967296)

/-- `fixTextureSeamProperly(vertices, indices)`.  `is32` records whether
the incoming index array was a `Uint32Array`; the result is materialised
in the same width, exactly as the source's final
`indices instanceof Uint32Array ? new Uint32Array(..) : new Uint16Array(..)`. -/
def fixTextureSeamProperly (verts : List ℚ) (idxs : List ℕ) (is32 : Bool) :
    List ℚ × List ℕ :=
  let r := fixLoop verts idxs (verts.length / 8)
  (verts ++ r.1, if is32 then toUint32 r.2 else toUint16 r.2)

/-- Number of vertex clones a flagged triangle with corner u values
`u0 u1 u2` appends for the corner list `ois`. -/
def cornerDups (verts : List ℚ) (u0 u1 u2 : ℚ) : List ℕ → ℕ
  | [] => 0
  | oi :: rest =>
    (if dupCond u0 u1 u2 (uOf verts oi) then 1 else 0) +
      cornerDups verts u0 u1 u2 rest

/-- Total number of vertex clones `fixTextureSeamProperly` appends. -/
def dupCount (verts : List ℚ) : List ℕ → ℕ
  | i0 :: i1 :: i2 :: rest =>
    (if seamCrossing (uOf verts i0) (uOf verts i1) (uOf verts i2)
     then cornerDups verts (uOf verts i0) (uOf verts i1) (uOf verts i2) [i0, i1, i2]
     else 0) + dupCount verts rest
  | _ => 0

/-- The worked example of the specification: a single triangle whose
corner u values are `[0.05, 0.95, 0.5]` (v = 0.5 everywhere: far from
both poles). -/
def exVerts : List ℚ :=
  [0, 0, 0, 0, 0, 0, 1/20, 1/2,
   0, 0, 0, 0, 0, 0, 19/20, 1/2,
   0, 0, 0, 0, 0, 0, 1/2, 1/2]

/-- A single triangle with corner u values `[0, 0.8, 0.4]` (v = 0.5):
after repair its u values are `[1, 0.8, 0.4]`, which still differ by
more than 0.5, so the repaired triangle is flagged again on a second
pass. -/
def exVerts2 : List ℚ :=
  [0, 0, 0, 0, 0, 0, 0, 1/2,
   0, 0, 0, 0, 0, 0, 4/5, 1/2,
   0, 0, 0, 0, 0, 0, 2/5, 1/2]

/-! Helper lemmas about flat-list lookups. -/

/-- What the corner loop guarantees for one corner: a duplicated corner's
new index is fresh (in `[lo, hi)`) and points, in the final vertex list
`fin`, at the 8-scalar clone; a corner that is not duplicated keeps its
original index. -/
def CornerRes (verts fin : List ℚ) (u0 u1 u2 : ℚ) (i j lo hi : ℕ) : Prop :=
  (dupCond u0 u1 u2 (uOf verts i) →
    lo ≤ j ∧ j < hi ∧
      ∀ o, o < 8 → fin.getD (j * 8 + o) 0 = (cloneVertex verts i).getD o 0) ∧
  (¬ dupCond u0 u1 u2 (uOf verts i) → j = i)

/-- What the triangle loop guarantees for one triangle: an unflagged
triangle keeps its three indices; in a flagged triangle each corner
satisfies `CornerRes`. -/
def TriRes (verts fin : List ℚ) (i0 i1 i2 j0 j1 j2 lo hi : ℕ) : Prop :=
  (¬ seamCrossing (uOf verts i0) (uOf verts i1) (uOf verts i2) →
    j0 = i0 ∧ j1 = i1 ∧ j2 = i2) ∧
  (seamCrossing (uOf verts i0) (uOf verts i1) (uOf verts i2) →
    CornerRes verts fin (uOf verts i0) (uOf verts i1) (uOf verts i2) i0 j0 lo hi ∧
    CornerRes verts fin (uOf verts i0) (uOf verts i1) (uOf verts i2) i1 j1 lo hi ∧
    CornerRes verts fin (uOf verts i0) (uOf verts i1) (uOf verts i2) i2 j2 lo hi)

/-- The number of clones one triangle produces. -/
def triDups (verts : List ℚ) (i0 i1 i2 : ℕ) : ℕ :=
  if seamCrossing (uOf verts i0) (uOf verts i1) (uOf verts i2)
  then cornerDups verts (uOf verts i0) (uOf verts i1) (uOf verts i2) [i0, i1, i2]
  else 0

end SeamFix

namespace Icosa

/-- A point of ℝ³ (a JS `[x, y, z]` array).  The coordinates are modelled
as real numbers; JS doubles are treated as exact. -/
structure Vec3 where
  x : ℝ
  y : ℝ
  z : ℝ

/-- Dot product of two points, used to state the geometric invariants of
the subdivision. -/
noncomputable def dot3 (u v : Vec3) : ℝ := u.x * v.x + u.y * v.y + u.z * v.z

/-- `Math.hypot(x, y, z)`. -/
noncomputable def hypot3 (v : Vec3) : ℝ := Real.sqrt (v.x ^ 2 + v.y ^ 2 + v.z ^ 2)

/-- `v.map(x => x / len)` with `len = Math.hypot(...v)`. -/
noncomputable def normalize3 (v : Vec3) : Vec3 :=
  ⟨v.x / hypot3 v, v.y / hypot3 v, v.z / hypot3 v⟩

/-- The golden ratio `t = (1 + Math.sqrt(5)) / 2` of the source. -/
noncomputable def gr : ℝ := (1 + Real.sqrt 5) / 2

/-- The 12 golden-ratio vertices of the base icosahedron, before
normalisation. -/
noncomputable def baseRaw : List Vec3 :=
  [⟨-1, gr, 0⟩, ⟨1, gr, 0⟩, ⟨-1, -gr, 0⟩, ⟨1, -gr, 0⟩,
   ⟨0, -1, gr⟩, ⟨0, 1, gr⟩, ⟨0, -1, -gr⟩, ⟨0, 1, -gr⟩,
   ⟨gr, 0, -1⟩, ⟨gr, 0, 1⟩, ⟨-gr, 0, -1⟩, ⟨-gr, 0, 1⟩]

/-- The base vertices, each normalised to unit length. -/
noncomputable def baseVertices : List Vec3 := baseRaw.map normalize3

/-- The 20 faces of the base icosahedron (fixed topology table). -/
def faces0 : List (ℕ × ℕ × ℕ) :=
  [(0, 11, 5), (0, 5, 1), (0, 1, 7), (0, 7, 10), (0, 10, 11),
   (1, 5, 9), (5, 11, 4), (11, 10, 2), (10, 7, 6), (7, 1, 8),
   (3, 9, 4), (3, 4, 2), (3, 2, 6), (3, 6, 8), (3, 8, 9),
   (4, 9, 5), (2, 4, 11), (6, 2, 10), (8, 6, 7), (9, 8, 1)]

/-- The midpoint-cache key: the unordered edge as a sorted pair, the
embedding of the source's `a < b ? a-b : b-a` string key (decimal
rendering of naturals with a separator is injective, so the string key
and the sorted pair carry the same information). -/
def edgeKey (a b : ℕ) : ℕ × ℕ := if a < b then (a, b) else (b, a)

/-- Association-list lookup in the midpoint cache. -/
def lookupEdge : List ((ℕ × ℕ) × ℕ) → ℕ × ℕ → Option ℕ
  | [], _ => none
  | kv :: rest, key => if kv.1 = key then some kv.2 else lookupEdge rest key

/-- The mutable state of `generateIcosahedron`: the growing vertex list
and the midpoint cache.  The point type is a parameter because the
subdivision's control flow never inspects coordinates. -/
structure SubState (P : Type) where
  verts : List P
  cache : List ((ℕ × ℕ) × ℕ)

/-- `getMidpoint(a, b)`: return the cached vertex index for the unordered
edge, or compute the midpoint (`mid`), append it to the vertex list and
cache its index. -/
def getMidpoint {P : Type} (mid : P → P → P) (dflt : P) (a b : ℕ)
    (s : SubState P) : ℕ × SubState P :=
  match lookupEdge s.cache (edgeKey a b) with
  | some i => (i, s)
  | none =>
    (s.verts.length,
     ⟨s.verts ++ [mid (s.verts.getD a dflt) (s.verts.getD b dflt)],
      (edgeKey a b, s.verts.length) :: s.cache⟩)

/-- One face of one subdivision pass: compute the three edge midpoints
`ab, bc, ca` and replace the face with its four subfaces
`(a,ab,ca), (b,bc,ab), (c,ca,bc), (ab,bc,ca)`. -/
def subdivideFace {P : Type} (mid : P → P → P) (dflt : P) (f : ℕ × ℕ × ℕ)
    (s : SubState P) : List (ℕ × ℕ × ℕ) × SubState P :=
  let rab := getMidpoint mid dflt f.1 f.2.1 s
  let rbc := getMidpoint mid dflt f.2.1 f.2.2 rab.2
  let rca := getMidpoint mid dflt f.2.2 f.1 rbc.2
  ([(f.1, rab.1, rca.1), (f.2.1, rbc.1, rab.1),
    (f.2.2, rca.1, rbc.1), (rab.1, rbc.1, rca.1)], rca.2)

/-- One subdivision pass over the whole face list. -/
def subdividePass {P : Type} (mid : P → P → P) (dflt : P) :
    List (ℕ × ℕ × ℕ) → SubState P → List (ℕ × ℕ × ℕ) × SubState P
  | [], s => ([], s)
  | f :: rest, s =>
    let r := subdivideFace mid dflt f s
    let rr := subdividePass mid dflt rest r.2
    (r.1 ++ rr.1, rr.2)

/-- The outer `for i in 0..subdivisions` loop. -/
def subdivideIter {P : Type} (mid : P → P → P) (dflt : P) :
    ℕ → List (ℕ × ℕ × ℕ) → SubState P → List (ℕ × ℕ × ℕ) × SubState P
  | 0, faces, s => (faces, s)
  | n + 1, faces, s =>
    let r := subdividePass mid dflt faces s
    subdivideIter mid dflt n r.1 r.2

/-- The sphere midpoint of the source: componentwise average, then
normalisation back to the unit sphere. -/
noncomputable def midSphere (u v : Vec3) : Vec3 :=
  normalize3 ⟨(u.x + v.x) / 2, (u.y + v.y) / 2, (u.z + v.z) / 2⟩

/-- `generateIcosahedron(subdivisions)`.  A negative (or NaN) level runs
the `for` loop zero times, which `Int.toNat` captures.  The vertex
stream is the flat `[x, y, z, x, y, z]` layout of the source (normal
equals position); the index stream is stored through a `Uint16Array`,
wrapping each index modulo 2^16. -/
noncomputable def generateIcosahedron (subdivisions : ℤ) : List ℝ × List ℕ :=
  let r := subdivideIter midSphere ⟨0, 0, 0⟩ subdivisions.toNat faces0
    ⟨baseVertices, []⟩
  (r.2.verts.flatMap fun v => [v.x, v.y, v.z, v.x, v.y, v.z],
   SeamFix.toUint16 (r.1.flatMap fun f => [f.1, f.2.1, f.2.2]))

/-- `Math.atan2(y, x)`, as the argument of the complex number `x + y*i`
(range `(-π, π]`, matching atan2's quadrant handling). -/
noncomputable def atan2 (y x : ℝ) : ℝ := Complex.arg ⟨x, y⟩

/-- The u ("longitude") coordinate of `calculateBetterUVs`:
`atan2(normZ, normX) / (2π) + 0.5`, then the two sequential seam shifts
`if (u < 0) u += 1; if (u > 1) u -= 1`. -/
noncomputable def uvU (normX normZ : ℝ) : ℝ :=
  let u := atan2 normZ normX / (2 * Real.pi) + 1 / 2
  let u' := if u < 0 then u + 1 else u
  if u' > 1 then u' - 1 else u'

/-- The v ("latitude") coordinate of `calculateBetterUVs`:
`asin(clamp(normY, -1, 1)) / π + 0.5`, clamped into `[0, 1]`, then
inverted (`v = 1 - v`). -/
noncomputable def uvV (normY : ℝ) : ℝ :=
  1 - max 0 (min 1 (Real.arcsin (max (-1) (min 1 normY)) / Real.pi + 1 / 2))

/-- `calculateBetterUVs(vertices)`: expand each 6-float record
`[px, py, pz, nx, ny, nz]` to an 8-float record, appending the spherical
uv computed from the normalised position. -/
noncomputable def calculateBetterUVs (verts : List ℝ) : List ℝ :=
  (List.range (verts.length / 6)).flatMap fun i =>
    let px := verts.getD (i * 6) 0
    let py := verts.getD (i * 6 + 1) 0
    let pz := verts.getD (i * 6 + 2) 0
    let nx := verts.getD (i * 6 + 3) 0
    let ny := verts.getD (i * 6 + 4) 0
    let nz := verts.getD (i * 6 + 5) 0
    let n := normalize3 ⟨px, py, pz⟩
    [px, py, pz, nx, ny, nz, uvU n.x n.z, uvV n.y]

/-- The unordered-edge multiset of one face. -/
def faceEdges (f : ℕ × ℕ × ℕ) : Multiset (ℕ × ℕ) :=
  {edgeKey f.1 f.2.1, edgeKey f.2.1 f.2.2, edgeKey f.2.2 f.1}

/-- The unordered-edge multiset of a face list (with multiplicity). -/
def edgeM : List (ℕ × ℕ × ℕ) → Multiset (ℕ × ℕ)
  | [] => 0
  | f :: rest => faceEdges f + edgeM rest

/-- The combinatorial invariants of the evolving mesh, taken at the start
of each subdivision pass: all face indices are in range; every face has
three distinct corners; every unordered edge is carried by exactly two
face slots; two distinct faces share at most one edge; the midpoint
cache holds only keys from earlier passes (never an edge of the current
face list), with in-range endpoints and no duplicate key. -/
structure MeshInv (faces : List (ℕ × ℕ × ℕ)) (nverts : ℕ)
    (cache : List ((ℕ × ℕ) × ℕ)) : Prop where
  bounds : ∀ f ∈ faces, f.1 < nverts ∧ f.2.1 < nverts ∧ f.2.2 < nverts
  distinct : ∀ f ∈ faces, f.1 ≠ f.2.1 ∧ f.2.1 ≠ f.2.2 ∧ f.2.2 ≠ f.1
  mult2 : ∀ e ∈ edgeM faces, (edgeM faces).count e = 2
  share : faces.Pairwise fun f g =>
    ((faceEdges f).toFinset ∩ (faceEdges g).toFinset).card ≤ 1
  staleKeys : ∀ kv ∈ cache, kv.1 ∉ edgeM faces
  keyBounds : ∀ kv ∈ cache, kv.1.1 < nverts ∧ kv.1.2 < nverts
  keysNodup : (cache.map Prod.fst).Nodup

/-- Relation between the pass-start state `s₀` and a mid-pass state `s`:
the cache has grown by the fresh entries `new` (newest first), one entry
and one appended vertex per newly met edge; every new entry's key was
not cached at pass start, its value is a fresh in-range index, values
are pairwise distinct, and the vertex stored at it is `mid` of the
edge's endpoints read from the pass-start vertex list. -/
structure PassRel {P : Type} (mid : P → P → P) (dflt : P)
    (s₀ s : SubState P) (new : List ((ℕ × ℕ) × ℕ)) : Prop where
  hcache : s.cache = new ++ s₀.cache
  hlen : s.verts.length = s₀.verts.length + new.length
  hpre : s₀.verts <+: s.verts
  hknd : (new.map Prod.fst).Nodup
  hstale : ∀ kv ∈ new, lookupEdge s₀.cache kv.1 = none
  hvb : ∀ kv ∈ new, s₀.verts.length ≤ kv.2 ∧ kv.2 < s.verts.length
  hvnd : (new.map Prod.snd).Nodup
  hval : ∀ kv ∈ new, s.verts.getD kv.2 dflt =
    mid (s₀.verts.getD kv.1.1 dflt) (s₀.verts.getD kv.1.2 dflt)

/-- The four subfaces of `f` when the midpoint of edge `e` carries vertex
index `μ e`. -/
def sub4 (f : ℕ × ℕ × ℕ) (μ : ℕ × ℕ → ℕ) : List (ℕ × ℕ × ℕ) :=
  [(f.1, μ (edgeKey f.1 f.2.1), μ (edgeKey f.2.2 f.1)),
   (f.2.1, μ (edgeKey f.2.1 f.2.2), μ (edgeKey f.1 f.2.1)),
   (f.2.2, μ (edgeKey f.2.2 f.1), μ (edgeKey f.2.1 f.2.2)),
   (μ (edgeKey f.1 f.2.1), μ (edgeKey f.2.1 f.2.2), μ (edgeKey f.2.2 f.1))]

/-- The midpoint index a cache assigns to an edge. -/
def cacheIdx (c : List ((ℕ × ℕ) × ℕ)) (e : ℕ × ℕ) : ℕ :=
  (lookupEdge c e).getD 0

/-- The value invariant of the evolving mesh: every accumulated vertex is
a unit vector, and the two endpoint values of every face edge have a
positive dot product (the faces stay within an open hemisphere of each
other's corners). -/
def VInv (verts : List Vec3) (F : List (ℕ × ℕ × ℕ)) : Prop :=
  (∀ v ∈ verts, hypot3 v = 1) ∧
  ∀ f ∈ F,
    0 < dot3 (verts.getD f.1 ⟨0, 0, 0⟩) (verts.getD f.2.1 ⟨0, 0, 0⟩) ∧
    0 < dot3 (verts.getD f.2.1 ⟨0, 0, 0⟩) (verts.getD f.2.2 ⟨0, 0, 0⟩) ∧
    0 < dot3 (verts.getD f.2.2 ⟨0, 0, 0⟩) (verts.getD f.1 ⟨0, 0, 0⟩)

end Icosa

namespace SeamFix

theorem getD_prefix {α : Type} {l1 l2 : List α} (h : l1 <+: l2) {i : ℕ}
    (hi : i < l1.length) (d : α) : l2.getD i d = l1.getD i d := by
  rcases h with ⟨t, rfl⟩
  rw [List.getD_eq_getElem?_getD, List.getD_eq_getElem?_getD,
    List.getElem?_append_left hi]

theorem getD_append_lt {α : Type} {l1 l2 : List α} {i : ℕ} (hi : i < l1.length)
    (d : α) : (l1 ++ l2).getD i d = l1.getD i d := by
  rw [List.getD_eq_getElem?_getD, List.getD_eq_getElem?_getD,
    List.getElem?_append_left hi]

theorem getD_append_skip {α : Type} (B rest : List α) (k o : ℕ)
    (hB : B.length = k) (d : α) : (B ++ rest).getD (k + o) d = rest.getD o d := by
  subst hB
  rw [List.getD_eq_getElem?_getD, List.getD_eq_getElem?_getD,
    List.getElem?_append_right (Nat.le_add_right _ _)]
  simp

theorem cloneVertex_length (verts : List ℚ) (oi : ℕ) :
    (cloneVertex verts oi).length = 8 := by
  simp [cloneVertex]

theorem cloneVertex_getD (verts : List ℚ) (oi : ℕ) {o : ℕ} (ho : o < 8) :
    (cloneVertex verts oi).getD o 0 =
      if o = 6 then uOf verts oi + 1 else verts.getD (oi * 8 + o) 0 := by
  rw [List.getD_eq_getElem?_getD]
  simp [cloneVertex, List.getElem?_range, ho, uOf]

theorem CornerRes.weakenCorner {verts fin : List ℚ} {u0 u1 u2 : ℚ} {i j lo hi lo' hi' : ℕ}
    (h : CornerRes verts fin u0 u1 u2 i j lo hi) (hlo : lo' ≤ lo) (hhi : hi ≤ hi') :
    CornerRes verts fin u0 u1 u2 i j lo' hi' := by
  refine ⟨fun hd => ?_, h.2⟩
  obtain ⟨h1, h2, h3⟩ := h.1 hd
  exact ⟨le_trans hlo h1, lt_of_lt_of_le h2 hhi, h3⟩

theorem fixCorners_spec (verts : List ℚ) (u0 u1 u2 : ℚ) (ois : List ℕ) :
    ∀ (next : ℕ) (B tail : List ℚ), B.length = 8 * next →
      (fixCorners verts u0 u1 u2 ois next).2.1.length = ois.length ∧
      (fixCorners verts u0 u1 u2 ois next).2.2 =
        next + cornerDups verts u0 u1 u2 ois ∧
      (fixCorners verts u0 u1 u2 ois next).1.length =
        8 * cornerDups verts u0 u1 u2 ois ∧
      ∀ m, m < ois.length →
        CornerRes verts (B ++ (fixCorners verts u0 u1 u2 ois next).1 ++ tail)
          u0 u1 u2 (ois.getD m 0)
          ((fixCorners verts u0 u1 u2 ois next).2.1.getD m 0)
          next (fixCorners verts u0 u1 u2 ois next).2.2 := by
  induction ois with
  | nil =>
    intro next B tail hB
    simp [fixCorners, cornerDups]
  | cons oi rest ih =>
    intro next B tail hB
    by_cases hd : dupCond u0 u1 u2 (uOf verts oi)
    · have hstep : fixCorner verts u0 u1 u2 oi next =
          (cloneVertex verts oi, next, next + 1) := by
        simp [fixCorner, hd]
      have hB' : (B ++ cloneVertex verts oi).length = 8 * (next + 1) := by
        simp [hB, cloneVertex_length]; ring
      obtain ⟨ih1, ih2, ih3, ih4⟩ := ih (next + 1) (B ++ cloneVertex verts oi) tail hB'
      have hfc : fixCorners verts u0 u1 u2 (oi :: rest) next =
          (cloneVertex verts oi ++ (fixCorners verts u0 u1 u2 rest (next + 1)).1,
           next :: (fixCorners verts u0 u1 u2 rest (next + 1)).2.1,
           (fixCorners verts u0 u1 u2 rest (next + 1)).2.2) := by
        simp [fixCorners, hstep]
      rw [hfc]
      have hcd : cornerDups verts u0 u1 u2 (oi :: rest) =
          1 + cornerDups verts u0 u1 u2 rest := by
        simp [cornerDups, hd]
      refine ⟨by simp [ih1], by rw [ih2, hcd]; ring,
        by simp [ih3, hcd, cloneVertex_length]; ring, ?_⟩
      intro m hm
      match m with
      | 0 =>
        simp only [List.getD_cons_zero]
        constructor
        · intro _
        -- the clone sits at offset 8 * next of the final list
          refine ⟨le_refl _, ?_, ?_⟩
          · rw [ih2]; omega
          · intro o ho
            have hidx : next * 8 + o = 8 * next + o := by ring
            rw [hidx, List.append_assoc, getD_append_skip B _ (8 * next) o hB,
              getD_append_lt (by simp [cloneVertex_length]; omega),
              getD_append_lt (by rw [cloneVertex_length]; exact ho)]
        · intro hnd; exact absurd hd hnd
      | m' + 1 =>
        have hm' : m' < rest.length := by simpa using hm
        have := ih4 m' hm'
        simp only [List.getD_cons_succ]
        have hfin : B ++ cloneVertex verts oi ++
              (fixCorners verts u0 u1 u2 rest (next + 1)).1 ++ tail =
            B ++ (cloneVertex verts oi ++
              (fixCorners verts u0 u1 u2 rest (next + 1)).1) ++ tail := by
          simp [List.append_assoc]
        rw [hfin] at this
        exact this.weakenCorner (Nat.le_succ next) (le_refl _)
    · have hstep : fixCorner verts u0 u1 u2 oi next = ([], oi, next) := by
        simp [fixCorner, hd]
      obtain ⟨ih1, ih2, ih3, ih4⟩ := ih next B tail hB
      have hfc : fixCorners verts u0 u1 u2 (oi :: rest) next =
          ((fixCorners verts u0 u1 u2 rest next).1,
           oi :: (fixCorners verts u0 u1 u2 rest next).2.1,
           (fixCorners verts u0 u1 u2 rest next).2.2) := by
        simp [fixCorners, hstep]
      rw [hfc]
      have hcd : cornerDups verts u0 u1 u2 (oi :: rest) =
          cornerDups verts u0 u1 u2 rest := by
        simp [cornerDups, hd]
      refine ⟨by simp [ih1], by rw [ih2, hcd], by rw [ih3, hcd], ?_⟩
      intro m hm
      match m with
      | 0 =>
        simp only [List.getD_cons_zero]
        exact ⟨fun hdd => absurd hdd hd, fun _ => rfl⟩
      | m' + 1 =>
        have hm' : m' < rest.length := by simpa using hm
        have := ih4 m' hm'
        simp only [List.getD_cons_succ]
        exact this

theorem TriRes.weakenTri {verts fin : List ℚ} {i0 i1 i2 j0 j1 j2 lo hi lo' hi' : ℕ}
    (h : TriRes verts fin i0 i1 i2 j0 j1 j2 lo hi) (hlo : lo' ≤ lo) (hhi : hi ≤ hi') :
    TriRes verts fin i0 i1 i2 j0 j1 j2 lo' hi' := by
  refine ⟨h.1, fun hsc => ?_⟩
  obtain ⟨c0, c1, c2⟩ := h.2 hsc
  exact ⟨c0.weakenCorner hlo hhi, c1.weakenCorner hlo hhi, c2.weakenCorner hlo hhi⟩

theorem fixTriangle_nextIdx (verts : List ℚ) (i0 i1 i2 next : ℕ) :
    (fixTriangle verts i0 i1 i2 next).2.2 = next + triDups verts i0 i1 i2 := by
  by_cases hsc : seamCrossing (uOf verts i0) (uOf verts i1) (uOf verts i2)
  · have := (fixCorners_spec verts (uOf verts i0) (uOf verts i1) (uOf verts i2)
      [i0, i1, i2] next (List.replicate (8 * next) (0 : ℚ)) []
      (by simp)).2.1
    simp [fixTriangle, hsc, triDups, this]
  · simp [fixTriangle, hsc, triDups]

theorem fixTriangle_spec (verts : List ℚ) (i0 i1 i2 next : ℕ) (B tail : List ℚ)
    (hB : B.length = 8 * next) :
    (fixTriangle verts i0 i1 i2 next).2.1.length = 3 ∧
    (fixTriangle verts i0 i1 i2 next).1.length = 8 * triDups verts i0 i1 i2 ∧
    TriRes verts (B ++ (fixTriangle verts i0 i1 i2 next).1 ++ tail) i0 i1 i2
      ((fixTriangle verts i0 i1 i2 next).2.1.getD 0 0)
      ((fixTriangle verts i0 i1 i2 next).2.1.getD 1 0)
      ((fixTriangle verts i0 i1 i2 next).2.1.getD 2 0)
      next (next + triDups verts i0 i1 i2) := by
  by_cases hsc : seamCrossing (uOf verts i0) (uOf verts i1) (uOf verts i2)
  · obtain ⟨h1, h2, h3, h4⟩ := fixCorners_spec verts (uOf verts i0) (uOf verts i1)
      (uOf verts i2) [i0, i1, i2] next B tail hB
    have htd : triDups verts i0 i1 i2 =
        cornerDups verts (uOf verts i0) (uOf verts i1) (uOf verts i2) [i0, i1, i2] := by
      simp [triDups, hsc]
    have hft : fixTriangle verts i0 i1 i2 next =
        fixCorners verts (uOf verts i0) (uOf verts i1) (uOf verts i2) [i0, i1, i2] next := by
      simp [fixTriangle, hsc]
    rw [hft, htd]
    refine ⟨by simpa using h1, h3, fun h => absurd hsc h, fun _ => ?_⟩
    have s0 := h4 0 (by simp)
    have s1 := h4 1 (by simp)
    have s2 := h4 2 (by simp)
    simp only [List.getD_cons_zero, List.getD_cons_succ] at s0 s1 s2
    rw [h2] at s0 s1 s2
    exact ⟨s0, s1, s2⟩
  · have hft : fixTriangle verts i0 i1 i2 next = ([], [i0, i1, i2], next) := by
      simp [fixTriangle, hsc]
    have htd : triDups verts i0 i1 i2 = 0 := by simp [triDups, hsc]
    rw [hft, htd]
    exact ⟨by simp, by simp, fun _ => by simp, fun h => absurd h hsc⟩

theorem fixLoop_spec (verts : List ℚ) (idxs : List ℕ) (next : ℕ) :
    ∀ (B tail : List ℚ), B.length = 8 * next →
      (fixLoop verts idxs next).2.length = idxs.length ∧
      (fixLoop verts idxs next).1.length = 8 * dupCount verts idxs ∧
      ∀ k, 3 * k + 2 < idxs.length →
        TriRes verts (B ++ (fixLoop verts idxs next).1 ++ tail)
          (idxs.getD (3 * k) 0) (idxs.getD (3 * k + 1) 0) (idxs.getD (3 * k + 2) 0)
          ((fixLoop verts idxs next).2.getD (3 * k) 0)
          ((fixLoop verts idxs next).2.getD (3 * k + 1) 0)
          ((fixLoop verts idxs next).2.getD (3 * k + 2) 0)
          next (next + dupCount verts idxs) := by
  induction idxs, next using fixLoop.induct verts with
  | case1 i0 i1 i2 rest next r ih =>
    intro B tail hB
    obtain ⟨ht1, ht2, _⟩ := fixTriangle_spec verts i0 i1 i2 next B
      ((fixLoop verts rest r.2.2).1 ++ tail) hB
    have hnext : r.2.2 = next + triDups verts i0 i1 i2 := fixTriangle_nextIdx ..
    have hB' : (B ++ r.1).length = 8 * r.2.2 := by
      simp [hB, ht2, hnext]; ring
    obtain ⟨ih1, ih2, ih3⟩ := ih (B ++ r.1) tail hB'
    have hfl : fixLoop verts (i0 :: i1 :: i2 :: rest) next =
        (r.1 ++ (fixLoop verts rest r.2.2).1, r.2.1 ++ (fixLoop verts rest r.2.2).2) := by
      rw [fixLoop]
    have hdc : dupCount verts (i0 :: i1 :: i2 :: rest) =
        triDups verts i0 i1 i2 + dupCount verts rest := by
      simp [dupCount, triDups]
    rw [hfl, hdc]
    refine ⟨by simp [ih1, ht1]; omega, by simp [ih2, ht2]; ring, ?_⟩
    intro k hk
    match k with
    | 0 =>
      obtain ⟨_, _, htri⟩ := fixTriangle_spec verts i0 i1 i2 next B
        ((fixLoop verts rest r.2.2).1 ++ tail) hB
      have hfin : B ++ r.1 ++ ((fixLoop verts rest r.2.2).1 ++ tail) =
          B ++ (r.1 ++ (fixLoop verts rest r.2.2).1) ++ tail := by
        simp [List.append_assoc]
      rw [hfin] at htri
      have hout : ∀ m, m < 3 →
          (r.2.1 ++ (fixLoop verts rest r.2.2).2).getD m 0 = r.2.1.getD m 0 := by
        intro m hm
        exact getD_append_lt (by rw [ht1]; exact hm) 0
      simp only [Nat.mul_zero, Nat.zero_add, List.getD_cons_zero, List.getD_cons_succ]
      rw [hout 0 (by omega), hout 1 (by omega), hout 2 (by omega)]
      exact htri.weakenTri (le_refl _) (by omega)
    | k' + 1 =>
      have hk' : 3 * k' + 2 < rest.length := by
        simp only [List.length_cons] at hk; omega
      have := ih3 k' hk'
      have hfin : (B ++ r.1) ++ (fixLoop verts rest r.2.2).1 ++ tail =
          B ++ (r.1 ++ (fixLoop verts rest r.2.2).1) ++ tail := by
        simp [List.append_assoc]
      rw [hfin] at this
      have hidx : ∀ m m', 3 * (k' + 1) + m = m' + 1 + 1 + 1 →
          (i0 :: i1 :: i2 :: rest).getD (3 * (k' + 1) + m) 0 = rest.getD m' 0 := by
        intro m m' h3
        rw [h3]
        simp [List.getD_cons_succ]
      have hout : ∀ m m', 3 * (k' + 1) + m = 3 + m' →
          (r.2.1 ++ (fixLoop verts rest r.2.2).2).getD (3 * (k' + 1) + m) 0 =
            (fixLoop verts rest r.2.2).2.getD m' 0 := by
        intro m m' h3
        rw [h3, getD_append_skip _ _ 3 _ ht1]
      have e0 : 3 * (k' + 1) = 3 * (k' + 1) + 0 := by omega
      rw [e0, hidx 0 (3 * k') (by ring), hidx 1 (3 * k' + 1) (by ring),
        hidx 2 (3 * k' + 2) (by ring), hout 0 (3 * k') (by ring),
        hout 1 (3 * k' + 1) (by ring), hout 2 (3 * k' + 2) (by ring)]
      refine this.weakenTri (by omega) (by rw [hnext]; omega)
  | case2 rest next hnc =>
    intro B tail hB
    match rest, hnc with
    | [], _ => exact ⟨rfl, by simp [fixLoop, dupCount], fun k hk => by
        simp only [List.length_nil] at hk; omega⟩
    | [a], _ => exact ⟨rfl, by simp [fixLoop, dupCount], fun k hk => by
        simp only [List.length_cons, List.length_nil] at hk; omega⟩
    | [a, b], _ => exact ⟨rfl, by simp [fixLoop, dupCount], fun k hk => by
        simp only [List.length_cons, List.length_nil] at hk; omega⟩
    | a :: b :: c :: t, hnc => exact absurd rfl (hnc a b c t)

theorem getD_eq_of_mem_three {l : List ℕ} (h : l.length = 3) :
    ∀ x ∈ l, x = l.getD 0 0 ∨ x = l.getD 1 0 ∨ x = l.getD 2 0 := by
  intro x hx
  rw [List.mem_iff_getElem] at hx
  obtain ⟨i, hi, rfl⟩ := hx
  have hi3 : i < 3 := by omega
  interval_cases i <;>
    simp [List.getD_eq_getElem?_getD, List.getElem?_eq_getElem, hi]

theorem cornerDups_le (verts : List ℚ) (u0 u1 u2 : ℚ) (ois : List ℕ) :
    cornerDups verts u0 u1 u2 ois ≤ ois.length := by
  induction ois with
  | nil => simp [cornerDups]
  | cons oi rest ih =>
    by_cases hd : dupCond u0 u1 u2 (uOf verts oi) <;>
      simp [cornerDups, hd] <;> omega

theorem dupCount_le (verts : List ℚ) (idxs : List ℕ) :
    dupCount verts idxs ≤ idxs.length := by
  induction idxs using dupCount.induct verts with
  | case1 i0 i1 i2 rest ih =>
    have h3 := cornerDups_le verts (uOf verts i0) (uOf verts i1) (uOf verts i2)
      [i0, i1, i2]
    by_cases hsc : seamCrossing (uOf verts i0) (uOf verts i1) (uOf verts i2) <;>
      simp only [dupCount, hsc, if_pos, if_neg, not_false_iff, List.length_cons] <;>
      simp at h3 ⊢ <;> omega
  | case2 rest h =>
    match rest, h with
    | [], _ => simp [dupCount]
    | [a], _ => simp [dupCount]
    | [a, b], _ => simp [dupCount]
    | a :: b :: c :: t, h => exact absurd rfl (h a b c t)

theorem fixLoop_out_lt (verts : List ℚ) (idxs : List ℕ) (next : ℕ) :
    ∀ m, (∀ x ∈ idxs, x < m) → m ≤ next →
      ∀ x ∈ (fixLoop verts idxs next).2, x < next + dupCount verts idxs := by
  induction idxs, next using fixLoop.induct verts with
  | case1 i0 i1 i2 rest next r ih =>
    intro m hm hmn x hx
    have hnext : r.2.2 = next + triDups verts i0 i1 i2 := fixTriangle_nextIdx ..
    have hdc : dupCount verts (i0 :: i1 :: i2 :: rest) =
        triDups verts i0 i1 i2 + dupCount verts rest := by
      simp [dupCount, triDups]
    have hfl : fixLoop verts (i0 :: i1 :: i2 :: rest) next =
        (r.1 ++ (fixLoop verts rest r.2.2).1, r.2.1 ++ (fixLoop verts rest r.2.2).2) := by
      rw [fixLoop]
    rw [hfl] at hx
    rw [hdc]
    rcases List.mem_append.1 hx with hx | hx
    · -- an index of the head triangle
      obtain ⟨ht1, _, htri⟩ := fixTriangle_spec verts i0 i1 i2 next
        (List.replicate (8 * next) (0 : ℚ)) [] (by simp)
      rcases getD_eq_of_mem_three ht1 x hx with rfl | rfl | rfl
      all_goals {
        by_cases hsc : seamCrossing (uOf verts i0) (uOf verts i1) (uOf verts i2)
        · rcases htri.2 hsc with ⟨c0, c1, c2⟩
          first
          | (by_cases hd : dupCond (uOf verts i0) (uOf verts i1) (uOf verts i2) (uOf verts i0)
             · have := c0.1 hd; omega
             · rw [c0.2 hd]
               have := hm i0 (by simp); omega)
          | (by_cases hd : dupCond (uOf verts i0) (uOf verts i1) (uOf verts i2) (uOf verts i1)
             · have := c1.1 hd; omega
             · rw [c1.2 hd]
               have := hm i1 (by simp); omega)
          | (by_cases hd : dupCond (uOf verts i0) (uOf verts i1) (uOf verts i2) (uOf verts i2)
             · have := c2.1 hd; omega
             · rw [c2.2 hd]
               have := hm i2 (by simp); omega)
        · obtain ⟨e0, e1, e2⟩ := htri.1 hsc
          first
          | (rw [e0]; have := hm i0 (by simp); omega)
          | (rw [e1]; have := hm i1 (by simp); omega)
          | (rw [e2]; have := hm i2 (by simp); omega) }
    · -- an index of the remaining triangles
      have hrest : ∀ y ∈ rest, y < m := fun y hy => hm y (by simp [hy])
      have := ih m hrest (by omega) x hx
      omega
  | case2 rest next hnc =>
    intro m hm hmn x hx
    match rest, hnc with
    | [], _ => simp [fixLoop] at hx
    | [a], _ =>
      simp only [fixLoop, List.mem_singleton] at hx
      subst hx
      have := hm x (by simp)
      simp [dupCount]; omega
    | [a, b], _ =>
      simp only [fixLoop] at hx
      have : x = a ∨ x = b := by simpa using hx
      rcases this with rfl | rfl
      · have := hm x (by simp); simp [dupCount]; omega
      · have := hm x (by simp); simp [dupCount]; omega
    | a :: b :: c :: t, hnc => exact absurd rfl (hnc a b c t)

theorem map_mod_eq_self : ∀ (l : List ℕ) (w : ℕ), (∀ x ∈ l, x < w) →
    l.map (· % w) = l
  | [], _, _ => rfl
  | a :: t, w, h => by
    simp only [List.map_cons, List.cons.injEq]
    exact ⟨Nat.mod_eq_of_lt (h a (by simp)),
      map_mod_eq_self t w fun x hx => h x (by simp [hx])⟩

theorem toUint16_eq_self {l : List ℕ} (h : ∀ x ∈ l, x < 65536) :
    toUint16 l = l :=
  map_mod_eq_self l 65536 h

theorem toUint32_eq_self {l : List ℕ} (h : ∀ x ∈ l, x < 4294967296) :
    toUint32 l = l :=
  map_mod_eq_self l 4294967296 h

theorem uOf_prefix {verts fin : List ℚ} (hpre : verts <+: fin) {i n : ℕ}
    (hn : verts.length = 8 * n) (hi : i < n) : uOf fin i = uOf verts i :=
  getD_prefix hpre (by omega) 0

theorem getD_mem {l : List ℕ} {i : ℕ} (h : i < l.length) : l.getD i 0 ∈ l := by
  rw [List.getD_eq_getElem?_getD, List.getElem?_eq_getElem h]
  exact List.getElem_mem h

theorem CornerRes.dup_val {verts fin : List ℚ} {u0 u1 u2 : ℚ} {i j lo hi : ℕ}
    (h : CornerRes verts fin u0 u1 u2 i j lo hi)
    (hd : dupCond u0 u1 u2 (uOf verts i)) :
    lo ≤ j ∧ j < hi ∧ uOf fin j = uOf verts i + 1 ∧
      ∀ o, o < 8 → o ≠ 6 → fin.getD (j * 8 + o) 0 = verts.getD (i * 8 + o) 0 := by
  obtain ⟨h1, h2, h3⟩ := h.1 hd
  refine ⟨h1, h2, ?_, ?_⟩
  · have h6 := h3 6 (by omega)
    rw [uOf, h6, cloneVertex_getD verts i (by omega)]
    simp [uOf]
  · intro o ho ho6
    rw [h3 o ho, cloneVertex_getD verts i ho]
    simp [ho6]

/-- The combined behaviour of `fixTextureSeamProperly` on a well-formed
mesh whose vertex count (original plus worst-case duplicates) stays
within 16-bit index range, so that the final typed-array conversion is
value-preserving. -/
theorem fixSeam_spec (verts : List ℚ) (idxs : List ℕ) (is32 : Bool) (n : ℕ)
    (hn : verts.length = 8 * n) (hidx : ∀ x ∈ idxs, x < n)
    (hcap : n + idxs.length ≤ 65536) :
    (fixTextureSeamProperly verts idxs is32).1 =
      verts ++ (fixLoop verts idxs n).1 ∧
    (fixTextureSeamProperly verts idxs is32).2 = (fixLoop verts idxs n).2 ∧
    (fixLoop verts idxs n).2.length = idxs.length ∧
    (fixLoop verts idxs n).1.length = 8 * dupCount verts idxs ∧
    (∀ x ∈ (fixLoop verts idxs n).2, x < n + dupCount verts idxs) ∧
    ∀ k, 3 * k + 2 < idxs.length →
      TriRes verts (verts ++ (fixLoop verts idxs n).1)
        (idxs.getD (3 * k) 0) (idxs.getD (3 * k + 1) 0) (idxs.getD (3 * k + 2) 0)
        ((fixLoop verts idxs n).2.getD (3 * k) 0)
        ((fixLoop verts idxs n).2.getD (3 * k + 1) 0)
        ((fixLoop verts idxs n).2.getD (3 * k + 2) 0)
        n (n + dupCount verts idxs) := by
  have hdiv : verts.length / 8 = n := by rw [hn]; omega
  obtain ⟨hlen, happ, htri⟩ := fixLoop_spec verts idxs n verts [] hn
  have hbound : ∀ x ∈ (fixLoop verts idxs n).2, x < n + dupCount verts idxs :=
    fixLoop_out_lt verts idxs n n hidx (le_refl n)
  have hsmall : ∀ x ∈ (fixLoop verts idxs n).2, x < 65536 := by
    intro x hx
    have h1 := hbound x hx
    have h2 := dupCount_le verts idxs
    omega
  have hmod : (fixTextureSeamProperly verts idxs is32).2 = (fixLoop verts idxs n).2 := by
    unfold fixTextureSeamProperly
    rw [hdiv]
    cases is32 with
    | false => simp only [Bool.false_eq_true, if_false]; exact toUint16_eq_self hsmall
    | true =>
      simp only [if_true]
      exact toUint32_eq_self fun x hx => lt_of_lt_of_le (hsmall x hx) (by norm_num)
  refine ⟨by unfold fixTextureSeamProperly; rw [hdiv], hmod, hlen, happ, hbound, ?_⟩
  intro k hk
  have := htri k hk
  simpa using this

theorem getD_cons3 (a b c : ℕ) (l : List ℕ) (k m : ℕ) :
    (a :: b :: c :: l).getD (3 * (k + 1) + m) 0 = l.getD (3 * k + m) 0 := by
  have h3 : 3 * (k + 1) + m = (3 * k + m) + 1 + 1 + 1 := by ring
  rw [h3]
  simp [List.getD_cons_succ]

theorem getD_cons3' (a b c : ℕ) (l : List ℕ) (k : ℕ) :
    (a :: b :: c :: l).getD (3 * (k + 1)) 0 = l.getD (3 * k) 0 := by
  have h3 : 3 * (k + 1) = (3 * k) + 1 + 1 + 1 := by ring
  rw [h3]
  simp [List.getD_cons_succ]

/-- If in every triangle that the seam test flags no corner satisfies the
duplication condition, then the triangle loop appends nothing and leaves
the index list unchanged. -/
theorem fixLoop_id (verts : List ℚ) :
    ∀ (idxs : List ℕ) (next : ℕ),
      (∀ k, 3 * k + 2 < idxs.length →
        seamCrossing (uOf verts (idxs.getD (3 * k) 0))
            (uOf verts (idxs.getD (3 * k + 1) 0))
            (uOf verts (idxs.getD (3 * k + 2) 0)) →
          ¬ dupCond (uOf verts (idxs.getD (3 * k) 0))
              (uOf verts (idxs.getD (3 * k + 1) 0))
              (uOf verts (idxs.getD (3 * k + 2) 0))
              (uOf verts (idxs.getD (3 * k) 0)) ∧
          ¬ dupCond (uOf verts (idxs.getD (3 * k) 0))
              (uOf verts (idxs.getD (3 * k + 1) 0))
              (uOf verts (idxs.getD (3 * k + 2) 0))
              (uOf verts (idxs.getD (3 * k + 1) 0)) ∧
          ¬ dupCond (uOf verts (idxs.getD (3 * k) 0))
              (uOf verts (idxs.getD (3 * k + 1) 0))
              (uOf verts (idxs.getD (3 * k + 2) 0))
              (uOf verts (idxs.getD (3 * k + 2) 0))) →
      fixLoop verts idxs next = ([], idxs)
  | i0 :: i1 :: i2 :: rest, next, hprem => by
    have h0 := hprem 0 (by simp)
    simp only [Nat.mul_zero, Nat.zero_add, List.getD_cons_zero,
      List.getD_cons_succ] at h0
    have htr : fixTriangle verts i0 i1 i2 next = ([], [i0, i1, i2], next) := by
      by_cases hsc : seamCrossing (uOf verts i0) (uOf verts i1) (uOf verts i2)
      · obtain ⟨d0, d1, d2⟩ := h0 hsc
        simp [fixTriangle, hsc, fixCorners, fixCorner, d0, d1, d2]
      · simp [fixTriangle, hsc]
    have hrest : fixLoop verts rest next = ([], rest) := by
      apply fixLoop_id verts rest next
      intro k hk hsc
      have := hprem (k + 1) (by simp; omega)
      rw [getD_cons3' i0 i1 i2 rest k, getD_cons3 i0 i1 i2 rest k 1,
        getD_cons3 i0 i1 i2 rest k 2] at this
      exact this hsc
    calc fixLoop verts (i0 :: i1 :: i2 :: rest) next
        = ((fixTriangle verts i0 i1 i2 next).1 ++
            (fixLoop verts rest (fixTriangle verts i0 i1 i2 next).2.2).1,
           (fixTriangle verts i0 i1 i2 next).2.1 ++
            (fixLoop verts rest (fixTriangle verts i0 i1 i2 next).2.2).2) := by
          rw [fixLoop]
      _ = ([], i0 :: i1 :: i2 :: rest) := by rw [htr]; simp [hrest]
  | [], _, _ => rfl
  | [a], _, _ => rfl
  | [a, b], _, _ => rfl

end SeamFix

namespace Icosa

theorem edgeKey_comm (a b : ℕ) : edgeKey a b = edgeKey b a := by
  unfold edgeKey
  split_ifs <;> simp_all <;> omega

theorem edgeKey_eq_iff {a b c d : ℕ} :
    edgeKey a b = edgeKey c d ↔ (a = c ∧ b = d) ∨ (a = d ∧ b = c) := by
  unfold edgeKey
  split_ifs <;> simp [Prod.ext_iff] <;> omega

theorem edgeKey_fst_lt {a b n : ℕ} (ha : a < n) (hb : b < n) :
    (edgeKey a b).1 < n ∧ (edgeKey a b).2 < n := by
  unfold edgeKey
  split_ifs <;> exact ⟨by omega, by omega⟩

theorem edgeKey_fst_le_snd (a b : ℕ) : (edgeKey a b).1 ≤ (edgeKey a b).2 := by
  unfold edgeKey
  split_ifs <;> omega

theorem lookupEdge_append (l1 l2 : List ((ℕ × ℕ) × ℕ)) (k : ℕ × ℕ) :
    lookupEdge (l1 ++ l2) k =
      match lookupEdge l1 k with
      | some v => some v
      | none => lookupEdge l2 k := by
  induction l1 with
  | nil => simp [lookupEdge]
  | cons kv rest ih =>
    by_cases h : kv.1 = k
    · simp [lookupEdge, h]
    · simp only [List.cons_append, lookupEdge, if_neg h]
      exact ih

theorem lookupEdge_eq_none_iff (c : List ((ℕ × ℕ) × ℕ)) (k : ℕ × ℕ) :
    lookupEdge c k = none ↔ k ∉ c.map Prod.fst := by
  induction c with
  | nil => simp [lookupEdge]
  | cons kv rest ih =>
    by_cases h : kv.1 = k
    · simp [lookupEdge, h]
    · rw [List.map_cons]
      simp only [lookupEdge, if_neg h, List.mem_cons, not_or, ih]
      constructor
      · intro hn
        exact ⟨fun he => h he.symm, hn⟩
      · intro hn
        exact hn.2

theorem lookupEdge_mem {c : List ((ℕ × ℕ) × ℕ)} {k : ℕ × ℕ} {v : ℕ}
    (h : lookupEdge c k = some v) : (k, v) ∈ c := by
  induction c with
  | nil => simp [lookupEdge] at h
  | cons kv rest ih =>
    rw [List.mem_cons]
    by_cases hk : kv.1 = k
    · left
      simp only [lookupEdge, if_pos hk, Option.some.injEq] at h
      obtain ⟨a, b⟩ := kv
      simp only at hk h
      simp [hk, h]
    · right
      simp only [lookupEdge, if_neg hk] at h
      exact ih h

theorem lookupEdge_of_mem {c : List ((ℕ × ℕ) × ℕ)} {k : ℕ × ℕ} {v : ℕ}
    (hnd : (c.map Prod.fst).Nodup) (h : (k, v) ∈ c) : lookupEdge c k = some v := by
  induction c with
  | nil => simp at h
  | cons kv rest ih =>
    rw [List.mem_cons] at h
    rcases h with h | h
    · rw [← h]
      simp [lookupEdge]
    · have hk : kv.1 ≠ k := by
        intro he
        have hmem : k ∈ rest.map Prod.fst := List.mem_map.2 ⟨(k, v), h, rfl⟩
        rw [List.map_cons] at hnd
        exact (List.nodup_cons.1 hnd).1 (he ▸ hmem)
      simp only [lookupEdge, if_neg hk]
      exact ih (by rw [List.map_cons] at hnd; exact (List.nodup_cons.1 hnd).2) h

theorem PassRel.refl {P : Type} (mid : P → P → P) (dflt : P) (s₀ : SubState P) :
    PassRel mid dflt s₀ s₀ [] :=
  ⟨rfl, by simp, List.prefix_refl _, List.nodup_nil, by simp, by simp, by simp,
    by simp⟩

theorem getMidpoint_spec {P : Type} (mid : P → P → P) (dflt : P)
    (hmid : ∀ u v, mid u v = mid v u)
    {s₀ s : SubState P} {new : List ((ℕ × ℕ) × ℕ)}
    (hrel : PassRel mid dflt s₀ s new) (a b : ℕ)
    (ha : a < s₀.verts.length) (hb : b < s₀.verts.length)
    (hst : lookupEdge s₀.cache (edgeKey a b) = none) :
    ∃ new', PassRel mid dflt s₀ (getMidpoint mid dflt a b s).2 new' ∧
      (∀ kv ∈ new', kv ∈ new ∨ kv.1 = edgeKey a b) ∧
      (∀ kv ∈ new, kv ∈ new') ∧
      lookupEdge (getMidpoint mid dflt a b s).2.cache (edgeKey a b) =
        some (getMidpoint mid dflt a b s).1 ∧
      (∀ k v, lookupEdge s.cache k = some v →
        lookupEdge (getMidpoint mid dflt a b s).2.cache k = some v) ∧
      s.verts <+: (getMidpoint mid dflt a b s).2.verts := by
  rcases hhit : lookupEdge s.cache (edgeKey a b) with _ | i
  · -- cache miss: append the midpoint and a fresh cache entry
    have hgm : getMidpoint mid dflt a b s =
        (s.verts.length,
         ⟨s.verts ++ [mid (s.verts.getD a dflt) (s.verts.getD b dflt)],
          (edgeKey a b, s.verts.length) :: s.cache⟩) := by
      unfold getMidpoint
      rw [hhit]
    have hnotin : edgeKey a b ∉ new.map Prod.fst := by
      intro hmem
      rw [lookupEdge_eq_none_iff, hrel.hcache, List.map_append] at hhit
      exact hhit (List.mem_append_left _ hmem)
    have hpre1 : s.verts <+:
        s.verts ++ [mid (s.verts.getD a dflt) (s.verts.getD b dflt)] := ⟨_, rfl⟩
    have hgetDa : s.verts.getD a dflt = s₀.verts.getD a dflt :=
      SeamFix.getD_prefix hrel.hpre ha dflt
    have hgetDb : s.verts.getD b dflt = s₀.verts.getD b dflt :=
      SeamFix.getD_prefix hrel.hpre hb dflt
    refine ⟨(edgeKey a b, s.verts.length) :: new, ⟨?_, ?_, ?_, ?_, ?_, ?_, ?_, ?_⟩,
      ?_, ?_, ?_, ?_, ?_⟩
    · rw [hgm, hrel.hcache]
      rfl
    · rw [hgm]
      simp [hrel.hlen]
      ring
    · rw [hgm]
      exact hrel.hpre.trans hpre1
    · rw [List.map_cons, List.nodup_cons]
      exact ⟨hnotin, hrel.hknd⟩
    · intro kv hkv
      rw [List.mem_cons] at hkv
      rcases hkv with rfl | hkv
      · exact hst
      · exact hrel.hstale kv hkv
    · intro kv hkv
      rw [List.mem_cons] at hkv
      rw [hgm]
      simp only [List.length_append, List.length_cons, List.length_nil]
      rcases hkv with rfl | hkv
      · simp only
        constructor
        · rw [hrel.hlen]; omega
        · omega
      · have := hrel.hvb kv hkv
        omega
    · rw [List.map_cons, List.nodup_cons]
      constructor
      · intro hmem
        rw [List.mem_map] at hmem
        obtain ⟨kv, hkv, hv⟩ := hmem
        have := (hrel.hvb kv hkv).2
        omega
      · exact hrel.hvnd
    · intro kv hkv
      rw [List.mem_cons] at hkv
      rw [hgm]
      rcases hkv with rfl | hkv
      · simp only
        have h0 := SeamFix.getD_append_skip s.verts
          [mid (s.verts.getD a dflt) (s.verts.getD b dflt)] s.verts.length 0
          rfl dflt
        simp only [Nat.add_zero, List.getD_cons_zero] at h0
        rw [h0, hgetDa, hgetDb]
        unfold edgeKey
        split_ifs
        · rfl
        · exact hmid _ _
      · have hlt := (hrel.hvb kv hkv).2
        rw [SeamFix.getD_prefix hpre1 hlt dflt]
        exact hrel.hval kv hkv
    · intro kv hkv
      rw [List.mem_cons] at hkv
      rcases hkv with rfl | hkv
      · right; rfl
      · left; exact hkv
    · intro kv hkv
      exact List.mem_cons_of_mem _ hkv
    · rw [hgm]
      simp [lookupEdge]
    · intro k v hk
      rw [hgm]
      have hne : edgeKey a b ≠ k := by
        intro he
        rw [he, hk] at hhit
        exact Option.noConfusion hhit
      simp only [lookupEdge, if_neg (by simpa using hne)]
      exact hk
    · rw [hgm]
      exact hpre1
  · -- cache hit: nothing changes
    have hgm : getMidpoint mid dflt a b s = (i, s) := by
      unfold getMidpoint
      rw [hhit]
    rw [hgm]
    exact ⟨new, hrel, fun kv hkv => Or.inl hkv, fun kv hkv => hkv, hhit,
      fun k v hk => hk, List.prefix_refl _⟩

theorem subdivideFace_eq {P : Type} (mid : P → P → P) (dflt : P)
    (f : ℕ × ℕ × ℕ) (s : SubState P) :
    subdivideFace mid dflt f s =
      ([(f.1, (getMidpoint mid dflt f.1 f.2.1 s).1,
          (getMidpoint mid dflt f.2.2 f.1
            (getMidpoint mid dflt f.2.1 f.2.2
              (getMidpoint mid dflt f.1 f.2.1 s).2).2).1),
        (f.2.1, (getMidpoint mid dflt f.2.1 f.2.2
            (getMidpoint mid dflt f.1 f.2.1 s).2).1,
          (getMidpoint mid dflt f.1 f.2.1 s).1),
        (f.2.2, (getMidpoint mid dflt f.2.2 f.1
            (getMidpoint mid dflt f.2.1 f.2.2
              (getMidpoint mid dflt f.1 f.2.1 s).2).2).1,
          (getMidpoint mid dflt f.2.1 f.2.2
            (getMidpoint mid dflt f.1 f.2.1 s).2).1),
        ((getMidpoint mid dflt f.1 f.2.1 s).1,
          (getMidpoint mid dflt f.2.1 f.2.2
            (getMidpoint mid dflt f.1 f.2.1 s).2).1,
          (getMidpoint mid dflt f.2.2 f.1
            (getMidpoint mid dflt f.2.1 f.2.2
              (getMidpoint mid dflt f.1 f.2.1 s).2).2).1)],
       (getMidpoint mid dflt f.2.2 f.1
         (getMidpoint mid dflt f.2.1 f.2.2
           (getMidpoint mid dflt f.1 f.2.1 s).2).2).2) := rfl

theorem sub4_congr {f : ℕ × ℕ × ℕ} {μ μ' : ℕ × ℕ → ℕ}
    (h : ∀ e ∈ faceEdges f, μ e = μ' e) : sub4 f μ = sub4 f μ' := by
  have h1 : μ (edgeKey f.1 f.2.1) = μ' (edgeKey f.1 f.2.1) :=
    h _ (by simp [faceEdges])
  have h2 : μ (edgeKey f.2.1 f.2.2) = μ' (edgeKey f.2.1 f.2.2) :=
    h _ (by simp [faceEdges])
  have h3 : μ (edgeKey f.2.2 f.1) = μ' (edgeKey f.2.2 f.1) :=
    h _ (by simp [faceEdges])
  simp [sub4, h1, h2, h3]

theorem subdivideFace_spec {P : Type} (mid : P → P → P) (dflt : P)
    (hmid : ∀ u v, mid u v = mid v u)
    {s₀ s : SubState P} {new : List ((ℕ × ℕ) × ℕ)}
    (hrel : PassRel mid dflt s₀ s new) (f : ℕ × ℕ × ℕ)
    (hb : f.1 < s₀.verts.length ∧ f.2.1 < s₀.verts.length ∧
      f.2.2 < s₀.verts.length)
    (hst : ∀ e ∈ faceEdges f, lookupEdge s₀.cache e = none) :
    ∃ new', PassRel mid dflt s₀ (subdivideFace mid dflt f s).2 new' ∧
      (∀ kv ∈ new', kv ∈ new ∨ kv.1 ∈ faceEdges f) ∧
      (∀ kv ∈ new, kv ∈ new') ∧
      (∀ k v, lookupEdge s.cache k = some v →
        lookupEdge (subdivideFace mid dflt f s).2.cache k = some v) ∧
      (∀ e ∈ faceEdges f, ∃ v,
        lookupEdge (subdivideFace mid dflt f s).2.cache e = some v) ∧
      (subdivideFace mid dflt f s).1 =
        sub4 f (cacheIdx (subdivideFace mid dflt f s).2.cache) ∧
      s.verts <+: (subdivideFace mid dflt f s).2.verts := by
  obtain ⟨n1, hrel1, hsub1, hmono1, hlk1, hstab1, hpre1⟩ :=
    getMidpoint_spec mid dflt hmid hrel f.1 f.2.1 hb.1 hb.2.1
      (hst _ (by simp [faceEdges]))
  obtain ⟨n2, hrel2, hsub2, hmono2, hlk2, hstab2, hpre2⟩ :=
    getMidpoint_spec mid dflt hmid hrel1 f.2.1 f.2.2 hb.2.1 hb.2.2
      (hst _ (by simp [faceEdges]))
  obtain ⟨n3, hrel3, hsub3, hmono3, hlk3, hstab3, hpre3⟩ :=
    getMidpoint_spec mid dflt hmid hrel2 f.2.2 f.1 hb.2.2 hb.1
      (hst _ (by simp [faceEdges]))
  rw [subdivideFace_eq]
  refine ⟨n3, hrel3, ?_, ?_, ?_, ?_, ?_, ?_⟩
  · intro kv hkv
    rcases hsub3 kv hkv with hkv2 | hk
    · rcases hsub2 kv hkv2 with hkv1 | hk
      · rcases hsub1 kv hkv1 with hkv0 | hk
        · exact Or.inl hkv0
        · exact Or.inr (by simp [faceEdges, hk])
      · exact Or.inr (by simp [faceEdges, hk])
    · exact Or.inr (by simp [faceEdges, hk])
  · intro kv hkv
    exact hmono3 _ (hmono2 _ (hmono1 _ hkv))
  · intro k v hk
    exact hstab3 _ _ (hstab2 _ _ (hstab1 _ _ hk))
  · intro e he
    simp only [faceEdges, Multiset.mem_cons, Multiset.mem_singleton,
      Multiset.insert_eq_cons] at he
    rcases he with rfl | rfl | rfl
    · exact ⟨_, hstab3 _ _ (hstab2 _ _ hlk1)⟩
    · exact ⟨_, hstab3 _ _ hlk2⟩
    · exact ⟨_, hlk3⟩
  · have e1 : lookupEdge ((getMidpoint mid dflt f.2.2 f.1
        (getMidpoint mid dflt f.2.1 f.2.2
          (getMidpoint mid dflt f.1 f.2.1 s).2).2).2).cache
        (edgeKey f.1 f.2.1) = some (getMidpoint mid dflt f.1 f.2.1 s).1 :=
      hstab3 _ _ (hstab2 _ _ hlk1)
    have e2 : lookupEdge ((getMidpoint mid dflt f.2.2 f.1
        (getMidpoint mid dflt f.2.1 f.2.2
          (getMidpoint mid dflt f.1 f.2.1 s).2).2).2).cache
        (edgeKey f.2.1 f.2.2) = some (getMidpoint mid dflt f.2.1 f.2.2
          (getMidpoint mid dflt f.1 f.2.1 s).2).1 :=
      hstab3 _ _ hlk2
    simp only [sub4, cacheIdx, e1, e2, hlk3, Option.getD_some]
  · exact hpre1.trans (hpre2.trans hpre3)

theorem subdividePass_spec {P : Type} (mid : P → P → P) (dflt : P)
    (hmid : ∀ u v, mid u v = mid v u) (s₀ : SubState P) :
    ∀ (faces : List (ℕ × ℕ × ℕ)) (s : SubState P) (new : List ((ℕ × ℕ) × ℕ)),
      PassRel mid dflt s₀ s new →
      (∀ f ∈ faces, f.1 < s₀.verts.length ∧ f.2.1 < s₀.verts.length ∧
        f.2.2 < s₀.verts.length) →
      (∀ f ∈ faces, ∀ e ∈ faceEdges f, lookupEdge s₀.cache e = none) →
      ∃ new', PassRel mid dflt s₀ (subdividePass mid dflt faces s).2 new' ∧
        (∀ kv ∈ new', kv ∈ new ∨ ∃ f ∈ faces, kv.1 ∈ faceEdges f) ∧
        (∀ kv ∈ new, kv ∈ new') ∧
        (∀ k v, lookupEdge s.cache k = some v →
          lookupEdge (subdividePass mid dflt faces s).2.cache k = some v) ∧
        (∀ f ∈ faces, ∀ e ∈ faceEdges f, ∃ v,
          lookupEdge (subdividePass mid dflt faces s).2.cache e = some v) ∧
        (subdividePass mid dflt faces s).1 = faces.flatMap
          (fun f => sub4 f (cacheIdx (subdividePass mid dflt faces s).2.cache)) ∧
        s.verts <+: (subdividePass mid dflt faces s).2.verts
  | [], s, new, hrel, _, _ => by
    simp only [subdividePass]
    exact ⟨new, hrel, fun kv hkv => Or.inl hkv, fun kv hkv => hkv,
      fun k v hk => hk, by simp, by simp, List.prefix_refl _⟩
  | f :: rest, s, new, hrel, hb, hst => by
    obtain ⟨n1, hrel1, hsub1, hmono1, hstab1, hfound1, hfaces1, hpre1⟩ :=
      subdivideFace_spec mid dflt hmid hrel f (hb f (by simp)) (hst f (by simp))
    obtain ⟨n2, hrel2, hsub2, hmono2, hstab2, hfound2, hfaces2, hpre2⟩ :=
      subdividePass_spec mid dflt hmid s₀ rest (subdivideFace mid dflt f s).2 n1
        hrel1 (fun g hg => hb g (by simp [hg])) (fun g hg => hst g (by simp [hg]))
    refine ⟨n2, hrel2, ?_, ?_, ?_, ?_, ?_, ?_⟩
    · intro kv hkv
      rcases hsub2 kv hkv with hkv1 | ⟨g, hg, he⟩
      · rcases hsub1 kv hkv1 with hkv0 | he
        · exact Or.inl hkv0
        · exact Or.inr ⟨f, by simp, he⟩
      · exact Or.inr ⟨g, by simp [hg], he⟩
    · intro kv hkv
      exact hmono2 _ (hmono1 _ hkv)
    · intro k v hk
      exact hstab2 _ _ (hstab1 _ _ hk)
    · intro g hg e he
      rcases List.mem_cons.1 hg with rfl | hg
      · obtain ⟨v, hv⟩ := hfound1 e he
        exact ⟨v, hstab2 _ _ hv⟩
      · exact hfound2 g hg e he
    · show (subdivideFace mid dflt f s).1 ++
          (subdividePass mid dflt rest (subdivideFace mid dflt f s).2).1 =
        (f :: rest).flatMap fun g => sub4 g (cacheIdx
          (subdividePass mid dflt rest (subdivideFace mid dflt f s).2).2.cache)
      rw [List.flatMap_cons]
      have hhead : (subdivideFace mid dflt f s).1 = sub4 f (cacheIdx
          (subdividePass mid dflt rest (subdivideFace mid dflt f s).2).2.cache) := by
        rw [hfaces1]
        apply sub4_congr
        intro e he
        obtain ⟨v, hv⟩ := hfound1 e he
        rw [cacheIdx, cacheIdx, hv, hstab2 _ _ hv]
      rw [hhead, hfaces2]
    · exact hpre1.trans hpre2

theorem mem_edgeM {e : ℕ × ℕ} {faces : List (ℕ × ℕ × ℕ)} :
    e ∈ edgeM faces ↔ ∃ f ∈ faces, e ∈ faceEdges f := by
  induction faces with
  | nil => simp [edgeM]
  | cons f rest ih =>
    simp only [edgeM, Multiset.mem_add, ih, List.mem_cons]
    constructor
    · rintro (h | ⟨g, hg, he⟩)
      · exact ⟨f, Or.inl rfl, h⟩
      · exact ⟨g, Or.inr hg, he⟩
    · rintro ⟨g, rfl | hg, he⟩
      · exact Or.inl he
      · exact Or.inr ⟨g, hg, he⟩

theorem edgeM_card (faces : List (ℕ × ℕ × ℕ)) :
    Multiset.card (edgeM faces) = 3 * faces.length := by
  induction faces with
  | nil => simp [edgeM]
  | cons f rest ih =>
    simp [edgeM, faceEdges, ih]
    ring

theorem nodup_map_entry_inj {α β : Type} {l : List (α × β)}
    (h : (l.map Prod.snd).Nodup) {x y : α × β} (hx : x ∈ l) (hy : y ∈ l)
    (hxy : x.2 = y.2) : x = y := by
  induction l with
  | nil => simp at hx
  | cons a rest ih =>
    rw [List.map_cons, List.nodup_cons] at h
    rcases List.mem_cons.1 hx with hx1 | hx1
    · rcases List.mem_cons.1 hy with hy1 | hy1
      · rw [hx1, hy1]
      · exfalso
        exact h.1 (List.mem_map.2 ⟨y, hy1, by rw [← hxy, hx1]⟩)
    · rcases List.mem_cons.1 hy with hy1 | hy1
      · exfalso
        exact h.1 (List.mem_map.2 ⟨x, hx1, by rw [hxy, hy1]⟩)
      · exact ih h.2 hx1 hy1

/-- The outcome of one full subdivision pass, starting from a pass-start
state whose cache holds no edge of the current face list: the cache grows
by one entry per distinct edge, the vertex list by one midpoint per
distinct edge, and the new faces are the `sub4` subfaces with midpoint
indices given by the final cache — an injective, fresh assignment. -/
theorem subdividePass_summary {P : Type} (mid : P → P → P) (dflt : P)
    (hmid : ∀ u v, mid u v = mid v u) (faces : List (ℕ × ℕ × ℕ))
    (verts : List P) (cache : List ((ℕ × ℕ) × ℕ))
    (hb : ∀ f ∈ faces, f.1 < verts.length ∧ f.2.1 < verts.length ∧
      f.2.2 < verts.length)
    (hstale : ∀ kv ∈ cache, kv.1 ∉ edgeM faces) :
    ∃ new', (subdividePass mid dflt faces ⟨verts, cache⟩).2.cache = new' ++ cache ∧
      (new'.map Prod.fst).Nodup ∧
      (new'.map Prod.fst).toFinset = (edgeM faces).toFinset ∧
      (subdividePass mid dflt faces ⟨verts, cache⟩).2.verts.length =
        verts.length + (edgeM faces).toFinset.card ∧
      verts <+: (subdividePass mid dflt faces ⟨verts, cache⟩).2.verts ∧
      (subdividePass mid dflt faces ⟨verts, cache⟩).1 = faces.flatMap
        (fun f => sub4 f
          (cacheIdx (subdividePass mid dflt faces ⟨verts, cache⟩).2.cache)) ∧
      (∀ e ∈ edgeM faces,
        verts.length ≤
            cacheIdx (subdividePass mid dflt faces ⟨verts, cache⟩).2.cache e ∧
          cacheIdx (subdividePass mid dflt faces ⟨verts, cache⟩).2.cache e <
            verts.length + (edgeM faces).toFinset.card) ∧
      (∀ e1 ∈ edgeM faces, ∀ e2 ∈ edgeM faces,
        cacheIdx (subdividePass mid dflt faces ⟨verts, cache⟩).2.cache e1 =
          cacheIdx (subdividePass mid dflt faces ⟨verts, cache⟩).2.cache e2 →
          e1 = e2) ∧
      (∀ kv ∈ new', kv.1 ∈ edgeM faces) ∧
      (∀ e ∈ edgeM faces,
        (subdividePass mid dflt faces ⟨verts, cache⟩).2.verts.getD
            (cacheIdx (subdividePass mid dflt faces ⟨verts, cache⟩).2.cache e)
            dflt =
          mid (verts.getD e.1 dflt) (verts.getD e.2 dflt)) := by
  have hstale' : ∀ f ∈ faces, ∀ e ∈ faceEdges f,
      lookupEdge cache e = none := by
    intro f hf e he
    rw [lookupEdge_eq_none_iff]
    intro hmem
    obtain ⟨kv, hkv, hfst⟩ := List.mem_map.1 hmem
    exact hstale kv hkv (hfst ▸ mem_edgeM.2 ⟨f, hf, he⟩)
  obtain ⟨new', hrel, hsub, _, _, hfound, hfaces, _⟩ :=
    subdividePass_spec mid dflt hmid ⟨verts, cache⟩ faces ⟨verts, cache⟩ []
      (PassRel.refl mid dflt _) hb hstale'
  have hsub' : ∀ kv ∈ new', kv.1 ∈ edgeM faces := by
    intro kv hkv
    rcases hsub kv hkv with h | ⟨f, hf, he⟩
    · simp at h
    · exact mem_edgeM.2 ⟨f, hf, he⟩
  -- every pass edge is a key of `new'`, with value `cacheIdx`
  have hkey : ∀ e ∈ edgeM faces,
      (e, cacheIdx (subdividePass mid dflt faces ⟨verts, cache⟩).2.cache e) ∈
        new' := by
    intro e he
    obtain ⟨f, hf, hef⟩ := mem_edgeM.1 he
    obtain ⟨v, hv⟩ := hfound f hf e hef
    have hmem := lookupEdge_mem hv
    rw [hrel.hcache] at hmem
    rcases List.mem_append.1 hmem with h | h
    · rw [cacheIdx, hv, Option.getD_some]
      exact h
    · exact absurd (mem_edgeM.2 ⟨f, hf, hef⟩) (hstale _ h)
  have hkeyset : (new'.map Prod.fst).toFinset = (edgeM faces).toFinset := by
    apply Finset.ext
    intro e
    simp only [List.mem_toFinset, Multiset.mem_toFinset, List.mem_map]
    constructor
    · rintro ⟨kv, hkv, rfl⟩
      exact hsub' kv hkv
    · intro he
      exact ⟨_, hkey e he, rfl⟩
  have hcardnew : new'.length = (edgeM faces).toFinset.card := by
    have h1 : (new'.map Prod.fst).toFinset.card = (new'.map Prod.fst).length :=
      List.toFinset_card_of_nodup hrel.hknd
    rw [hkeyset] at h1
    rw [h1, List.length_map]
  have hvb' : ∀ e ∈ edgeM faces,
      verts.length ≤
          cacheIdx (subdividePass mid dflt faces ⟨verts, cache⟩).2.cache e ∧
        cacheIdx (subdividePass mid dflt faces ⟨verts, cache⟩).2.cache e <
          verts.length + (edgeM faces).toFinset.card := by
    intro e he
    have h := hrel.hvb _ (hkey e he)
    rw [hrel.hlen, hcardnew] at h
    exact h
  refine ⟨new', hrel.hcache, hrel.hknd, hkeyset, by rw [hrel.hlen, hcardnew],
    hrel.hpre, hfaces, hvb', ?_, hsub', ?_⟩
  · intro e1 he1 e2 he2 hv
    have h := nodup_map_entry_inj hrel.hvnd (hkey e1 he1) (hkey e2 he2) hv
    exact congrArg Prod.fst h
  · intro e he
    have h := hrel.hval _ (hkey e he)
    exact h

theorem mem_left_edgeKey (a b : ℕ) :
    a = (edgeKey a b).1 ∨ a = (edgeKey a b).2 := by
  unfold edgeKey
  split_ifs <;> simp

theorem mem_right_edgeKey (a b : ℕ) :
    b = (edgeKey a b).1 ∨ b = (edgeKey a b).2 := by
  unfold edgeKey
  split_ifs <;> simp

theorem edgeKey_self_eq {a b : ℕ} : edgeKey (edgeKey a b).1 (edgeKey a b).2 =
    edgeKey a b := by
  unfold edgeKey
  split_ifs <;> simp_all <;> omega

theorem edgeKey_bounds {a b n : ℕ} (h1 : (edgeKey a b).1 < n)
    (h2 : (edgeKey a b).2 < n) : a < n ∧ b < n := by
  unfold edgeKey at h1 h2
  split_ifs at h1 h2 <;> exact ⟨by omega, by omega⟩

/-- The three edges of a face with pairwise distinct corners are pairwise
distinct. -/
theorem faceEdges_distinct {f : ℕ × ℕ × ℕ}
    (hdist : f.1 ≠ f.2.1 ∧ f.2.1 ≠ f.2.2 ∧ f.2.2 ≠ f.1) :
    edgeKey f.1 f.2.1 ≠ edgeKey f.2.1 f.2.2 ∧
    edgeKey f.2.1 f.2.2 ≠ edgeKey f.2.2 f.1 ∧
    edgeKey f.2.2 f.1 ≠ edgeKey f.1 f.2.1 := by
  obtain ⟨h1, h2, h3⟩ := hdist
  refine ⟨?_, ?_, ?_⟩ <;> rw [Ne, edgeKey_eq_iff] <;> omega

theorem count_edgeM (E : ℕ × ℕ) :
    ∀ (faces : List (ℕ × ℕ × ℕ)),
      (edgeM faces).count E =
        (faces.map fun f => (faceEdges f).count E).sum
  | [] => by simp [edgeM]
  | f :: rest => by
    simp [edgeM, count_edgeM E rest]

theorem count_edgeM_flatMap (E : ℕ × ℕ) (g : (ℕ × ℕ × ℕ) → List (ℕ × ℕ × ℕ)) :
    ∀ (faces : List (ℕ × ℕ × ℕ)),
      (edgeM (faces.flatMap g)).count E =
        (faces.map fun f => (edgeM (g f)).count E).sum
  | [] => by simp [edgeM]
  | f :: rest => by
    have happ : ∀ l1 l2 : List (ℕ × ℕ × ℕ),
        edgeM (l1 ++ l2) = edgeM l1 + edgeM l2 := by
      intro l1 l2
      induction l1 with
      | nil => simp [edgeM]
      | cons a t ih => simp [edgeM, ih, add_assoc]
    simp [List.flatMap_cons, happ, count_edgeM_flatMap E g rest]

/-- The edge multiset of the four subfaces of `f`, as counted against a
"half" edge `edgeKey x (μ d)` (an old vertex joined to a midpoint):
it carries it once per slot of `d` in `f`'s own edges. -/
theorem count_half_subfaces {nv : ℕ} {μ : ℕ × ℕ → ℕ} {F : List (ℕ × ℕ × ℕ)}
    (hμf : ∀ e ∈ edgeM F, nv ≤ μ e)
    (hμi : ∀ e1 ∈ edgeM F, ∀ e2 ∈ edgeM F, μ e1 = μ e2 → e1 = e2)
    {f : ℕ × ℕ × ℕ} (hf : f ∈ F)
    (hdist : f.1 ≠ f.2.1 ∧ f.2.1 ≠ f.2.2 ∧ f.2.2 ≠ f.1)
    (hb : f.1 < nv ∧ f.2.1 < nv ∧ f.2.2 < nv)
    {x : ℕ} {d : ℕ × ℕ} (hd : d ∈ edgeM F) (hx : x = d.1 ∨ x = d.2)
    (hxlt : x < nv) :
    (edgeM (sub4 f μ)).count (edgeKey x (μ d)) = (faceEdges f).count d := by
  obtain ⟨a, b, c⟩ := f
  simp only at hdist hb
  have hab : edgeKey a b ∈ edgeM F := mem_edgeM.2 ⟨_, hf, by simp [faceEdges]⟩
  have hbc : edgeKey b c ∈ edgeM F := mem_edgeM.2 ⟨_, hf, by simp [faceEdges]⟩
  have hca : edgeKey c a ∈ edgeM F := mem_edgeM.2 ⟨_, hf, by simp [faceEdges]⟩
  -- deciding the twelve indicator equations
  have hhalf : ∀ (y : ℕ) (d' : ℕ × ℕ), d' ∈ edgeM F → y < nv →
      (edgeKey x (μ d) = edgeKey y (μ d') ↔ (x = y ∧ d = d')) := by
    intro y d' hd' hy
    constructor
    · intro h
      rcases edgeKey_eq_iff.1 h with ⟨h1, h2⟩ | ⟨h1, h2⟩
      · exact ⟨h1, hμi d hd d' hd' h2⟩
      · have := hμf d' hd'
        omega
    · rintro ⟨rfl, rfl⟩
      rfl
  have hint : ∀ (d1 d2 : ℕ × ℕ), d1 ∈ edgeM F → d2 ∈ edgeM F →
      edgeKey x (μ d) ≠ edgeKey (μ d1) (μ d2) := by
    intro d1 d2 hd1 hd2 h
    have h1 := hμf d1 hd1
    have h2 := hμf d2 hd2
    rcases edgeKey_eq_iff.1 h with ⟨e1, e2⟩ | ⟨e1, e2⟩ <;> omega
  have hhalf' : ∀ (y : ℕ) (d' : ℕ × ℕ), d' ∈ edgeM F → y < nv →
      (edgeKey x (μ d) = edgeKey (μ d') y ↔ (x = y ∧ d = d')) := by
    intro y d' hd' hy
    rw [edgeKey_comm (μ d') y]
    exact hhalf y d' hd' hy
  have i1 := hhalf a (edgeKey a b) hab hb.1
  have i2 := hint (edgeKey a b) (edgeKey c a) hab hca
  have i3 := hhalf' a (edgeKey c a) hca hb.1
  have i4 := hhalf b (edgeKey b c) hbc hb.2.1
  have i5 := hint (edgeKey b c) (edgeKey a b) hbc hab
  have i6 := hhalf' b (edgeKey a b) hab hb.2.1
  have i7 := hhalf c (edgeKey c a) hca hb.2.2
  have i8 := hint (edgeKey c a) (edgeKey b c) hca hbc
  have i9 := hhalf' c (edgeKey b c) hbc hb.2.2
  have i10 := hint (edgeKey a b) (edgeKey b c) hab hbc
  have i11 := hint (edgeKey b c) (edgeKey c a) hbc hca
  have i12 := hint (edgeKey c a) (edgeKey a b) hca hab
  obtain ⟨hne1, hne2, hne3⟩ := faceEdges_distinct
    (f := (a, b, c)) ⟨hdist.1, hdist.2.1, hdist.2.2⟩
  simp only at hne1 hne2 hne3
  simp only [sub4, edgeM, faceEdges, Multiset.insert_eq_cons,
    Multiset.count_add, Multiset.count_cons, Multiset.count_singleton,
    Multiset.count_zero, i1, i2, i3, i4, i5, i6, i7, i8, i9, i10, i11, i12]
  have g1 : edgeKey a b ≠ edgeKey b c := hne1
  have g2 : edgeKey a b ≠ edgeKey c a := fun h => hne3 h.symm
  have g3 : edgeKey b c ≠ edgeKey c a := hne2
  have g4 : edgeKey b c ≠ edgeKey a b := fun h => hne1 h.symm
  have g5 : edgeKey c a ≠ edgeKey a b := hne3
  have g6 : edgeKey c a ≠ edgeKey b c := fun h => hne2 h.symm
  -- resolve which (if any) edge of the face `d` is, and which endpoint `x` is
  by_cases e1 : d = edgeKey a b
  · subst e1
    have hx' : x = a ∨ x = b := by
      have hab' := hdist.1
      rcases mem_left_edgeKey a b with h | h <;>
        rcases mem_right_edgeKey a b with h' | h' <;>
        rcases hx with hh | hh <;> omega
    rcases hx' with rfl | rfl <;>
      simp [g1, g2, hdist.1, Ne.symm hdist.1, hdist.2.2,
        Ne.symm hdist.2.2, hdist.2.1, Ne.symm hdist.2.1]
  · by_cases e2 : d = edgeKey b c
    · subst e2
      have hx' : x = b ∨ x = c := by
        have hbc' := hdist.2.1
        rcases mem_left_edgeKey b c with h | h <;>
          rcases mem_right_edgeKey b c with h' | h' <;>
          rcases hx with hh | hh <;> omega
      rcases hx' with rfl | rfl <;>
        simp [g3, g4, hdist.1, Ne.symm hdist.1,
          hdist.2.2, Ne.symm hdist.2.2, hdist.2.1, Ne.symm hdist.2.1]
    · by_cases e3 : d = edgeKey c a
      · subst e3
        have hx' : x = c ∨ x = a := by
          have hca' := hdist.2.2
          rcases mem_left_edgeKey c a with h | h <;>
            rcases mem_right_edgeKey c a with h' | h' <;>
            rcases hx with hh | hh <;> omega
        rcases hx' with rfl | rfl <;>
          simp [g5, g6, hdist.1, Ne.symm hdist.1, hdist.2.2,
            Ne.symm hdist.2.2, hdist.2.1, Ne.symm hdist.2.1]
      · simp [e1, e2, e3]

/-- The edge multiset of the four subfaces of `f`, counted against an
"internal" edge `edgeKey (μ d1) (μ d2)` joining two midpoints: it occurs
twice when both `d1` and `d2` are edges of `f`, otherwise never. -/
theorem count_internal_subfaces {nv : ℕ} {μ : ℕ × ℕ → ℕ}
    {F : List (ℕ × ℕ × ℕ)}
    (hμf : ∀ e ∈ edgeM F, nv ≤ μ e)
    (hμi : ∀ e1 ∈ edgeM F, ∀ e2 ∈ edgeM F, μ e1 = μ e2 → e1 = e2)
    {f : ℕ × ℕ × ℕ} (hf : f ∈ F)
    (hdist : f.1 ≠ f.2.1 ∧ f.2.1 ≠ f.2.2 ∧ f.2.2 ≠ f.1)
    (hb : f.1 < nv ∧ f.2.1 < nv ∧ f.2.2 < nv)
    {d1 d2 : ℕ × ℕ} (hd1 : d1 ∈ edgeM F) (hd2 : d2 ∈ edgeM F)
    (hne : d1 ≠ d2) :
    (edgeM (sub4 f μ)).count (edgeKey (μ d1) (μ d2)) =
      2 * (if d1 ∈ faceEdges f ∧ d2 ∈ faceEdges f then 1 else 0) := by
  obtain ⟨a, b, c⟩ := f
  simp only at hdist hb
  have hab : edgeKey a b ∈ edgeM F := mem_edgeM.2 ⟨_, hf, by simp [faceEdges]⟩
  have hbc : edgeKey b c ∈ edgeM F := mem_edgeM.2 ⟨_, hf, by simp [faceEdges]⟩
  have hca : edgeKey c a ∈ edgeM F := mem_edgeM.2 ⟨_, hf, by simp [faceEdges]⟩
  have hhalf : ∀ (y : ℕ) (d' : ℕ × ℕ), d' ∈ edgeM F → y < nv →
      edgeKey (μ d1) (μ d2) ≠ edgeKey y (μ d') := by
    intro y d' hd' hy h
    have h1 := hμf d1 hd1
    have h2 := hμf d2 hd2
    rcases edgeKey_eq_iff.1 h with ⟨e1, e2⟩ | ⟨e1, e2⟩ <;> omega
  have hhalf' : ∀ (y : ℕ) (d' : ℕ × ℕ), d' ∈ edgeM F → y < nv →
      edgeKey (μ d1) (μ d2) ≠ edgeKey (μ d') y := by
    intro y d' hd' hy
    rw [edgeKey_comm (μ d') y]
    exact hhalf y d' hd' hy
  have hint : ∀ (da db : ℕ × ℕ), da ∈ edgeM F → db ∈ edgeM F →
      (edgeKey (μ d1) (μ d2) = edgeKey (μ da) (μ db) ↔
        ((d1 = da ∧ d2 = db) ∨ (d1 = db ∧ d2 = da))) := by
    intro da db hda hdb
    constructor
    · intro h
      rcases edgeKey_eq_iff.1 h with ⟨e1, e2⟩ | ⟨e1, e2⟩
      · exact Or.inl ⟨hμi _ hd1 _ hda e1, hμi _ hd2 _ hdb e2⟩
      · exact Or.inr ⟨hμi _ hd1 _ hdb e1, hμi _ hd2 _ hda e2⟩
    · rintro (⟨rfl, rfl⟩ | ⟨rfl, rfl⟩)
      · rfl
      · exact edgeKey_comm _ _
  have i1 := hhalf a (edgeKey a b) hab hb.1
  have i2 := hint (edgeKey a b) (edgeKey c a) hab hca
  have i3 := hhalf' a (edgeKey c a) hca hb.1
  have i4 := hhalf b (edgeKey b c) hbc hb.2.1
  have i5 := hint (edgeKey b c) (edgeKey a b) hbc hab
  have i6 := hhalf' b (edgeKey a b) hab hb.2.1
  have i7 := hhalf c (edgeKey c a) hca hb.2.2
  have i8 := hint (edgeKey c a) (edgeKey b c) hca hbc
  have i9 := hhalf' c (edgeKey b c) hbc hb.2.2
  have i10 := hint (edgeKey a b) (edgeKey b c) hab hbc
  have i11 := hint (edgeKey b c) (edgeKey c a) hbc hca
  have i12 := hint (edgeKey c a) (edgeKey a b) hca hab
  obtain ⟨hne1, hne2, hne3⟩ := faceEdges_distinct
    (f := (a, b, c)) ⟨hdist.1, hdist.2.1, hdist.2.2⟩
  simp only at hne1 hne2 hne3
  have g1 : edgeKey a b ≠ edgeKey b c := hne1
  have g2 : edgeKey a b ≠ edgeKey c a := fun h => hne3 h.symm
  have g3 : edgeKey b c ≠ edgeKey c a := hne2
  have g4 : edgeKey b c ≠ edgeKey a b := fun h => hne1 h.symm
  have g5 : edgeKey c a ≠ edgeKey a b := hne3
  have g6 : edgeKey c a ≠ edgeKey b c := fun h => hne2 h.symm
  simp only [sub4, edgeM, Multiset.insert_eq_cons, Multiset.count_add,
    Multiset.count_cons, Multiset.count_singleton, Multiset.count_zero,
    faceEdges, i1, i2, i3, i4, i5, i6, i7, i8, i9, i10, i11, i12]
  by_cases c1 : d1 ∈ ({edgeKey a b, edgeKey b c, edgeKey c a} :
      Multiset (ℕ × ℕ))
  · by_cases c2 : d2 ∈ ({edgeKey a b, edgeKey b c, edgeKey c a} :
        Multiset (ℕ × ℕ))
    · simp only [Multiset.insert_eq_cons, Multiset.mem_cons,
        Multiset.mem_singleton] at c1 c2
      have hmem : d1 ∈ ({edgeKey a b, edgeKey b c, edgeKey c a} :
          Multiset (ℕ × ℕ)) ∧ d2 ∈ ({edgeKey a b, edgeKey b c, edgeKey c a} :
          Multiset (ℕ × ℕ)) := by
        simp only [Multiset.insert_eq_cons, Multiset.mem_cons,
          Multiset.mem_singleton]
        exact ⟨c1, c2⟩
      rcases c1 with rfl | rfl | rfl <;> rcases c2 with rfl | rfl | rfl <;>
        first
        | exact absurd rfl hne
        | simp [g1, g2, g3, g4, g5, g6, hmem]
    · have hni : ∀ p : Prop, (d2 = edgeKey a b → p) ∧ (d2 = edgeKey b c → p) ∧
          (d2 = edgeKey c a → p) → True := fun _ _ => trivial
      simp only [Multiset.insert_eq_cons, Multiset.mem_cons,
        Multiset.mem_singleton, not_or] at c2
      simp [c2.1, c2.2.1, c2.2.2, fun h : d2 = edgeKey a b => c2.1 h]
  · simp only [Multiset.insert_eq_cons, Multiset.mem_cons,
      Multiset.mem_singleton, not_or] at c1
    simp [c1.1, c1.2.1, c1.2.2]

theorem edgeKey_of_lt {a b : ℕ} (h : a < b) : edgeKey a b = (a, b) := by
  unfold edgeKey
  rw [if_pos h]

/-- Every edge of a subface is either a "half" edge (an old corner joined
to the midpoint of an incident edge of the parent) or an "internal" edge
(two midpoints of distinct edges of the parent). -/
theorem shape_subfaces {nv : ℕ} {μ : ℕ × ℕ → ℕ} {f : ℕ × ℕ × ℕ}
    (hdist : f.1 ≠ f.2.1 ∧ f.2.1 ≠ f.2.2 ∧ f.2.2 ≠ f.1)
    (hb : f.1 < nv ∧ f.2.1 < nv ∧ f.2.2 < nv) :
    ∀ E ∈ edgeM (sub4 f μ),
      (∃ x d, d ∈ faceEdges f ∧ (x = d.1 ∨ x = d.2) ∧ x < nv ∧
        E = edgeKey x (μ d)) ∨
      (∃ da db, da ∈ faceEdges f ∧ db ∈ faceEdges f ∧ da ≠ db ∧
        E = edgeKey (μ da) (μ db)) := by
  obtain ⟨a, b, c⟩ := f
  simp only at hdist hb
  obtain ⟨hne1, hne2, hne3⟩ := faceEdges_distinct
    (f := (a, b, c)) ⟨hdist.1, hdist.2.1, hdist.2.2⟩
  simp only at hne1 hne2 hne3
  intro E hE
  simp only [sub4, edgeM, faceEdges, Multiset.insert_eq_cons,
    Multiset.mem_add, Multiset.mem_cons, Multiset.mem_singleton,
    Multiset.not_mem_zero, or_false] at hE
  have m1 : edgeKey a b ∈ faceEdges (a, b, c) := by simp [faceEdges]
  have m2 : edgeKey b c ∈ faceEdges (a, b, c) := by simp [faceEdges]
  have m3 : edgeKey c a ∈ faceEdges (a, b, c) := by simp [faceEdges]
  rcases hE with ((rfl | rfl | rfl) | (rfl | rfl | rfl) | (rfl | rfl | rfl) |
    (rfl | rfl | rfl))
  · exact Or.inl ⟨a, _, m1, mem_left_edgeKey a b, hb.1, rfl⟩
  · exact Or.inr ⟨_, _, m1, m3, fun h => hne3 h.symm, rfl⟩
  · exact Or.inl ⟨a, _, m3, mem_right_edgeKey c a, hb.1, edgeKey_comm _ _⟩
  · exact Or.inl ⟨b, _, m2, mem_left_edgeKey b c, hb.2.1, rfl⟩
  · exact Or.inr ⟨_, _, m2, m1, fun h => hne1 h.symm, rfl⟩
  · exact Or.inl ⟨b, _, m1, mem_right_edgeKey a b, hb.2.1, edgeKey_comm _ _⟩
  · exact Or.inl ⟨c, _, m3, mem_left_edgeKey c a, hb.2.2, rfl⟩
  · exact Or.inr ⟨_, _, m3, m2, fun h => hne2 h.symm, rfl⟩
  · exact Or.inl ⟨c, _, m2, mem_right_edgeKey b c, hb.2.2, edgeKey_comm _ _⟩
  · exact Or.inr ⟨_, _, m1, m2, hne1, rfl⟩
  · exact Or.inr ⟨_, _, m2, m3, hne2, rfl⟩
  · exact Or.inr ⟨_, _, m3, m1, hne3, rfl⟩

theorem sum_map_two_mul {α : Type} (l : List α) (g : α → ℕ) :
    (l.map fun f => 2 * g f).sum = 2 * (l.map g).sum := by
  induction l with
  | nil => simp
  | cons a t ih => simp [ih]; ring

/-- On a face list in which two distinct faces share at most one edge, at
most one face slot carries both of two fixed distinct edges. -/
theorem sum_both_le_one {d1 d2 : ℕ × ℕ} (hne : d1 ≠ d2) :
    ∀ F : List (ℕ × ℕ × ℕ),
      F.Pairwise (fun f g =>
        ((faceEdges f).toFinset ∩ (faceEdges g).toFinset).card ≤ 1) →
      (F.map fun f =>
        if d1 ∈ faceEdges f ∧ d2 ∈ faceEdges f then 1 else 0).sum ≤ 1
  | [], _ => by simp
  | f :: rest, hp => by
    rw [List.pairwise_cons] at hp
    by_cases hf : d1 ∈ faceEdges f ∧ d2 ∈ faceEdges f
    · have hzero : ∀ g ∈ rest,
          (if d1 ∈ faceEdges g ∧ d2 ∈ faceEdges g then (1 : ℕ) else 0) = 0 := by
        intro g hg
        rw [if_neg]
        intro hgb
        have hsub : ({d1, d2} : Finset (ℕ × ℕ)) ⊆
            (faceEdges f).toFinset ∩ (faceEdges g).toFinset := by
          intro e he
          rcases Finset.mem_insert.1 he with rfl | he
          · exact Finset.mem_inter.2 ⟨Multiset.mem_toFinset.2 hf.1,
              Multiset.mem_toFinset.2 hgb.1⟩
          · rw [Finset.mem_singleton] at he
            subst he
            exact Finset.mem_inter.2 ⟨Multiset.mem_toFinset.2 hf.2,
              Multiset.mem_toFinset.2 hgb.2⟩
        have hcard : 2 ≤ ((faceEdges f).toFinset ∩ (faceEdges g).toFinset).card := by
          have h2 : ({d1, d2} : Finset (ℕ × ℕ)).card = 2 :=
            Finset.card_pair hne
          rw [← h2]
          exact Finset.card_le_card hsub
        have := hp.1 g hg
        omega
      have hrest : (rest.map fun f =>
          if d1 ∈ faceEdges f ∧ d2 ∈ faceEdges f then (1 : ℕ) else 0).sum = 0 := by
        rw [List.sum_eq_zero]
        intro x hx
        obtain ⟨g, hg, rfl⟩ := List.mem_map.1 hx
        exact hzero g hg
      simp [hf, hrest]
    · have := sum_both_le_one hne rest hp.2
      simp only [List.map_cons, List.sum_cons, if_neg hf]
      omega

/-- Preservation of the "every edge has multiplicity two" invariant under
one subdivision pass with an injective fresh midpoint assignment. -/
theorem mult2_preserved {F : List (ℕ × ℕ × ℕ)} {nv : ℕ} {μ : ℕ × ℕ → ℕ}
    {cache : List ((ℕ × ℕ) × ℕ)} (hInv : MeshInv F nv cache)
    (hμf : ∀ e ∈ edgeM F, nv ≤ μ e)
    (hμi : ∀ e1 ∈ edgeM F, ∀ e2 ∈ edgeM F, μ e1 = μ e2 → e1 = e2) :
    ∀ E ∈ edgeM (F.flatMap fun f => sub4 f μ),
      (edgeM (F.flatMap fun f => sub4 f μ)).count E = 2 := by
  intro E hE
  obtain ⟨u, hu, hEu⟩ := mem_edgeM.1 hE
  obtain ⟨f₀, hf₀, huf₀⟩ := List.mem_flatMap.1 hu
  have hEf₀ : E ∈ edgeM (sub4 f₀ μ) := mem_edgeM.2 ⟨u, huf₀, hEu⟩
  rcases shape_subfaces (hInv.distinct f₀ hf₀) (hInv.bounds f₀ hf₀) E hEf₀ with
    ⟨x, d, hdf, hx, hxlt, rfl⟩ | ⟨da, db, hdaf, hdbf, hnedab, rfl⟩
  · -- a half edge: it occurs once per slot of `d` in the old mesh
    have hdF : d ∈ edgeM F := mem_edgeM.2 ⟨f₀, hf₀, hdf⟩
    rw [count_edgeM_flatMap]
    have hcong : ∀ f ∈ F, (edgeM (sub4 f μ)).count (edgeKey x (μ d)) =
        (faceEdges f).count d := fun f hf =>
      count_half_subfaces hμf hμi hf (hInv.distinct f hf) (hInv.bounds f hf)
        hdF hx hxlt
    rw [List.map_congr_left hcong, ← count_edgeM]
    exact hInv.mult2 d hdF
  · -- an internal edge: twice per face that carries both of its midpoints
    have hdaF : da ∈ edgeM F := mem_edgeM.2 ⟨f₀, hf₀, hdaf⟩
    have hdbF : db ∈ edgeM F := mem_edgeM.2 ⟨f₀, hf₀, hdbf⟩
    rw [count_edgeM_flatMap]
    have hcong : ∀ f ∈ F, (edgeM (sub4 f μ)).count (edgeKey (μ da) (μ db)) =
        2 * (if da ∈ faceEdges f ∧ db ∈ faceEdges f then 1 else 0) := fun f hf =>
      count_internal_subfaces hμf hμi hf (hInv.distinct f hf)
        (hInv.bounds f hf) hdaF hdbF hnedab
    rw [List.map_congr_left hcong, sum_map_two_mul]
    have hle := sum_both_le_one hnedab F hInv.share
    have hge : 1 ≤ (F.map fun f =>
        if da ∈ faceEdges f ∧ db ∈ faceEdges f then 1 else 0).sum := by
      have hmem : (1 : ℕ) ∈ (F.map fun f =>
          if da ∈ faceEdges f ∧ db ∈ faceEdges f then 1 else 0) := by
        rw [List.mem_map]
        exact ⟨f₀, hf₀, by rw [if_pos ⟨hdaf, hdbf⟩]⟩
      exact List.single_le_sum (fun x _ => Nat.zero_le x) 1 hmem
    omega

theorem edgeKey_cases (a b : ℕ) : edgeKey a b = (a, b) ∨ edgeKey a b = (b, a) := by
  unfold edgeKey
  split_ifs <;> simp

/-- In a corner subface `(v, m1, m2)` (old corner below `nv`, midpoints at
or above), an edge with a component below `nv` has `v` as its unique low
component. -/
theorem corner_low_comp {nv v m1 m2 : ℕ} (hv : v < nv) (h1 : nv ≤ m1)
    (h2 : nv ≤ m2) :
    ∀ E ∈ faceEdges ((v, m1, m2) : ℕ × ℕ × ℕ), E.1 < nv ∨ E.2 < nv →
      (E.1 = v ∧ nv ≤ E.2) ∨ (E.2 = v ∧ nv ≤ E.1) := by
  intro E hE hlow
  simp only [faceEdges, Multiset.insert_eq_cons, Multiset.mem_cons,
    Multiset.mem_singleton] at hE
  rcases hE with rfl | rfl | rfl <;>
    [rcases edgeKey_cases v m1 with h | h;
     rcases edgeKey_cases m1 m2 with h | h;
     rcases edgeKey_cases m2 v with h | h] <;>
    rw [h] <;> rw [h] at hlow <;> simp at hlow ⊢ <;> omega

/-- In a corner subface, an edge with both components at or above `nv` is
the internal edge joining the two midpoints. -/
theorem corner_high_comp {nv v m1 m2 : ℕ} (hv : v < nv) (h1 : nv ≤ m1)
    (h2 : nv ≤ m2) :
    ∀ E ∈ faceEdges ((v, m1, m2) : ℕ × ℕ × ℕ), nv ≤ E.1 → nv ≤ E.2 →
      E = edgeKey m1 m2 := by
  intro E hE ha hb
  simp only [faceEdges, Multiset.insert_eq_cons, Multiset.mem_cons,
    Multiset.mem_singleton] at hE
  rcases hE with rfl | rfl | rfl
  · rcases edgeKey_cases v m1 with h | h <;> rw [h] at ha hb <;>
      simp at ha hb <;> omega
  · rfl
  · rcases edgeKey_cases m2 v with h | h <;> rw [h] at ha hb <;>
      simp at ha hb <;> omega

/-- Every edge of the centre subface has both components at or above
`nv`. -/
theorem center_high_comp {nv m1 m2 m3 : ℕ} (h1 : nv ≤ m1) (h2 : nv ≤ m2)
    (h3 : nv ≤ m3) :
    ∀ E ∈ faceEdges ((m1, m2, m3) : ℕ × ℕ × ℕ), nv ≤ E.1 ∧ nv ≤ E.2 := by
  intro E hE
  simp only [faceEdges, Multiset.insert_eq_cons, Multiset.mem_cons,
    Multiset.mem_singleton] at hE
  rcases hE with rfl | rfl | rfl <;>
    [rcases edgeKey_cases m1 m2 with h | h;
     rcases edgeKey_cases m2 m3 with h | h;
     rcases edgeKey_cases m3 m1 with h | h] <;>
    rw [h] <;> exact ⟨by omega, by omega⟩

/-- Two corner subfaces around distinct old corners share at most their
(unique) internal edges, hence at most one edge. -/
theorem inter_card_corner_corner {nv v v' m1 m2 m1' m2' : ℕ}
    (hv : v < nv) (hv' : v' < nv) (hvv : v ≠ v')
    (h1 : nv ≤ m1) (h2 : nv ≤ m2) (h1' : nv ≤ m1') (h2' : nv ≤ m2') :
    ((faceEdges ((v, m1, m2) : ℕ × ℕ × ℕ)).toFinset ∩
      (faceEdges ((v', m1', m2') : ℕ × ℕ × ℕ)).toFinset).card ≤ 1 := by
  rw [Finset.card_le_one]
  have key : ∀ E, E ∈ faceEdges ((v, m1, m2) : ℕ × ℕ × ℕ) →
      E ∈ faceEdges ((v', m1', m2') : ℕ × ℕ × ℕ) → E = edgeKey m1 m2 := by
    intro E hEu hEw
    by_cases hlow : E.1 < nv ∨ E.2 < nv
    · have hu := corner_low_comp hv h1 h2 E hEu hlow
      have hw := corner_low_comp hv' h1' h2' E hEw hlow
      exfalso
      rcases hu with ⟨e1, e2⟩ | ⟨e1, e2⟩ <;>
        rcases hw with ⟨e1', e2'⟩ | ⟨e1', e2'⟩ <;> omega
    · push_neg at hlow
      exact corner_high_comp hv h1 h2 E hEu hlow.1 hlow.2
  intro E1 hE1 E2 hE2
  rw [Finset.mem_inter, Multiset.mem_toFinset, Multiset.mem_toFinset] at hE1 hE2
  rw [key E1 hE1.1 hE1.2, key E2 hE2.1 hE2.2]

/-- A corner subface and the centre subface share at most the corner's
internal edge. -/
theorem inter_card_corner_center {nv v m1 m2 w1 w2 w3 : ℕ}
    (hv : v < nv) (h1 : nv ≤ m1) (h2 : nv ≤ m2)
    (hw1 : nv ≤ w1) (hw2 : nv ≤ w2) (hw3 : nv ≤ w3) :
    ((faceEdges ((v, m1, m2) : ℕ × ℕ × ℕ)).toFinset ∩
      (faceEdges ((w1, w2, w3) : ℕ × ℕ × ℕ)).toFinset).card ≤ 1 := by
  rw [Finset.card_le_one]
  have key : ∀ E, E ∈ faceEdges ((v, m1, m2) : ℕ × ℕ × ℕ) →
      E ∈ faceEdges ((w1, w2, w3) : ℕ × ℕ × ℕ) → E = edgeKey m1 m2 := by
    intro E hEu hEw
    obtain ⟨c1, c2⟩ := center_high_comp hw1 hw2 hw3 E hEw
    exact corner_high_comp hv h1 h2 E hEu c1 c2
  intro E1 hE1 E2 hE2
  rw [Finset.mem_inter, Multiset.mem_toFinset, Multiset.mem_toFinset] at hE1 hE2
  rw [key E1 hE1.1 hE1.2, key E2 hE2.1 hE2.2]

/-- Within one parent, the four subfaces pairwise share at most one
edge. -/
theorem within_parent_share {nv : ℕ} {μ : ℕ × ℕ → ℕ} {F : List (ℕ × ℕ × ℕ)}
    (hμf : ∀ e ∈ edgeM F, nv ≤ μ e) {f : ℕ × ℕ × ℕ} (hf : f ∈ F)
    (hdist : f.1 ≠ f.2.1 ∧ f.2.1 ≠ f.2.2 ∧ f.2.2 ≠ f.1)
    (hb : f.1 < nv ∧ f.2.1 < nv ∧ f.2.2 < nv) :
    (sub4 f μ).Pairwise (fun u w =>
      ((faceEdges u).toFinset ∩ (faceEdges w).toFinset).card ≤ 1) := by
  obtain ⟨a, b, c⟩ := f
  simp only at hdist hb
  have hab : nv ≤ μ (edgeKey a b) :=
    hμf _ (mem_edgeM.2 ⟨_, hf, by simp [faceEdges]⟩)
  have hbc : nv ≤ μ (edgeKey b c) :=
    hμf _ (mem_edgeM.2 ⟨_, hf, by simp [faceEdges]⟩)
  have hca : nv ≤ μ (edgeKey c a) :=
    hμf _ (mem_edgeM.2 ⟨_, hf, by simp [faceEdges]⟩)
  show List.Pairwise _ [(a, μ (edgeKey a b), μ (edgeKey c a)),
    (b, μ (edgeKey b c), μ (edgeKey a b)), (c, μ (edgeKey c a), μ (edgeKey b c)),
    (μ (edgeKey a b), μ (edgeKey b c), μ (edgeKey c a))]
  refine List.Pairwise.cons ?_ (List.Pairwise.cons ?_
    (List.Pairwise.cons ?_ (List.pairwise_singleton _ _)))
  · intro w hw
    rcases List.mem_cons.1 hw with rfl | hw
    · exact inter_card_corner_corner hb.1 hb.2.1 hdist.1 hab hca hbc hab
    rcases List.mem_cons.1 hw with rfl | hw
    · exact inter_card_corner_corner hb.1 hb.2.2 (fun h => hdist.2.2 h.symm)
        hab hca hca hbc
    rcases List.mem_cons.1 hw with rfl | hw
    · exact inter_card_corner_center hb.1 hab hca hab hbc hca
    · simp at hw
  · intro w hw
    rcases List.mem_cons.1 hw with rfl | hw
    · exact inter_card_corner_corner hb.2.1 hb.2.2 hdist.2.1 hbc hab hca hbc
    rcases List.mem_cons.1 hw with rfl | hw
    · exact inter_card_corner_center hb.2.1 hbc hab hab hbc hca
    · simp at hw
  · intro w hw
    rcases List.mem_cons.1 hw with rfl | hw
    · exact inter_card_corner_center hb.2.2 hca hbc hab hbc hca
    · simp at hw

/-- A half edge of a subface identifies the subface's corner: its low
component is the old corner vertex the subface sits at. -/
theorem half_corner_eq {nv : ℕ} {μ : ℕ × ℕ → ℕ} {F : List (ℕ × ℕ × ℕ)}
    (hμf : ∀ e ∈ edgeM F, nv ≤ μ e) {f : ℕ × ℕ × ℕ} (hf : f ∈ F)
    (hb : f.1 < nv ∧ f.2.1 < nv ∧ f.2.2 < nv) :
    ∀ u ∈ sub4 f μ, ∀ E ∈ faceEdges u, ∀ (x : ℕ) (d : ℕ × ℕ), x < nv →
      d ∈ edgeM F → E = edgeKey x (μ d) → x = u.1 := by
  obtain ⟨a, b, c⟩ := f
  simp only at hb
  intro u hu E hE x d hx hd hEeq
  have hmd : nv ≤ μ d := hμf d hd
  have hcomp : (E.1 = x ∧ E.2 = μ d) ∨ (E.1 = μ d ∧ E.2 = x) := by
    rcases edgeKey_cases x (μ d) with h | h <;> rw [hEeq, h] <;> simp
  have hab : nv ≤ μ (edgeKey a b) :=
    hμf _ (mem_edgeM.2 ⟨_, hf, by simp [faceEdges]⟩)
  have hbc : nv ≤ μ (edgeKey b c) :=
    hμf _ (mem_edgeM.2 ⟨_, hf, by simp [faceEdges]⟩)
  have hca : nv ≤ μ (edgeKey c a) :=
    hμf _ (mem_edgeM.2 ⟨_, hf, by simp [faceEdges]⟩)
  simp only [sub4, List.mem_cons, List.mem_singleton, List.not_mem_nil,
    or_false] at hu
  rcases hu with rfl | rfl | rfl | rfl
  · have := corner_low_comp hb.1 hab hca E hE (by omega)
    simp only
    omega
  · have := corner_low_comp hb.2.1 hbc hab E hE (by omega)
    simp only
    omega
  · have := corner_low_comp hb.2.2 hca hbc E hE (by omega)
    simp only
    omega
  · obtain ⟨c1, c2⟩ := center_high_comp hab hbc hca E hE
    omega

/-- Subfaces of two different parents that share at most one edge again
share at most one edge. -/
theorem cross_parent_share {nv : ℕ} {μ : ℕ × ℕ → ℕ} {F : List (ℕ × ℕ × ℕ)}
    {cache : List ((ℕ × ℕ) × ℕ)} (hInv : MeshInv F nv cache)
    (hμf : ∀ e ∈ edgeM F, nv ≤ μ e)
    (hμi : ∀ e1 ∈ edgeM F, ∀ e2 ∈ edgeM F, μ e1 = μ e2 → e1 = e2)
    {f g : ℕ × ℕ × ℕ} (hf : f ∈ F) (hg : g ∈ F)
    (hshare : ((faceEdges f).toFinset ∩ (faceEdges g).toFinset).card ≤ 1) :
    ∀ u ∈ sub4 f μ, ∀ w ∈ sub4 g μ,
      ((faceEdges u).toFinset ∩ (faceEdges w).toFinset).card ≤ 1 := by
  intro u hu w hw
  rw [Finset.card_le_one]
  have hclass : ∀ E, E ∈ faceEdges u → E ∈ faceEdges w →
      ∃ x d, d ∈ faceEdges f ∧ d ∈ faceEdges g ∧ x < nv ∧
        E = edgeKey x (μ d) := by
    intro E heu hew
    have hEf : E ∈ edgeM (sub4 f μ) := mem_edgeM.2 ⟨u, hu, heu⟩
    have hEg : E ∈ edgeM (sub4 g μ) := mem_edgeM.2 ⟨w, hw, hew⟩
    have hedgeF : ∀ d, d ∈ faceEdges f → d ∈ edgeM F :=
      fun d hd => mem_edgeM.2 ⟨f, hf, hd⟩
    have hedgeG : ∀ d, d ∈ faceEdges g → d ∈ edgeM F :=
      fun d hd => mem_edgeM.2 ⟨g, hg, hd⟩
    rcases shape_subfaces (hInv.distinct f hf) (hInv.bounds f hf) E hEf with
      ⟨x, d, hdf, hxd, hxlt, hEeq⟩ | ⟨da, db, hdaf, hdbf, hnedab, hEeq⟩
    · rcases shape_subfaces (hInv.distinct g hg) (hInv.bounds g hg) E hEg with
        ⟨x', d', hdg, hxd', hxlt', hEeq'⟩ | ⟨da', db', hdag, hdbg, hne', hEeq'⟩
      · have heq : edgeKey x (μ d) = edgeKey x' (μ d') := by
          rw [← hEeq, ← hEeq']
        rcases edgeKey_eq_iff.1 heq with ⟨e1, e2⟩ | ⟨e1, e2⟩
        · have hd' : d = d' := hμi _ (hedgeF d hdf) _ (hedgeG d' hdg) e2
          exact ⟨x, d, hdf, hd' ▸ hdg, hxlt, hEeq⟩
        · have := hμf _ (hedgeG d' hdg)
          omega
      · exfalso
        have heq : edgeKey x (μ d) = edgeKey (μ da') (μ db') := by
          rw [← hEeq, ← hEeq']
        have h1 := hμf _ (hedgeG da' hdag)
        have h2 := hμf _ (hedgeG db' hdbg)
        rcases edgeKey_eq_iff.1 heq with ⟨e1, e2⟩ | ⟨e1, e2⟩ <;> omega
    · rcases shape_subfaces (hInv.distinct g hg) (hInv.bounds g hg) E hEg with
        ⟨x', d', hdg, hxd', hxlt', hEeq'⟩ | ⟨da', db', hdag, hdbg, hne', hEeq'⟩
      · exfalso
        have heq : edgeKey (μ da) (μ db) = edgeKey x' (μ d') := by
          rw [← hEeq, ← hEeq']
        have h1 := hμf _ (mem_edgeM.2 ⟨f, hf, hdaf⟩)
        have h2 := hμf _ (mem_edgeM.2 ⟨f, hf, hdbf⟩)
        rcases edgeKey_eq_iff.1 heq with ⟨e1, e2⟩ | ⟨e1, e2⟩ <;> omega
      · exfalso
        have heq : edgeKey (μ da) (μ db) = edgeKey (μ da') (μ db') := by
          rw [← hEeq, ← hEeq']
        have hboth : da ∈ faceEdges g ∧ db ∈ faceEdges g := by
          rcases edgeKey_eq_iff.1 heq with ⟨e1, e2⟩ | ⟨e1, e2⟩
          · have ha := hμi _ (mem_edgeM.2 ⟨f, hf, hdaf⟩) _
              (mem_edgeM.2 ⟨g, hg, hdag⟩) e1
            have hbb := hμi _ (mem_edgeM.2 ⟨f, hf, hdbf⟩) _
              (mem_edgeM.2 ⟨g, hg, hdbg⟩) e2
            exact ⟨ha ▸ hdag, hbb ▸ hdbg⟩
          · have ha := hμi _ (mem_edgeM.2 ⟨f, hf, hdaf⟩) _
              (mem_edgeM.2 ⟨g, hg, hdbg⟩) e1
            have hbb := hμi _ (mem_edgeM.2 ⟨f, hf, hdbf⟩) _
              (mem_edgeM.2 ⟨g, hg, hdag⟩) e2
            exact ⟨ha ▸ hdbg, hbb ▸ hdag⟩
        have hsub : ({da, db} : Finset (ℕ × ℕ)) ⊆
            (faceEdges f).toFinset ∩ (faceEdges g).toFinset := by
          intro e he
          rcases Finset.mem_insert.1 he with rfl | he
          · exact Finset.mem_inter.2 ⟨Multiset.mem_toFinset.2 hdaf,
              Multiset.mem_toFinset.2 hboth.1⟩
          · rw [Finset.mem_singleton] at he
            subst he
            exact Finset.mem_inter.2 ⟨Multiset.mem_toFinset.2 hdbf,
              Multiset.mem_toFinset.2 hboth.2⟩
        have h2 : ({da, db} : Finset (ℕ × ℕ)).card = 2 := Finset.card_pair hnedab
        have := Finset.card_le_card hsub
        omega
  intro E1 hE1 E2 hE2
  rw [Finset.mem_inter, Multiset.mem_toFinset, Multiset.mem_toFinset] at hE1 hE2
  obtain ⟨x1, d1, hd1f, hd1g, hx1, hE1eq⟩ := hclass E1 hE1.1 hE1.2
  obtain ⟨x2, d2, hd2f, hd2g, hx2, hE2eq⟩ := hclass E2 hE2.1 hE2.2
  have hd12 : d1 = d2 := by
    have hm1 : d1 ∈ (faceEdges f).toFinset ∩ (faceEdges g).toFinset :=
      Finset.mem_inter.2 ⟨Multiset.mem_toFinset.2 hd1f,
        Multiset.mem_toFinset.2 hd1g⟩
    have hm2 : d2 ∈ (faceEdges f).toFinset ∩ (faceEdges g).toFinset :=
      Finset.mem_inter.2 ⟨Multiset.mem_toFinset.2 hd2f,
        Multiset.mem_toFinset.2 hd2g⟩
    exact Finset.card_le_one.1 hshare d1 hm1 d2 hm2
  have hx12 : x1 = x2 := by
    have e1 := half_corner_eq hμf hf (hInv.bounds f hf) u hu E1 hE1.1 x1 d1 hx1
      (mem_edgeM.2 ⟨f, hf, hd1f⟩) hE1eq
    have e2 := half_corner_eq hμf hf (hInv.bounds f hf) u hu E2 hE2.1 x2 d2 hx2
      (mem_edgeM.2 ⟨f, hf, hd2f⟩) hE2eq
    rw [e1, e2]
  rw [hE1eq, hE2eq, hd12, hx12]

/-- All subdivided faces pairwise share at most one edge. -/
theorem share_preserved {nv : ℕ} {μ : ℕ × ℕ → ℕ} {F : List (ℕ × ℕ × ℕ)}
    {cache : List ((ℕ × ℕ) × ℕ)} (hInv : MeshInv F nv cache)
    (hμf : ∀ e ∈ edgeM F, nv ≤ μ e)
    (hμi : ∀ e1 ∈ edgeM F, ∀ e2 ∈ edgeM F, μ e1 = μ e2 → e1 = e2) :
    (F.flatMap fun f => sub4 f μ).Pairwise fun u w =>
      ((faceEdges u).toFinset ∩ (faceEdges w).toFinset).card ≤ 1 := by
  have hflat : F.flatMap (fun f => sub4 f μ) =
      (F.map fun f => sub4 f μ).flatten := rfl
  rw [hflat, List.pairwise_flatten]
  constructor
  · intro s hs
    obtain ⟨f, hf, rfl⟩ := List.mem_map.1 hs
    exact within_parent_share hμf hf (hInv.distinct f hf) (hInv.bounds f hf)
  · rw [List.pairwise_map]
    refine List.Pairwise.imp_of_mem ?_ hInv.share
    intro f g hf hg hshare
    exact cross_parent_share hInv hμf hμi hf hg hshare

/-- Bounds of the components of each subface. -/
theorem sub4_bounds {nv nv' : ℕ} {μ : ℕ × ℕ → ℕ} {F : List (ℕ × ℕ × ℕ)}
    (hnv : nv ≤ nv') (hμb : ∀ e ∈ edgeM F, μ e < nv')
    {f : ℕ × ℕ × ℕ} (hf : f ∈ F)
    (hb : f.1 < nv ∧ f.2.1 < nv ∧ f.2.2 < nv) :
    ∀ u ∈ sub4 f μ, u.1 < nv' ∧ u.2.1 < nv' ∧ u.2.2 < nv' := by
  obtain ⟨a, b, c⟩ := f
  simp only at hb
  have hab : μ (edgeKey a b) < nv' :=
    hμb _ (mem_edgeM.2 ⟨_, hf, by simp [faceEdges]⟩)
  have hbc : μ (edgeKey b c) < nv' :=
    hμb _ (mem_edgeM.2 ⟨_, hf, by simp [faceEdges]⟩)
  have hca : μ (edgeKey c a) < nv' :=
    hμb _ (mem_edgeM.2 ⟨_, hf, by simp [faceEdges]⟩)
  intro u hu
  simp only [sub4, List.mem_cons, List.mem_singleton, List.not_mem_nil,
    or_false] at hu
  rcases hu with rfl | rfl | rfl | rfl <;> dsimp only <;>
    exact ⟨by omega, by omega, by omega⟩

/-- Every subface has three pairwise distinct corners. -/
theorem sub4_distinct {nv : ℕ} {μ : ℕ × ℕ → ℕ} {F : List (ℕ × ℕ × ℕ)}
    (hμf : ∀ e ∈ edgeM F, nv ≤ μ e)
    (hμi : ∀ e1 ∈ edgeM F, ∀ e2 ∈ edgeM F, μ e1 = μ e2 → e1 = e2)
    {f : ℕ × ℕ × ℕ} (hf : f ∈ F)
    (hdist : f.1 ≠ f.2.1 ∧ f.2.1 ≠ f.2.2 ∧ f.2.2 ≠ f.1)
    (hb : f.1 < nv ∧ f.2.1 < nv ∧ f.2.2 < nv) :
    ∀ u ∈ sub4 f μ, u.1 ≠ u.2.1 ∧ u.2.1 ≠ u.2.2 ∧ u.2.2 ≠ u.1 := by
  obtain ⟨a, b, c⟩ := f
  simp only at hdist hb
  have hmab : edgeKey a b ∈ edgeM F := mem_edgeM.2 ⟨_, hf, by simp [faceEdges]⟩
  have hmbc : edgeKey b c ∈ edgeM F := mem_edgeM.2 ⟨_, hf, by simp [faceEdges]⟩
  have hmca : edgeKey c a ∈ edgeM F := mem_edgeM.2 ⟨_, hf, by simp [faceEdges]⟩
  have hab : nv ≤ μ (edgeKey a b) := hμf _ hmab
  have hbc : nv ≤ μ (edgeKey b c) := hμf _ hmbc
  have hca : nv ≤ μ (edgeKey c a) := hμf _ hmca
  obtain ⟨hne1, hne2, hne3⟩ := faceEdges_distinct
    (f := (a, b, c)) ⟨hdist.1, hdist.2.1, hdist.2.2⟩
  simp only at hne1 hne2 hne3
  have i1 : μ (edgeKey a b) ≠ μ (edgeKey b c) :=
    fun h => hne1 (hμi _ hmab _ hmbc h)
  have i2 : μ (edgeKey b c) ≠ μ (edgeKey c a) :=
    fun h => hne2 (hμi _ hmbc _ hmca h)
  have i3 : μ (edgeKey c a) ≠ μ (edgeKey a b) :=
    fun h => hne3 (hμi _ hmca _ hmab h)
  intro u hu
  simp only [sub4, List.mem_cons, List.mem_singleton, List.not_mem_nil,
    or_false] at hu
  rcases hu with rfl | rfl | rfl | rfl <;> dsimp only
  · exact ⟨by omega, fun h => i3 h.symm, by omega⟩
  · exact ⟨by omega, fun h => i1 h.symm, by omega⟩
  · exact ⟨by omega, fun h => i2 h.symm, by omega⟩
  · exact ⟨i1, i2, i3⟩

/-- Every edge of the subdivided mesh has its greater endpoint at or
above the old vertex count. -/
theorem edgeM_high {nv : ℕ} {μ : ℕ × ℕ → ℕ} {F : List (ℕ × ℕ × ℕ)}
    {cache : List ((ℕ × ℕ) × ℕ)} (hInv : MeshInv F nv cache)
    (hμf : ∀ e ∈ edgeM F, nv ≤ μ e) :
    ∀ E ∈ edgeM (F.flatMap fun f => sub4 f μ), nv ≤ E.2 := by
  intro E hE
  obtain ⟨u, hu, hEu⟩ := mem_edgeM.1 hE
  obtain ⟨f, hf, huf⟩ := List.mem_flatMap.1 hu
  rcases shape_subfaces (hInv.distinct f hf) (hInv.bounds f hf) E
      (mem_edgeM.2 ⟨u, huf, hEu⟩) with
    ⟨x, d, hdf, _, hxlt, rfl⟩ | ⟨da, db, hdaf, hdbf, _, rfl⟩
  · have hmd := hμf d (mem_edgeM.2 ⟨f, hf, hdf⟩)
    rw [edgeKey_of_lt (show x < μ d by omega)]
    exact hmd
  · have h1 := hμf da (mem_edgeM.2 ⟨f, hf, hdaf⟩)
    have h2 := hμf db (mem_edgeM.2 ⟨f, hf, hdbf⟩)
    rcases edgeKey_cases (μ da) (μ db) with h | h <;> rw [h] <;> dsimp only <;>
      omega

/-- Every edge of the old mesh has both endpoints below the old vertex
count. -/
theorem edgeM_lt {nv : ℕ} {F : List (ℕ × ℕ × ℕ)}
    (hb : ∀ f ∈ F, f.1 < nv ∧ f.2.1 < nv ∧ f.2.2 < nv) :
    ∀ e ∈ edgeM F, e.1 < nv ∧ e.2 < nv := by
  intro e he
  obtain ⟨f, hf, hef⟩ := mem_edgeM.1 he
  obtain ⟨a, b, c⟩ := f
  have hbf := hb _ hf
  simp only at hbf
  simp only [faceEdges, Multiset.insert_eq_cons, Multiset.mem_cons,
    Multiset.mem_singleton] at hef
  rcases hef with rfl | rfl | rfl
  · exact edgeKey_fst_lt hbf.1 hbf.2.1
  · exact edgeKey_fst_lt hbf.2.1 hbf.2.2
  · exact edgeKey_fst_lt hbf.2.2 hbf.1

/-- Subdividing each face into four quadruples the face count. -/
theorem length_flatMap_sub4 (F : List (ℕ × ℕ × ℕ)) (μ : ℕ × ℕ → ℕ) :
    (F.flatMap fun f => sub4 f μ).length = 4 * F.length := by
  induction F with
  | nil => simp
  | cons f rest ih =>
    rw [List.flatMap_cons, List.length_append, ih]
    have h4 : (sub4 f μ).length = 4 := by simp [sub4]
    rw [h4, List.length_cons]
    ring

/-- One subdivision pass preserves the mesh invariants, adds one vertex
per distinct edge, quadruples the face count, and the distinct-edge
count is three halves of the face count. -/
theorem meshInv_step {P : Type} (mid : P → P → P) (dflt : P)
    (hmid : ∀ u v, mid u v = mid v u)
    {F : List (ℕ × ℕ × ℕ)} {verts : List P} {cache : List ((ℕ × ℕ) × ℕ)}
    (hInv : MeshInv F verts.length cache) :
    MeshInv (subdividePass mid dflt F ⟨verts, cache⟩).1
        (subdividePass mid dflt F ⟨verts, cache⟩).2.verts.length
        (subdividePass mid dflt F ⟨verts, cache⟩).2.cache ∧
      (subdividePass mid dflt F ⟨verts, cache⟩).2.verts.length =
        verts.length + (edgeM F).toFinset.card ∧
      (subdividePass mid dflt F ⟨verts, cache⟩).1.length = 4 * F.length ∧
      2 * (edgeM F).toFinset.card = 3 * F.length := by
  obtain ⟨new', hcache, hnodup, hkeys, hlen, hpre, hfaces, hbnd, hinj, hsub,
    hval⟩ := subdividePass_summary mid dflt hmid F verts cache hInv.bounds
      hInv.staleKeys
  have hμf : ∀ e ∈ edgeM F, verts.length ≤
      cacheIdx (subdividePass mid dflt F ⟨verts, cache⟩).2.cache e :=
    fun e he => (hbnd e he).1
  have hμb : ∀ e ∈ edgeM F,
      cacheIdx (subdividePass mid dflt F ⟨verts, cache⟩).2.cache e <
        verts.length + (edgeM F).toFinset.card :=
    fun e he => (hbnd e he).2
  have hold : ∀ e ∈ edgeM F, e.1 < verts.length ∧ e.2 < verts.length :=
    edgeM_lt hInv.bounds
  have hhigh := edgeM_high hInv hμf
  have hcount : 2 * (edgeM F).toFinset.card = 3 * F.length := by
    have hsum : ∑ a ∈ (edgeM F).toFinset, (edgeM F).count a =
        Multiset.card (edgeM F) := Multiset.toFinset_sum_count_eq _
    have hsum2 : ∑ a ∈ (edgeM F).toFinset, (edgeM F).count a =
        2 * (edgeM F).toFinset.card := by
      rw [Finset.sum_congr rfl
        (fun a ha => hInv.mult2 a (Multiset.mem_toFinset.1 ha))]
      simp [mul_comm]
    rw [← hsum2, hsum, edgeM_card]
  refine ⟨?_, hlen, ?_, hcount⟩
  · refine ⟨?_, ?_, ?_, ?_, ?_, ?_, ?_⟩
    · rw [hfaces, hlen]
      intro u hu
      obtain ⟨f, hf, huf⟩ := List.mem_flatMap.1 hu
      exact sub4_bounds (Nat.le_add_right _ _) hμb hf (hInv.bounds f hf) u huf
    · rw [hfaces]
      intro u hu
      obtain ⟨f, hf, huf⟩ := List.mem_flatMap.1 hu
      exact sub4_distinct hμf hinj hf (hInv.distinct f hf)
        (hInv.bounds f hf) u huf
    · rw [hfaces]
      exact mult2_preserved hInv hμf hinj
    · rw [hfaces]
      exact share_preserved hInv hμf hinj
    · rw [hcache]
      intro kv hkv hmem
      have hv2 : kv.1.2 < verts.length := by
        rcases List.mem_append.1 hkv with h | h
        · exact (hold kv.1 (hsub kv h)).2
        · exact (hInv.keyBounds kv h).2
      have := hhigh kv.1 (by rw [← hfaces]; exact hmem)
      omega
    · rw [hcache, hlen]
      intro kv hkv
      rcases List.mem_append.1 hkv with h | h
      · have := hold kv.1 (hsub kv h)
        omega
      · have := hInv.keyBounds kv h
        omega
    · rw [hcache, List.map_append]
      refine List.Nodup.append hnodup hInv.keysNodup ?_
      intro k hk1 hk2
      obtain ⟨kv1, hkv1, he1⟩ := List.mem_map.1 hk1
      obtain ⟨kv2, hkv2, he2⟩ := List.mem_map.1 hk2
      exact hInv.staleKeys kv2 hkv2 (by rw [he2, ← he1]; exact hsub kv1 hkv1)
  · rw [hfaces, length_flatMap_sub4]

/-- Iterating the subdivision pass from an invariant state multiplies the
face count by `4^n` and grows the vertex count by half the face count
times `4^n - 1`. -/
theorem subdivideIter_counts {P : Type} (mid : P → P → P) (dflt : P)
    (hmid : ∀ u v, mid u v = mid v u) :
    ∀ (n : ℕ) (F : List (ℕ × ℕ × ℕ)) (verts : List P)
      (cache : List ((ℕ × ℕ) × ℕ)), MeshInv F verts.length cache →
      (subdivideIter mid dflt n F ⟨verts, cache⟩).1.length =
          4 ^ n * F.length ∧
        2 * (subdivideIter mid dflt n F ⟨verts, cache⟩).2.verts.length +
            F.length =
          2 * verts.length + F.length * 4 ^ n
  | 0, F, verts, cache, _ => by simp [subdivideIter]
  | n + 1, F, verts, cache, hInv => by
    obtain ⟨hInv', hlen, hquad, hcount⟩ := meshInv_step mid dflt hmid hInv
    have hIter : subdivideIter mid dflt (n + 1) F ⟨verts, cache⟩ =
        subdivideIter mid dflt n (subdividePass mid dflt F ⟨verts, cache⟩).1
          (subdividePass mid dflt F ⟨verts, cache⟩).2 := rfl
    obtain ⟨ih1, ih2⟩ := subdivideIter_counts mid dflt hmid n
      (subdividePass mid dflt F ⟨verts, cache⟩).1
      (subdividePass mid dflt F ⟨verts, cache⟩).2.verts
      (subdividePass mid dflt F ⟨verts, cache⟩).2.cache hInv'
    rw [hIter]
    have hpow' : (4 : ℕ) ^ (n + 1) = 4 ^ n * 4 := pow_succ 4 n
    rw [hquad, hlen] at ih2
    constructor
    · rw [ih1, hquad, hpow']
      ring
    · rw [hpow']
      nlinarith [ih2, hcount]

/-- A flat-map whose blocks all have length `k` multiplies the length
by `k`. -/
theorem length_flatMap_const {α β : Type} (k : ℕ) (f : α → List β)
    (hf : ∀ a, (f a).length = k) :
    ∀ l : List α, (l.flatMap f).length = k * l.length
  | [] => by simp
  | a :: t => by
    rw [List.flatMap_cons, List.length_append, hf,
      length_flatMap_const k f hf t, List.length_cons]
    ring

/-- The spherical midpoint is symmetric in its two endpoints. -/
theorem midSphere_comm (u v : Vec3) : midSphere u v = midSphere v u := by
  simp [midSphere, add_comm]

/-- The base icosahedron (12 vertices, 20 faces, empty cache) satisfies
the combinatorial mesh invariants. -/
theorem meshInv0 : MeshInv faces0 12 [] := by
  refine ⟨?_, ?_, ?_, ?_, ?_, ?_, ?_⟩
  · decide
  · decide
  · decide
  · decide
  · decide
  · decide
  · decide

/-- Indexing into a flat-map whose blocks all have length `k`. -/
theorem getD_flatMap_blocks {α β : Type} (g : α → List β) (k : ℕ) (d : β)
    (d' : α) (hg : ∀ a, (g a).length = k) :
    ∀ (l : List α) (i j : ℕ), i < l.length → j < k →
      (l.flatMap g).getD (k * i + j) d = (g (l.getD i d')).getD j d
  | [], i, _, hi, _ => by simp at hi
  | a :: t, 0, j, _, hj => by
    rw [List.flatMap_cons, Nat.mul_zero, Nat.zero_add,
      SeamFix.getD_append_lt (by rw [hg a]; exact hj) d]
    rfl
  | a :: t, i + 1, j, hi, hj => by
    rw [List.flatMap_cons]
    have hidx : k * (i + 1) + j = k + (k * i + j) := by ring
    rw [hidx, SeamFix.getD_append_skip _ _ k _ (hg a) d,
      getD_flatMap_blocks g k d d' hg t i j
        (by simp only [List.length_cons] at hi; omega) hj]
    rfl

/-- The u coordinate always lands in `[0, 1]` (in fact in `(0, 1]`),
because `atan2` ranges over `(-π, π]`. -/
theorem uvU_mem (x z : ℝ) : 0 ≤ uvU x z ∧ uvU x z ≤ 1 := by
  have h1 : Complex.arg ⟨x, z⟩ ≤ Real.pi := Complex.arg_le_pi _
  have h2 : -Real.pi < Complex.arg ⟨x, z⟩ := Complex.neg_pi_lt_arg _
  have hπ : 0 < Real.pi := Real.pi_pos
  have hua : Complex.arg ⟨x, z⟩ / (2 * Real.pi) ≤ 1 / 2 := by
    rw [div_le_iff (by positivity)]
    linarith
  have hub : -(1 / 2) < Complex.arg ⟨x, z⟩ / (2 * Real.pi) := by
    rw [lt_div_iff (by positivity)]
    linarith
  simp only [uvU, atan2]
  split_ifs <;> constructor <;> linarith

/-- The v coordinate is clamped into `[0, 1]` before inversion, so it
lands in `[0, 1]`. -/
theorem uvV_mem (y : ℝ) : 0 ≤ uvV y ∧ uvV y ≤ 1 := by
  simp only [uvV]
  have h0 : (0 : ℝ) ≤
      max 0 (min 1 (Real.arcsin (max (-1) (min 1 y)) / Real.pi + 1 / 2)) :=
    le_max_left _ _
  have h1 : max 0 (min 1 (Real.arcsin (max (-1) (min 1 y)) / Real.pi + 1 / 2)) ≤
      1 :=
    max_le (by norm_num) (min_le_left _ _)
  constructor <;> linarith

/-- A `getD` at an in-range index is a member of the list. -/
theorem getD_mem' {α : Type} {l : List α} {i : ℕ} (h : i < l.length) (d : α) :
    l.getD i d ∈ l := by
  rw [List.getD_eq_getElem?_getD, List.getElem?_eq_getElem h]
  exact List.getElem_mem h

theorem dot3_comm (u v : Vec3) : dot3 u v = dot3 v u := by
  unfold dot3
  ring

/-- A vector of `hypot` 1 has its sum of squared components equal to 1. -/
theorem sq_of_hypot3 {v : Vec3} (h : hypot3 v = 1) :
    v.x ^ 2 + v.y ^ 2 + v.z ^ 2 = 1 := by
  have hnn : 0 ≤ v.x ^ 2 + v.y ^ 2 + v.z ^ 2 := by positivity
  calc v.x ^ 2 + v.y ^ 2 + v.z ^ 2
      = Real.sqrt (v.x ^ 2 + v.y ^ 2 + v.z ^ 2) ^ 2 := (Real.sq_sqrt hnn).symm
    _ = 1 := by rw [show Real.sqrt (v.x ^ 2 + v.y ^ 2 + v.z ^ 2) = 1 from h]; norm_num

theorem dot3_self {v : Vec3} (h : hypot3 v = 1) : dot3 v v = 1 := by
  have := sq_of_hypot3 h
  unfold dot3
  nlinarith [this]

/-- Normalising a vector of positive length yields a unit vector. -/
theorem hypot3_normalize3 {v : Vec3} (h : 0 < hypot3 v) :
    hypot3 (normalize3 v) = 1 := by
  have hS : 0 < v.x ^ 2 + v.y ^ 2 + v.z ^ 2 := by
    by_contra hc
    push_neg at hc
    have h0 : hypot3 v = 0 := by
      unfold hypot3
      exact Real.sqrt_eq_zero'.2 hc
    linarith
  have hs0 : Real.sqrt (v.x ^ 2 + v.y ^ 2 + v.z ^ 2) ^ 2 =
      v.x ^ 2 + v.y ^ 2 + v.z ^ 2 := Real.sq_sqrt hS.le
  have hne : Real.sqrt (v.x ^ 2 + v.y ^ 2 + v.z ^ 2) ≠ 0 := by
    unfold hypot3 at h
    exact ne_of_gt h
  unfold normalize3 hypot3
  have he : (v.x / Real.sqrt (v.x ^ 2 + v.y ^ 2 + v.z ^ 2)) ^ 2 +
      (v.y / Real.sqrt (v.x ^ 2 + v.y ^ 2 + v.z ^ 2)) ^ 2 +
      (v.z / Real.sqrt (v.x ^ 2 + v.y ^ 2 + v.z ^ 2)) ^ 2 = 1 := by
    field_simp
  rw [he, Real.sqrt_one]

/-- The dot product of normalised vectors is the raw dot product over the
product of the lengths. -/
theorem dot3_normalize3 (u v : Vec3) :
    dot3 (normalize3 u) (normalize3 v) = dot3 u v / (hypot3 u * hypot3 v) := by
  unfold dot3 normalize3
  dsimp only
  ring

theorem dot3_normalize_right (u y : Vec3) :
    dot3 u (normalize3 y) = dot3 u y / hypot3 y := by
  unfold dot3 normalize3
  dsimp only
  ring

/-- Normalisation preserves positivity of the dot product. -/
theorem dot3_normalize_pos {x y : Vec3} (hx : 0 < hypot3 x)
    (hy : 0 < hypot3 y) (hd : 0 < dot3 x y) :
    0 < dot3 (normalize3 x) (normalize3 y) := by
  rw [dot3_normalize3]
  exact div_pos hd (mul_pos hx hy)

/-- The half-sum of two unit vectors with positive dot product has
positive length. -/
theorem midpre_pos {u v : Vec3} (hu : hypot3 u = 1) (hv : hypot3 v = 1)
    (hd : 0 < dot3 u v) :
    0 < hypot3 ⟨(u.x + v.x) / 2, (u.y + v.y) / 2, (u.z + v.z) / 2⟩ := by
  have h1 := sq_of_hypot3 hu
  have h2 := sq_of_hypot3 hv
  unfold dot3 at hd
  unfold hypot3
  apply Real.sqrt_pos.2
  dsimp only
  nlinarith [h1, h2, hd]

/-- The spherical midpoint of two unit vectors with positive dot product
is a unit vector. -/
theorem midSphere_unit {u v : Vec3} (hu : hypot3 u = 1) (hv : hypot3 v = 1)
    (hd : 0 < dot3 u v) : hypot3 (midSphere u v) = 1 := by
  unfold midSphere
  exact hypot3_normalize3 (midpre_pos hu hv hd)

/-- A unit vector keeps a positive dot product with the spherical
midpoint of itself and a unit vector on its positive side. -/
theorem dot3_corner_mid_pos {u v : Vec3} (hu : hypot3 u = 1)
    (hv : hypot3 v = 1) (hd : 0 < dot3 u v) :
    0 < dot3 u (midSphere u v) := by
  unfold midSphere
  rw [dot3_normalize_right]
  apply div_pos ?_ (midpre_pos hu hv hd)
  have h1 := sq_of_hypot3 hu
  unfold dot3 at hd ⊢
  dsimp only
  nlinarith [h1, hd]

/-- Two spherical midpoints of edges of a positively-correlated vertex
set keep a positive dot product. -/
theorem dot3_mid_mid_pos {u v p q : Vec3} (hu : hypot3 u = 1)
    (hv : hypot3 v = 1) (hp : hypot3 p = 1) (hq : hypot3 q = 1)
    (huv : 0 < dot3 u v) (hpq : 0 < dot3 p q)
    (h1 : 0 < dot3 u p) (h2 : 0 < dot3 u q) (h3 : 0 < dot3 v p)
    (h4 : 0 < dot3 v q) :
    0 < dot3 (midSphere u v) (midSphere p q) := by
  unfold midSphere
  apply dot3_normalize_pos (midpre_pos hu hv huv) (midpre_pos hp hq hpq)
  unfold dot3 at h1 h2 h3 h4 ⊢
  dsimp only
  nlinarith [h1, h2, h3, h4]

/-- `getD` on a mapped list at an in-range index. -/
theorem getD_map' {α β : Type} (g : α → β) (d : β) (d' : α) :
    ∀ (l : List α) (k : ℕ), k < l.length →
      (l.map g).getD k d = g (l.getD k d')
  | [], _, hk => by simp at hk
  | a :: t, 0, _ => rfl
  | a :: t, k + 1, hk =>
    getD_map' g d d' t k (by simp only [List.length_cons] at hk; omega)

theorem gr_pos : 0 < gr := by
  unfold gr
  positivity

theorem gr_sq : gr * gr = gr + 1 := by
  have h5 : Real.sqrt 5 * Real.sqrt 5 = 5 :=
    Real.mul_self_sqrt (by norm_num)
  unfold gr
  field_simp
  nlinarith [h5]

/-- The base mesh satisfies the value invariant: all 12 normalised
vertices are unit vectors and every face edge has positive dot. -/
theorem vinv0 : VInv baseVertices faces0 := by
  have hgr := gr_pos
  have hgr2 := gr_sq
  have hraw : ∀ w ∈ baseRaw, 0 < hypot3 w := by
    intro w hw
    simp only [baseRaw, List.mem_cons, List.not_mem_nil, or_false] at hw
    rcases hw with rfl | rfl | rfl | rfl | rfl | rfl | rfl | rfl | rfl | rfl |
      rfl | rfl <;>
      (unfold hypot3; apply Real.sqrt_pos.2; dsimp only; nlinarith [hgr])
  constructor
  · intro v hv
    obtain ⟨w, hw, rfl⟩ := List.mem_map.1 hv
    exact hypot3_normalize3 (hraw w hw)
  · have hrawD : ∀ k, k < 12 → 0 < hypot3 (baseRaw.getD k ⟨0, 0, 0⟩) := by
      intro k hk
      exact hraw _ (getD_mem' (by simp [baseRaw]; omega) _)
    have g0 : baseRaw.getD 0 ⟨0, 0, 0⟩ = ⟨-1, gr, 0⟩ := rfl
    have g1 : baseRaw.getD 1 ⟨0, 0, 0⟩ = ⟨1, gr, 0⟩ := rfl
    have g2 : baseRaw.getD 2 ⟨0, 0, 0⟩ = ⟨-1, -gr, 0⟩ := rfl
    have g3 : baseRaw.getD 3 ⟨0, 0, 0⟩ = ⟨1, -gr, 0⟩ := rfl
    have g4 : baseRaw.getD 4 ⟨0, 0, 0⟩ = ⟨0, -1, gr⟩ := rfl
    have g5 : baseRaw.getD 5 ⟨0, 0, 0⟩ = ⟨0, 1, gr⟩ := rfl
    have g6 : baseRaw.getD 6 ⟨0, 0, 0⟩ = ⟨0, -1, -gr⟩ := rfl
    have g7 : baseRaw.getD 7 ⟨0, 0, 0⟩ = ⟨0, 1, -gr⟩ := rfl
    have g8 : baseRaw.getD 8 ⟨0, 0, 0⟩ = ⟨gr, 0, -1⟩ := rfl
    have g9 : baseRaw.getD 9 ⟨0, 0, 0⟩ = ⟨gr, 0, 1⟩ := rfl
    have g10 : baseRaw.getD 10 ⟨0, 0, 0⟩ = ⟨-gr, 0, -1⟩ := rfl
    have g11 : baseRaw.getD 11 ⟨0, 0, 0⟩ = ⟨-gr, 0, 1⟩ := rfl
    have hdots : ∀ f ∈ faces0,
        0 < dot3 (baseRaw.getD f.1 ⟨0, 0, 0⟩)
            (baseRaw.getD f.2.1 ⟨0, 0, 0⟩) ∧
        0 < dot3 (baseRaw.getD f.2.1 ⟨0, 0, 0⟩)
            (baseRaw.getD f.2.2 ⟨0, 0, 0⟩) ∧
        0 < dot3 (baseRaw.getD f.2.2 ⟨0, 0, 0⟩)
            (baseRaw.getD f.1 ⟨0, 0, 0⟩) := by
      intro f hf
      simp only [faces0, List.mem_cons, List.not_mem_nil, or_false] at hf
      rcases hf with rfl | rfl | rfl | rfl | rfl | rfl | rfl | rfl | rfl |
        rfl | rfl | rfl | rfl | rfl | rfl | rfl | rfl | rfl | rfl | rfl <;>
        refine ⟨?_, ?_, ?_⟩ <;>
        (dsimp only
         simp only [g0, g1, g2, g3, g4, g5, g6, g7, g8, g9, g10, g11]
         unfold dot3
         dsimp only
         nlinarith [hgr, hgr2])
    intro f hf
    obtain ⟨d1, d2, d3⟩ := hdots f hf
    obtain ⟨b1, b2, b3⟩ := meshInv0.bounds f hf
    have h12 : baseRaw.length = 12 := by simp [baseRaw]
    rw [show baseVertices = baseRaw.map normalize3 from rfl,
      getD_map' normalize3 _ ⟨0, 0, 0⟩ baseRaw f.1 (by omega),
      getD_map' normalize3 _ ⟨0, 0, 0⟩ baseRaw f.2.1 (by omega),
      getD_map' normalize3 _ ⟨0, 0, 0⟩ baseRaw f.2.2 (by omega)]
    exact ⟨dot3_normalize_pos (hrawD _ (by omega)) (hrawD _ (by omega)) d1,
      dot3_normalize_pos (hrawD _ (by omega)) (hrawD _ (by omega)) d2,
      dot3_normalize_pos (hrawD _ (by omega)) (hrawD _ (by omega)) d3⟩

/-- One subdivision pass preserves the value invariant: the appended
midpoints are unit vectors and every new face edge keeps a positive dot
product. -/
theorem vinv_step {F : List (ℕ × ℕ × ℕ)} {verts : List Vec3}
    {cache : List ((ℕ × ℕ) × ℕ)} (hInv : MeshInv F verts.length cache)
    (hV : VInv verts F) :
    VInv (subdividePass midSphere ⟨0, 0, 0⟩ F ⟨verts, cache⟩).2.verts
      (subdividePass midSphere ⟨0, 0, 0⟩ F ⟨verts, cache⟩).1 := by
  obtain ⟨new', hcache, hnodup, hkeys, hlen, hpre, hfaces, hbnd, hinj, hsub,
    hval⟩ := subdividePass_summary midSphere ⟨0, 0, 0⟩ midSphere_comm F verts
      cache hInv.bounds hInv.staleKeys
  set nw := (subdividePass midSphere (⟨0, 0, 0⟩ : Vec3) F ⟨verts, cache⟩).2.verts
    with hnw
  set μ := cacheIdx
    (subdividePass midSphere (⟨0, 0, 0⟩ : Vec3) F ⟨verts, cache⟩).2.cache
    with hμdef
  have hunit : ∀ i, i < verts.length → hypot3 (verts.getD i ⟨0, 0, 0⟩) = 1 :=
    fun i hi => hV.1 _ (getD_mem' hi _)
  have hold := edgeM_lt hInv.bounds
  have hedge : ∀ e ∈ edgeM F,
      0 < dot3 (verts.getD e.1 ⟨0, 0, 0⟩) (verts.getD e.2 ⟨0, 0, 0⟩) := by
    intro e he
    obtain ⟨f, hf, hef⟩ := mem_edgeM.1 he
    obtain ⟨a, b, c⟩ := f
    obtain ⟨d1, d2, d3⟩ := hV.2 _ hf
    dsimp only at d1 d2 d3
    simp only [faceEdges, Multiset.insert_eq_cons, Multiset.mem_cons,
      Multiset.mem_singleton] at hef
    rcases hef with rfl | rfl | rfl
    · rcases edgeKey_cases a b with hk | hk <;> rw [hk] <;> dsimp only
      · exact d1
      · rw [dot3_comm]
        exact d1
    · rcases edgeKey_cases b c with hk | hk <;> rw [hk] <;> dsimp only
      · exact d2
      · rw [dot3_comm]
        exact d2
    · rcases edgeKey_cases c a with hk | hk <;> rw [hk] <;> dsimp only
      · exact d3
      · rw [dot3_comm]
        exact d3
  have hmidval : ∀ p q : ℕ, edgeKey p q ∈ edgeM F →
      nw.getD (μ (edgeKey p q)) ⟨0, 0, 0⟩ =
        midSphere (verts.getD p ⟨0, 0, 0⟩) (verts.getD q ⟨0, 0, 0⟩) := by
    intro p q hm
    have h := hval _ hm
    rcases edgeKey_cases p q with hk | hk
    · have e1 : (edgeKey p q).1 = p := by rw [hk]
      have e2 : (edgeKey p q).2 = q := by rw [hk]
      rw [e1, e2] at h
      exact h
    · have e1 : (edgeKey p q).1 = q := by rw [hk]
      have e2 : (edgeKey p q).2 = p := by rw [hk]
      rw [e1, e2] at h
      rw [h]
      exact midSphere_comm _ _
  have hstab : ∀ i, i < verts.length →
      nw.getD i ⟨0, 0, 0⟩ = verts.getD i ⟨0, 0, 0⟩ :=
    fun i hi => SeamFix.getD_prefix hpre hi _
  have hsurj : ∀ j, verts.length ≤ j →
      j < verts.length + (edgeM F).toFinset.card → ∃ e ∈ edgeM F, μ e = j := by
    have himg : (edgeM F).toFinset.image μ ⊆
        Finset.Ico verts.length (verts.length + (edgeM F).toFinset.card) := by
      intro x hx
      obtain ⟨e, he, rfl⟩ := Finset.mem_image.1 hx
      exact Finset.mem_Ico.2 (hbnd e (Multiset.mem_toFinset.1 he))
    have hcard : ((edgeM F).toFinset.image μ).card =
        (edgeM F).toFinset.card :=
      Finset.card_image_of_injOn fun e1 h1 e2 h2 h12 =>
        hinj e1 (Multiset.mem_toFinset.1 h1) e2 (Multiset.mem_toFinset.1 h2) h12
    have heqs : (edgeM F).toFinset.image μ =
        Finset.Ico verts.length (verts.length + (edgeM F).toFinset.card) := by
      apply Finset.eq_of_subset_of_card_le himg
      rw [hcard, Nat.card_Ico]
      omega
    intro j hj1 hj2
    have hj : j ∈ (edgeM F).toFinset.image μ := by
      rw [heqs]
      exact Finset.mem_Ico.2 ⟨hj1, hj2⟩
    obtain ⟨e, he, heq⟩ := Finset.mem_image.1 hj
    exact ⟨e, Multiset.mem_toFinset.1 he, heq⟩
  constructor
  · intro v hv
    obtain ⟨jn, hjn, hvv⟩ := List.mem_iff_getElem.1 hv
    have hgd : nw.getD jn ⟨0, 0, 0⟩ = v := by
      rw [List.getD_eq_getElem?_getD, List.getElem?_eq_getElem hjn]
      exact hvv
    by_cases hlt : jn < verts.length
    · rw [hstab jn hlt] at hgd
      rw [← hgd]
      exact hunit jn hlt
    · have hjn' : jn < verts.length + (edgeM F).toFinset.card := by
        rw [hlen] at hjn
        exact hjn
      obtain ⟨e, he, heq⟩ := hsurj jn (by omega) hjn'
      rw [← heq] at hgd
      rw [hval e he] at hgd
      rw [← hgd]
      have hb := hold e he
      exact midSphere_unit (hunit _ hb.1) (hunit _ hb.2) (hedge e he)
  · intro u hu
    rw [hfaces] at hu
    obtain ⟨f, hf, huf⟩ := List.mem_flatMap.1 hu
    obtain ⟨a, b, c⟩ := f
    obtain ⟨hb1, hb2, hb3⟩ := hInv.bounds _ hf
    dsimp only at hb1 hb2 hb3
    obtain ⟨hd1, hd2, hd3⟩ := hV.2 _ hf
    dsimp only at hd1 hd2 hd3
    have hmab : edgeKey a b ∈ edgeM F :=
      mem_edgeM.2 ⟨_, hf, by simp [faceEdges]⟩
    have hmbc : edgeKey b c ∈ edgeM F :=
      mem_edgeM.2 ⟨_, hf, by simp [faceEdges]⟩
    have hmca : edgeKey c a ∈ edgeM F :=
      mem_edgeM.2 ⟨_, hf, by simp [faceEdges]⟩
    have hA : nw.getD a ⟨0, 0, 0⟩ = verts.getD a ⟨0, 0, 0⟩ := hstab a hb1
    have hB : nw.getD b ⟨0, 0, 0⟩ = verts.getD b ⟨0, 0, 0⟩ := hstab b hb2
    have hC : nw.getD c ⟨0, 0, 0⟩ = verts.getD c ⟨0, 0, 0⟩ := hstab c hb3
    have hAB := hmidval a b hmab
    have hBC := hmidval b c hmbc
    have hCA := hmidval c a hmca
    have uA : hypot3 (verts.getD a ⟨0, 0, 0⟩) = 1 := hunit a hb1
    have uB : hypot3 (verts.getD b ⟨0, 0, 0⟩) = 1 := hunit b hb2
    have uC : hypot3 (verts.getD c ⟨0, 0, 0⟩) = 1 := hunit c hb3
    have sA : 0 < dot3 (verts.getD a ⟨0, 0, 0⟩) (verts.getD a ⟨0, 0, 0⟩) := by
      rw [dot3_self uA]
      norm_num
    have sB : 0 < dot3 (verts.getD b ⟨0, 0, 0⟩) (verts.getD b ⟨0, 0, 0⟩) := by
      rw [dot3_self uB]
      norm_num
    have sC : 0 < dot3 (verts.getD c ⟨0, 0, 0⟩) (verts.getD c ⟨0, 0, 0⟩) := by
      rw [dot3_self uC]
      norm_num
    have hd1c : 0 < dot3 (verts.getD b ⟨0, 0, 0⟩) (verts.getD a ⟨0, 0, 0⟩) := by
      rw [dot3_comm]
      exact hd1
    have hd2c : 0 < dot3 (verts.getD c ⟨0, 0, 0⟩) (verts.getD b ⟨0, 0, 0⟩) := by
      rw [dot3_comm]
      exact hd2
    have hd3c : 0 < dot3 (verts.getD a ⟨0, 0, 0⟩) (verts.getD c ⟨0, 0, 0⟩) := by
      rw [dot3_comm]
      exact hd3
    simp only [sub4, List.mem_cons, List.mem_singleton, List.not_mem_nil,
      or_false] at huf
    rcases huf with rfl | rfl | rfl | rfl <;> dsimp only <;> refine ⟨?_, ?_, ?_⟩
    · rw [hA, hAB]
      exact dot3_corner_mid_pos uA uB hd1
    · rw [hAB, hCA]
      exact dot3_mid_mid_pos uA uB uC uA hd1 hd3 hd3c sA hd2 hd1c
    · rw [hCA, hA, dot3_comm, midSphere_comm]
      exact dot3_corner_mid_pos uA uC hd3c
    · rw [hB, hBC]
      exact dot3_corner_mid_pos uB uC hd2
    · rw [hBC, hAB]
      exact dot3_mid_mid_pos uB uC uA uB hd2 hd1 hd1c sB hd3 hd2c
    · rw [hAB, hB, dot3_comm, midSphere_comm]
      exact dot3_corner_mid_pos uB uA hd1c
    · rw [hC, hCA]
      exact dot3_corner_mid_pos uC uA hd3
    · rw [hCA, hBC]
      exact dot3_mid_mid_pos uC uA uB uC hd3 hd2 hd2c sC hd1 hd3c
    · rw [hBC, hC, dot3_comm, midSphere_comm]
      exact dot3_corner_mid_pos uC uB hd2c
    · rw [hAB, hBC]
      exact dot3_mid_mid_pos uA uB uB uC hd1 hd2 hd1 hd3c sB hd2
    · rw [hBC, hCA]
      exact dot3_mid_mid_pos uB uC uC uA hd2 hd3 hd2 hd1c sC hd3
    · rw [hCA, hAB]
      exact dot3_mid_mid_pos uC uA uA uB hd3 hd1 hd3 hd2c sA hd1

/-- Every vertex accumulated by the iterated subdivision from an
invariant start is a unit vector. -/
theorem vinv_iter :
    ∀ (n : ℕ) (F : List (ℕ × ℕ × ℕ)) (verts : List Vec3)
      (cache : List ((ℕ × ℕ) × ℕ)), MeshInv F verts.length cache →
      VInv verts F →
      ∀ v ∈ (subdivideIter midSphere ⟨0, 0, 0⟩ n F ⟨verts, cache⟩).2.verts,
        hypot3 v = 1
  | 0, _, _, _, _, hV => fun v hv => hV.1 v hv
  | n + 1, F, verts, cache, hInv, hV => by
    have h1 := (meshInv_step midSphere ⟨0, 0, 0⟩ midSphere_comm hInv).1
    have h2 := vinv_step hInv hV
    have hIter : subdivideIter midSphere (⟨0, 0, 0⟩ : Vec3) (n + 1) F
        ⟨verts, cache⟩ =
        subdivideIter midSphere ⟨0, 0, 0⟩ n
          (subdividePass midSphere ⟨0, 0, 0⟩ F ⟨verts, cache⟩).1
          (subdividePass midSphere ⟨0, 0, 0⟩ F ⟨verts, cache⟩).2 := rfl
    rw [hIter]
    exact vinv_iter n _ _ _ h1 h2

end Icosa

namespace Claims

open SeamFix

/-- C8: `fixTextureSeamProperly` preserves the original vertex records as
a prefix of the output, grows the vertex array only by appending the
duplicates (to `originalCount + numDuplicates` vertices), returns an
index array of the same length as the input, and leaves every triangle
that is not flagged as seam-crossing completely untouched (its three
original vertex indices unchanged). -/
theorem fixTextureSeam_frame (verts : List ℚ) (idxs : List ℕ) (is32 : Bool)
    (n : ℕ) (hn : verts.length = 8 * n) (hidx : ∀ x ∈ idxs, x < n)
    (hcap : n + idxs.length ≤ 65536) :
    (fixTextureSeamProperly verts idxs is32).1.take verts.length = verts ∧
    (fixTextureSeamProperly verts idxs is32).1.length =
      verts.length + 8 * dupCount verts idxs ∧
    (fixTextureSeamProperly verts idxs is32).2.length = idxs.length ∧
    ∀ k, 3 * k + 2 < idxs.length →
      ¬ seamCrossing (uOf verts (idxs.getD (3 * k) 0))
          (uOf verts (idxs.getD (3 * k + 1) 0))
          (uOf verts (idxs.getD (3 * k + 2) 0)) →
        (fixTextureSeamProperly verts idxs is32).2.getD (3 * k) 0 =
          idxs.getD (3 * k) 0 ∧
        (fixTextureSeamProperly verts idxs is32).2.getD (3 * k + 1) 0 =
          idxs.getD (3 * k + 1) 0 ∧
        (fixTextureSeamProperly verts idxs is32).2.getD (3 * k + 2) 0 =
          idxs.getD (3 * k + 2) 0 := by
  obtain ⟨h1, h2, h3, h4, _, h6⟩ := fixSeam_spec verts idxs is32 n hn hidx hcap
  refine ⟨by rw [h1, List.take_left], by rw [h1]; simp [h4], by rw [h2, h3], ?_⟩
  intro k hk hns
  obtain ⟨e0, e1, e2⟩ := (h6 k hk).1 hns
  rw [h2]
  exact ⟨e0, e1, e2⟩

/-- Witness for C8 at a concrete single-vertex, single-triangle mesh. -/
theorem fixTextureSeam_frame_witness :
    (([0, 0, 0, 0, 0, 0, 0, 0] : List ℚ).length = 8 * 1 ∧
      (∀ x ∈ [0, 0, 0], x < 1) ∧ 1 + ([0, 0, 0] : List ℕ).length ≤ 65536) ∧
    ((fixTextureSeamProperly [0, 0, 0, 0, 0, 0, 0, 0] [0, 0, 0] false).1.take
        ([0, 0, 0, 0, 0, 0, 0, 0] : List ℚ).length = [0, 0, 0, 0, 0, 0, 0, 0] ∧
      (fixTextureSeamProperly [0, 0, 0, 0, 0, 0, 0, 0] [0, 0, 0] false).1.length =
        ([0, 0, 0, 0, 0, 0, 0, 0] : List ℚ).length +
          8 * dupCount [0, 0, 0, 0, 0, 0, 0, 0] [0, 0, 0] ∧
      (fixTextureSeamProperly [0, 0, 0, 0, 0, 0, 0, 0] [0, 0, 0] false).2.length =
        ([0, 0, 0] : List ℕ).length ∧
      ∀ k, 3 * k + 2 < ([0, 0, 0] : List ℕ).length →
        ¬ seamCrossing
            (uOf [0, 0, 0, 0, 0, 0, 0, 0] (([0, 0, 0] : List ℕ).getD (3 * k) 0))
            (uOf [0, 0, 0, 0, 0, 0, 0, 0] (([0, 0, 0] : List ℕ).getD (3 * k + 1) 0))
            (uOf [0, 0, 0, 0, 0, 0, 0, 0] (([0, 0, 0] : List ℕ).getD (3 * k + 2) 0)) →
          (fixTextureSeamProperly [0, 0, 0, 0, 0, 0, 0, 0] [0, 0, 0] false).2.getD
              (3 * k) 0 = ([0, 0, 0] : List ℕ).getD (3 * k) 0 ∧
          (fixTextureSeamProperly [0, 0, 0, 0, 0, 0, 0, 0] [0, 0, 0] false).2.getD
              (3 * k + 1) 0 = ([0, 0, 0] : List ℕ).getD (3 * k + 1) 0 ∧
          (fixTextureSeamProperly [0, 0, 0, 0, 0, 0, 0, 0] [0, 0, 0] false).2.getD
              (3 * k + 2) 0 = ([0, 0, 0] : List ℕ).getD (3 * k + 2) 0) :=
  ⟨⟨by decide, by decide, by decide⟩,
    fixTextureSeam_frame [0, 0, 0, 0, 0, 0, 0, 0] [0, 0, 0] false 1
      (by decide) (by decide) (by decide)⟩

/-- C4: a triangle is flagged exactly when some pairwise difference of
its corner u values exceeds 0.5; in a flagged triangle every corner
whose own u is below 0.3 while some corner exceeds 0.7 is rewritten to a
freshly appended clone of its vertex whose u equals the original u plus
exactly 1.0 and whose other seven attributes (position, normal, v) are
copied; all other corners keep their index.  In particular the triangle
with corner u values `[0.05, 0.95, 0.5]` is flagged and produces one
duplicate of the 0.05 corner with u = 1.05. -/
theorem fixTextureSeam_flag_and_duplicate :
    (∀ a b c : ℚ, seamCrossing a b c ↔
      (|a - b| > 1/2 ∨ |b - c| > 1/2 ∨ |a - c| > 1/2)) ∧
    (∀ a b c u : ℚ, dupCond a b c u ↔
      (u < 3/10 ∧ (a > 7/10 ∨ b > 7/10 ∨ c > 7/10))) ∧
    (∀ (verts : List ℚ) (idxs : List ℕ) (is32 : Bool) (n : ℕ),
      verts.length = 8 * n → (∀ x ∈ idxs, x < n) → n + idxs.length ≤ 65536 →
      ∀ k, 3 * k + 2 < idxs.length → ∀ m, m ≤ 2 →
        (seamCrossing (uOf verts (idxs.getD (3 * k) 0))
            (uOf verts (idxs.getD (3 * k + 1) 0))
            (uOf verts (idxs.getD (3 * k + 2) 0)) ∧
          dupCond (uOf verts (idxs.getD (3 * k) 0))
            (uOf verts (idxs.getD (3 * k + 1) 0))
            (uOf verts (idxs.getD (3 * k + 2) 0))
            (uOf verts (idxs.getD (3 * k + m) 0)) →
          n ≤ (fixTextureSeamProperly verts idxs is32).2.getD (3 * k + m) 0 ∧
          uOf (fixTextureSeamProperly verts idxs is32).1
              ((fixTextureSeamProperly verts idxs is32).2.getD (3 * k + m) 0) =
            uOf verts (idxs.getD (3 * k + m) 0) + 1 ∧
          ∀ o, o < 8 → o ≠ 6 →
            (fixTextureSeamProperly verts idxs is32).1.getD
                ((fixTextureSeamProperly verts idxs is32).2.getD (3 * k + m) 0 * 8
                  + o) 0 =
              verts.getD (idxs.getD (3 * k + m) 0 * 8 + o) 0) ∧
        (¬ (seamCrossing (uOf verts (idxs.getD (3 * k) 0))
              (uOf verts (idxs.getD (3 * k + 1) 0))
              (uOf verts (idxs.getD (3 * k + 2) 0)) ∧
            dupCond (uOf verts (idxs.getD (3 * k) 0))
              (uOf verts (idxs.getD (3 * k + 1) 0))
              (uOf verts (idxs.getD (3 * k + 2) 0))
              (uOf verts (idxs.getD (3 * k + m) 0))) →
          (fixTextureSeamProperly verts idxs is32).2.getD (3 * k + m) 0 =
            idxs.getD (3 * k + m) 0)) ∧
    fixTextureSeamProperly exVerts [0, 1, 2] false =
      (exVerts ++ [0, 0, 0, 0, 0, 0, 21/20, 1/2], [3, 1, 2]) := by
  refine ⟨fun a b c => Iff.rfl, fun a b c u => Iff.rfl, ?_, ?_⟩
  · intro verts idxs is32 n hn hidx hcap k hk m hm
    obtain ⟨h1, h2, _, _, _, h6⟩ := fixSeam_spec verts idxs is32 n hn hidx hcap
    have htri := h6 k hk
    rw [h1, h2]
    interval_cases m
    · simp only [Nat.add_zero]
      constructor
      · rintro ⟨hsc, hd⟩
        obtain ⟨c0, _, _⟩ := htri.2 hsc
        obtain ⟨j1, _, j3, j4⟩ := c0.dup_val hd
        exact ⟨j1, j3, j4⟩
      · intro hnot
        by_cases hsc : seamCrossing (uOf verts (idxs.getD (3 * k) 0))
            (uOf verts (idxs.getD (3 * k + 1) 0))
            (uOf verts (idxs.getD (3 * k + 2) 0))
        · obtain ⟨c0, _, _⟩ := htri.2 hsc
          exact c0.2 fun hd => hnot ⟨hsc, hd⟩
        · exact (htri.1 hsc).1
    · constructor
      · rintro ⟨hsc, hd⟩
        obtain ⟨_, c1, _⟩ := htri.2 hsc
        obtain ⟨j1, _, j3, j4⟩ := c1.dup_val hd
        exact ⟨j1, j3, j4⟩
      · intro hnot
        by_cases hsc : seamCrossing (uOf verts (idxs.getD (3 * k) 0))
            (uOf verts (idxs.getD (3 * k + 1) 0))
            (uOf verts (idxs.getD (3 * k + 2) 0))
        · obtain ⟨_, c1, _⟩ := htri.2 hsc
          exact c1.2 fun hd => hnot ⟨hsc, hd⟩
        · exact (htri.1 hsc).2.1
    · constructor
      · rintro ⟨hsc, hd⟩
        obtain ⟨_, _, c2⟩ := htri.2 hsc
        obtain ⟨j1, _, j3, j4⟩ := c2.dup_val hd
        exact ⟨j1, j3, j4⟩
      · intro hnot
        by_cases hsc : seamCrossing (uOf verts (idxs.getD (3 * k) 0))
            (uOf verts (idxs.getD (3 * k + 1) 0))
            (uOf verts (idxs.getD (3 * k + 2) 0))
        · obtain ⟨_, _, c2⟩ := htri.2 hsc
          exact c2.2 fun hd => hnot ⟨hsc, hd⟩
        · exact (htri.1 hsc).2.2
  · norm_num [fixTextureSeamProperly, fixLoop, fixTriangle, fixCorners, fixCorner,
      seamCrossing, dupCond, uOf, cloneVertex, toUint16, exVerts, lt_abs,
      List.range_succ]

/-- Witness for C4: the `[0.05, 0.95, 0.5]` triangle of the spec, with
the general corner statement instantiated at triangle 0, corner 0. -/
theorem fixTextureSeam_flag_and_duplicate_witness :
    (exVerts.length = 8 * 3 ∧ (∀ x ∈ [0, 1, 2], x < 3) ∧
      3 + ([0, 1, 2] : List ℕ).length ≤ 65536 ∧
      3 * 0 + 2 < ([0, 1, 2] : List ℕ).length ∧ 0 ≤ 2) ∧
    ((seamCrossing (uOf exVerts (([0, 1, 2] : List ℕ).getD (3 * 0) 0))
          (uOf exVerts (([0, 1, 2] : List ℕ).getD (3 * 0 + 1) 0))
          (uOf exVerts (([0, 1, 2] : List ℕ).getD (3 * 0 + 2) 0)) ∧
        dupCond (uOf exVerts (([0, 1, 2] : List ℕ).getD (3 * 0) 0))
          (uOf exVerts (([0, 1, 2] : List ℕ).getD (3 * 0 + 1) 0))
          (uOf exVerts (([0, 1, 2] : List ℕ).getD (3 * 0 + 2) 0))
          (uOf exVerts (([0, 1, 2] : List ℕ).getD (3 * 0 + 0) 0)) →
        3 ≤ (fixTextureSeamProperly exVerts [0, 1, 2] false).2.getD (3 * 0 + 0) 0 ∧
        uOf (fixTextureSeamProperly exVerts [0, 1, 2] false).1
            ((fixTextureSeamProperly exVerts [0, 1, 2] false).2.getD (3 * 0 + 0) 0) =
          uOf exVerts (([0, 1, 2] : List ℕ).getD (3 * 0 + 0) 0) + 1 ∧
        ∀ o, o < 8 → o ≠ 6 →
          (fixTextureSeamProperly exVerts [0, 1, 2] false).1.getD
              ((fixTextureSeamProperly exVerts [0, 1, 2] false).2.getD (3 * 0 + 0) 0
                * 8 + o) 0 =
            exVerts.getD (([0, 1, 2] : List ℕ).getD (3 * 0 + 0) 0 * 8 + o) 0) ∧
      (¬ (seamCrossing (uOf exVerts (([0, 1, 2] : List ℕ).getD (3 * 0) 0))
            (uOf exVerts (([0, 1, 2] : List ℕ).getD (3 * 0 + 1) 0))
            (uOf exVerts (([0, 1, 2] : List ℕ).getD (3 * 0 + 2) 0)) ∧
          dupCond (uOf exVerts (([0, 1, 2] : List ℕ).getD (3 * 0) 0))
            (uOf exVerts (([0, 1, 2] : List ℕ).getD (3 * 0 + 1) 0))
            (uOf exVerts (([0, 1, 2] : List ℕ).getD (3 * 0 + 2) 0))
            (uOf exVerts (([0, 1, 2] : List ℕ).getD (3 * 0 + 0) 0))) →
        (fixTextureSeamProperly exVerts [0, 1, 2] false).2.getD (3 * 0 + 0) 0 =
          ([0, 1, 2] : List ℕ).getD (3 * 0 + 0) 0)) :=
  ⟨⟨by rfl, by decide, by decide, by decide, by decide⟩,
    fixTextureSeam_flag_and_duplicate.2.2.1 exVerts [0, 1, 2] false 3
      (by rfl) (by decide) (by decide) 0 (by decide) 0 (by decide)⟩

/-- Counterexample to C5: on the spec's own `[0.05, 0.95, 0.5]` triangle
(v = 0.5 everywhere, far from the poles), the repaired mesh's triangle
has u values `[1.05, 0.95, 0.5]`, so the pairwise difference between its
first and third corner still exceeds the 0.5 threshold: the repaired
mesh is not free of seam-crossing triangles. -/
theorem fixTextureSeam_residual_crossing_cex :
    |uOf (fixTextureSeamProperly exVerts [0, 1, 2] false).1
        ((fixTextureSeamProperly exVerts [0, 1, 2] false).2.getD 0 0) -
      uOf (fixTextureSeamProperly exVerts [0, 1, 2] false).1
        ((fixTextureSeamProperly exVerts [0, 1, 2] false).2.getD 2 0)| > 1/2 := by
  norm_num [fixTextureSeamProperly, fixLoop, fixTriangle, fixCorners, fixCorner,
    seamCrossing, dupCond, uOf, cloneVertex, toUint16, exVerts, lt_abs,
    List.range_succ]

/-- C5 amended: after one application of `fixTextureSeamProperly` (on a
well-formed mesh with all u values in `[0, 1]`), a triangle that was not
flagged keeps a maximum pairwise u difference of at most 0.5, and a
flagged triangle all of whose corner u values lie outside the open band
(0.3, 0.7) ends with maximum pairwise u difference strictly below 0.6;
the original bound of strictly 0.5 for every triangle does not hold. -/
theorem fixTextureSeam_post_bounds (verts : List ℚ) (idxs : List ℕ) (is32 : Bool)
    (n : ℕ) (hn : verts.length = 8 * n) (hidx : ∀ x ∈ idxs, x < n)
    (hcap : n + idxs.length ≤ 65536)
    (hu : ∀ i, i < n → 0 ≤ uOf verts i ∧ uOf verts i ≤ 1) :
    ∀ k, 3 * k + 2 < idxs.length →
      (¬ seamCrossing (uOf verts (idxs.getD (3 * k) 0))
          (uOf verts (idxs.getD (3 * k + 1) 0))
          (uOf verts (idxs.getD (3 * k + 2) 0)) →
        |uOf (fixTextureSeamProperly verts idxs is32).1
            ((fixTextureSeamProperly verts idxs is32).2.getD (3 * k) 0) -
          uOf (fixTextureSeamProperly verts idxs is32).1
            ((fixTextureSeamProperly verts idxs is32).2.getD (3 * k + 1) 0)| ≤ 1/2 ∧
        |uOf (fixTextureSeamProperly verts idxs is32).1
            ((fixTextureSeamProperly verts idxs is32).2.getD (3 * k + 1) 0) -
          uOf (fixTextureSeamProperly verts idxs is32).1
            ((fixTextureSeamProperly verts idxs is32).2.getD (3 * k + 2) 0)| ≤ 1/2 ∧
        |uOf (fixTextureSeamProperly verts idxs is32).1
            ((fixTextureSeamProperly verts idxs is32).2.getD (3 * k) 0) -
          uOf (fixTextureSeamProperly verts idxs is32).1
            ((fixTextureSeamProperly verts idxs is32).2.getD (3 * k + 2) 0)| ≤ 1/2) ∧
      (seamCrossing (uOf verts (idxs.getD (3 * k) 0))
          (uOf verts (idxs.getD (3 * k + 1) 0))
          (uOf verts (idxs.getD (3 * k + 2) 0)) →
        (uOf verts (idxs.getD (3 * k) 0) < 3/10 ∨
          uOf verts (idxs.getD (3 * k) 0) > 7/10) →
        (uOf verts (idxs.getD (3 * k + 1) 0) < 3/10 ∨
          uOf verts (idxs.getD (3 * k + 1) 0) > 7/10) →
        (uOf verts (idxs.getD (3 * k + 2) 0) < 3/10 ∨
          uOf verts (idxs.getD (3 * k + 2) 0) > 7/10) →
        |uOf (fixTextureSeamProperly verts idxs is32).1
            ((fixTextureSeamProperly verts idxs is32).2.getD (3 * k) 0) -
          uOf (fixTextureSeamProperly verts idxs is32).1
            ((fixTextureSeamProperly verts idxs is32).2.getD (3 * k + 1) 0)| < 3/5 ∧
        |uOf (fixTextureSeamProperly verts idxs is32).1
            ((fixTextureSeamProperly verts idxs is32).2.getD (3 * k + 1) 0) -
          uOf (fixTextureSeamProperly verts idxs is32).1
            ((fixTextureSeamProperly verts idxs is32).2.getD (3 * k + 2) 0)| < 3/5 ∧
        |uOf (fixTextureSeamProperly verts idxs is32).1
            ((fixTextureSeamProperly verts idxs is32).2.getD (3 * k) 0) -
          uOf (fixTextureSeamProperly verts idxs is32).1
            ((fixTextureSeamProperly verts idxs is32).2.getD (3 * k + 2) 0)| < 3/5) := by
  intro k hk
  obtain ⟨h1, h2, _, _, _, h6⟩ := fixSeam_spec verts idxs is32 n hn hidx hcap
  have htri := h6 k hk
  have hm0 : idxs.getD (3 * k) 0 < n := hidx _ (getD_mem (by omega))
  have hm1 : idxs.getD (3 * k + 1) 0 < n := hidx _ (getD_mem (by omega))
  have hm2 : idxs.getD (3 * k + 2) 0 < n := hidx _ (getD_mem (by omega))
  have hpre : verts <+: verts ++ (fixLoop verts idxs n).1 := ⟨_, rfl⟩
  rw [h1, h2]
  constructor
  · -- unflagged triangle: values unchanged, differences at most 1/2
    intro hns
    obtain ⟨e0, e1, e2⟩ := htri.1 hns
    rw [e0, e1, e2, uOf_prefix hpre hn hm0, uOf_prefix hpre hn hm1,
      uOf_prefix hpre hn hm2]
    rw [seamCrossing] at hns
    push_neg at hns
    exact ⟨hns.1, hns.2.1, hns.2.2⟩
  · -- flagged triangle with all corners outside (0.3, 0.7)
    intro hsc ho0 ho1 ho2
    obtain ⟨c0, c1, c2⟩ := htri.2 hsc
    -- some corner exceeds 0.7
    have hhigh : uOf verts (idxs.getD (3 * k) 0) > 7/10 ∨
        uOf verts (idxs.getD (3 * k + 1) 0) > 7/10 ∨
        uOf verts (idxs.getD (3 * k + 2) 0) > 7/10 := by
      by_contra hno
      push_neg at hno
      obtain ⟨g0, g1, g2⟩ := hno
      have l0 : uOf verts (idxs.getD (3 * k) 0) < 3/10 := by
        rcases ho0 with h | h
        · exact h
        · exact absurd h (not_lt.2 g0)
      have l1 : uOf verts (idxs.getD (3 * k + 1) 0) < 3/10 := by
        rcases ho1 with h | h
        · exact h
        · exact absurd h (not_lt.2 g1)
      have l2 : uOf verts (idxs.getD (3 * k + 2) 0) < 3/10 := by
        rcases ho2 with h | h
        · exact h
        · exact absurd h (not_lt.2 g2)
      have b0 := (hu _ hm0).1
      have b1 := (hu _ hm1).1
      have b2 := (hu _ hm2).1
      have hlt : ∀ a b : ℚ, 0 ≤ a → a < 3/10 → 0 ≤ b → b < 3/10 →
          ¬ (|a - b| > 1/2) := by
        intro a b ha1 ha2 hb1 hb2 habs
        rw [gt_iff_lt, lt_abs] at habs
        rcases habs with h | h <;> linarith
      rcases hsc with h | h | h
      · exact hlt _ _ b0 l0 b1 l1 h
      · exact hlt _ _ b1 l1 b2 l2 h
      · exact hlt _ _ b0 l0 b2 l2 h
    -- each corner's final u lies in (0.7, 1.3)
    have hcorner : ∀ (i j : ℕ), i < n →
        CornerRes verts (verts ++ (fixLoop verts idxs n).1)
          (uOf verts (idxs.getD (3 * k) 0)) (uOf verts (idxs.getD (3 * k + 1) 0))
          (uOf verts (idxs.getD (3 * k + 2) 0)) i j n (n + dupCount verts idxs) →
        (uOf verts i < 3/10 ∨ uOf verts i > 7/10) →
        7/10 < uOf (verts ++ (fixLoop verts idxs n).1) j ∧
          uOf (verts ++ (fixLoop verts idxs n).1) j < 13/10 := by
      intro i j hi hc ho
      rcases ho with hlow | hhi
      · have hd : dupCond (uOf verts (idxs.getD (3 * k) 0))
            (uOf verts (idxs.getD (3 * k + 1) 0))
            (uOf verts (idxs.getD (3 * k + 2) 0)) (uOf verts i) := ⟨hlow, hhigh⟩
        obtain ⟨_, _, hval, _⟩ := hc.dup_val hd
        have hb := (hu i hi).1
        rw [hval]
        constructor <;> linarith
      · have hd : ¬ dupCond (uOf verts (idxs.getD (3 * k) 0))
            (uOf verts (idxs.getD (3 * k + 1) 0))
            (uOf verts (idxs.getD (3 * k + 2) 0)) (uOf verts i) := by
          intro hdd
          exact absurd hdd.1 (by linarith)
        rw [hc.2 hd, uOf_prefix hpre hn hi]
        have hb := (hu i hi).2
        constructor <;> linarith
    obtain ⟨w0l, w0r⟩ := hcorner _ _ hm0 c0 ho0
    obtain ⟨w1l, w1r⟩ := hcorner _ _ hm1 c1 ho1
    obtain ⟨w2l, w2r⟩ := hcorner _ _ hm2 c2 ho2
    refine ⟨?_, ?_, ?_⟩ <;> rw [abs_sub_lt_iff] <;> constructor <;> linarith

/-- Witness for C5's amended statement: a two-vertex mesh with u values
0 and 1 and one triangle. -/
theorem fixTextureSeam_post_bounds_witness :
    (([0, 0, 0, 0, 0, 0, 0, 0, 0, 0, 0, 0, 0, 0, 1, 0] : List ℚ).length = 8 * 2 ∧
      (∀ x ∈ [0, 1, 1], x < 2) ∧ 2 + ([0, 1, 1] : List ℕ).length ≤ 65536 ∧
      (∀ i, i < 2 → 0 ≤ uOf [0, 0, 0, 0, 0, 0, 0, 0, 0, 0, 0, 0, 0, 0, 1, 0] i ∧
        uOf [0, 0, 0, 0, 0, 0, 0, 0, 0, 0, 0, 0, 0, 0, 1, 0] i ≤ 1) ∧
      3 * 0 + 2 < ([0, 1, 1] : List ℕ).length) ∧
    ((¬ seamCrossing
        (uOf [0, 0, 0, 0, 0, 0, 0, 0, 0, 0, 0, 0, 0, 0, 1, 0]
          (([0, 1, 1] : List ℕ).getD (3 * 0) 0))
        (uOf [0, 0, 0, 0, 0, 0, 0, 0, 0, 0, 0, 0, 0, 0, 1, 0]
          (([0, 1, 1] : List ℕ).getD (3 * 0 + 1) 0))
        (uOf [0, 0, 0, 0, 0, 0, 0, 0, 0, 0, 0, 0, 0, 0, 1, 0]
          (([0, 1, 1] : List ℕ).getD (3 * 0 + 2) 0)) →
      |uOf (fixTextureSeamProperly [0, 0, 0, 0, 0, 0, 0, 0, 0, 0, 0, 0, 0, 0, 1, 0]
          [0, 1, 1] false).1
          ((fixTextureSeamProperly [0, 0, 0, 0, 0, 0, 0, 0, 0, 0, 0, 0, 0, 0, 1, 0]
            [0, 1, 1] false).2.getD (3 * 0) 0) -
        uOf (fixTextureSeamProperly [0, 0, 0, 0, 0, 0, 0, 0, 0, 0, 0, 0, 0, 0, 1, 0]
          [0, 1, 1] false).1
          ((fixTextureSeamProperly [0, 0, 0, 0, 0, 0, 0, 0, 0, 0, 0, 0, 0, 0, 1, 0]
            [0, 1, 1] false).2.getD (3 * 0 + 1) 0)| ≤ 1/2 ∧
      |uOf (fixTextureSeamProperly [0, 0, 0, 0, 0, 0, 0, 0, 0, 0, 0, 0, 0, 0, 1, 0]
          [0, 1, 1] false).1
          ((fixTextureSeamProperly [0, 0, 0, 0, 0, 0, 0, 0, 0, 0, 0, 0, 0, 0, 1, 0]
            [0, 1, 1] false).2.getD (3 * 0 + 1) 0) -
        uOf (fixTextureSeamProperly [0, 0, 0, 0, 0, 0, 0, 0, 0, 0, 0, 0, 0, 0, 1, 0]
          [0, 1, 1] false).1
          ((fixTextureSeamProperly [0, 0, 0, 0, 0, 0, 0, 0, 0, 0, 0, 0, 0, 0, 1, 0]
            [0, 1, 1] false).2.getD (3 * 0 + 2) 0)| ≤ 1/2 ∧
      |uOf (fixTextureSeamProperly [0, 0, 0, 0, 0, 0, 0, 0, 0, 0, 0, 0, 0, 0, 1, 0]
          [0, 1, 1] false).1
          ((fixTextureSeamProperly [0, 0, 0, 0, 0, 0, 0, 0, 0, 0, 0, 0, 0, 0, 1, 0]
            [0, 1, 1] false).2.getD (3 * 0) 0) -
        uOf (fixTextureSeamProperly [0, 0, 0, 0, 0, 0, 0, 0, 0, 0, 0, 0, 0, 0, 1, 0]
          [0, 1, 1] false).1
          ((fixTextureSeamProperly [0, 0, 0, 0, 0, 0, 0, 0, 0, 0, 0, 0, 0, 0, 1, 0]
            [0, 1, 1] false).2.getD (3 * 0 + 2) 0)| ≤ 1/2) ∧
    (seamCrossing
        (uOf [0, 0, 0, 0, 0, 0, 0, 0, 0, 0, 0, 0, 0, 0, 1, 0]
          (([0, 1, 1] : List ℕ).getD (3 * 0) 0))
        (uOf [0, 0, 0, 0, 0, 0, 0, 0, 0, 0, 0, 0, 0, 0, 1, 0]
          (([0, 1, 1] : List ℕ).getD (3 * 0 + 1) 0))
        (uOf [0, 0, 0, 0, 0, 0, 0, 0, 0, 0, 0, 0, 0, 0, 1, 0]
          (([0, 1, 1] : List ℕ).getD (3 * 0 + 2) 0)) →
      (uOf [0, 0, 0, 0, 0, 0, 0, 0, 0, 0, 0, 0, 0, 0, 1, 0]
          (([0, 1, 1] : List ℕ).getD (3 * 0) 0) < 3/10 ∨
        uOf [0, 0, 0, 0, 0, 0, 0, 0, 0, 0, 0, 0, 0, 0, 1, 0]
          (([0, 1, 1] : List ℕ).getD (3 * 0) 0) > 7/10) →
      (uOf [0, 0, 0, 0, 0, 0, 0, 0, 0, 0, 0, 0, 0, 0, 1, 0]
          (([0, 1, 1] : List ℕ).getD (3 * 0 + 1) 0) < 3/10 ∨
        uOf [0, 0, 0, 0, 0, 0, 0, 0, 0, 0, 0, 0, 0, 0, 1, 0]
          (([0, 1, 1] : List ℕ).getD (3 * 0 + 1) 0) > 7/10) →
      (uOf [0, 0, 0, 0, 0, 0, 0, 0, 0, 0, 0, 0, 0, 0, 1, 0]
          (([0, 1, 1] : List ℕ).getD (3 * 0 + 2) 0) < 3/10 ∨
        uOf [0, 0, 0, 0, 0, 0, 0, 0, 0, 0, 0, 0, 0, 0, 1, 0]
          (([0, 1, 1] : List ℕ).getD (3 * 0 + 2) 0) > 7/10) →
      |uOf (fixTextureSeamProperly [0, 0, 0, 0, 0, 0, 0, 0, 0, 0, 0, 0, 0, 0, 1, 0]
          [0, 1, 1] false).1
          ((fixTextureSeamProperly [0, 0, 0, 0, 0, 0, 0, 0, 0, 0, 0, 0, 0, 0, 1, 0]
            [0, 1, 1] false).2.getD (3 * 0) 0) -
        uOf (fixTextureSeamProperly [0, 0, 0, 0, 0, 0, 0, 0, 0, 0, 0, 0, 0, 0, 1, 0]
          [0, 1, 1] false).1
          ((fixTextureSeamProperly [0, 0, 0, 0, 0, 0, 0, 0, 0, 0, 0, 0, 0, 0, 1, 0]
            [0, 1, 1] false).2.getD (3 * 0 + 1) 0)| < 3/5 ∧
      |uOf (fixTextureSeamProperly [0, 0, 0, 0, 0, 0, 0, 0, 0, 0, 0, 0, 0, 0, 1, 0]
          [0, 1, 1] false).1
          ((fixTextureSeamProperly [0, 0, 0, 0, 0, 0, 0, 0, 0, 0, 0, 0, 0, 0, 1, 0]
            [0, 1, 1] false).2.getD (3 * 0 + 1) 0) -
        uOf (fixTextureSeamProperly [0, 0, 0, 0, 0, 0, 0, 0, 0, 0, 0, 0, 0, 0, 1, 0]
          [0, 1, 1] false).1
          ((fixTextureSeamProperly [0, 0, 0, 0, 0, 0, 0, 0, 0, 0, 0, 0, 0, 0, 1, 0]
            [0, 1, 1] false).2.getD (3 * 0 + 2) 0)| < 3/5 ∧
      |uOf (fixTextureSeamProperly [0, 0, 0, 0, 0, 0, 0, 0, 0, 0, 0, 0, 0, 0, 1, 0]
          [0, 1, 1] false).1
          ((fixTextureSeamProperly [0, 0, 0, 0, 0, 0, 0, 0, 0, 0, 0, 0, 0, 0, 1, 0]
            [0, 1, 1] false).2.getD (3 * 0) 0) -
        uOf (fixTextureSeamProperly [0, 0, 0, 0, 0, 0, 0, 0, 0, 0, 0, 0, 0, 0, 1, 0]
          [0, 1, 1] false).1
          ((fixTextureSeamProperly [0, 0, 0, 0, 0, 0, 0, 0, 0, 0, 0, 0, 0, 0, 1, 0]
            [0, 1, 1] false).2.getD (3 * 0 + 2) 0)| < 3/5)) :=
  ⟨⟨by rfl, by decide, by decide, by decide, by decide⟩,
    fixTextureSeam_post_bounds [0, 0, 0, 0, 0, 0, 0, 0, 0, 0, 0, 0, 0, 0, 1, 0]
      [0, 1, 1] false 2 (by rfl) (by decide) (by decide) (by decide) 0 (by decide)⟩

/-- Counterexample to C6: repairing the triangle with u values
`[0, 0.8, 0.4]` rewrites the first corner to a clone with u = 1, so the
repaired triangle has u values `[1, 0.8, 0.4]` and `|1 - 0.4| = 0.6 > 0.5`:
the once-repaired triangle is classified as seam-crossing again on a
second pass. -/
theorem fixTextureSeam_second_pass_flag_cex :
    seamCrossing
      (uOf (fixTextureSeamProperly exVerts2 [0, 1, 2] false).1
        ((fixTextureSeamProperly exVerts2 [0, 1, 2] false).2.getD 0 0))
      (uOf (fixTextureSeamProperly exVerts2 [0, 1, 2] false).1
        ((fixTextureSeamProperly exVerts2 [0, 1, 2] false).2.getD 1 0))
      (uOf (fixTextureSeamProperly exVerts2 [0, 1, 2] false).1
        ((fixTextureSeamProperly exVerts2 [0, 1, 2] false).2.getD 2 0)) := by
  norm_num [fixTextureSeamProperly, fixLoop, fixTriangle, fixCorners, fixCorner,
    seamCrossing, dupCond, uOf, cloneVertex, toUint16, exVerts2, lt_abs,
    List.range_succ]

/-- C6 amended: on a well-formed mesh with nonnegative u values, applying
`fixTextureSeamProperly` a second time to its own output appends no
vertices and rewrites no indices — the output is returned unchanged —
although a repaired triangle can still be classified as seam-crossing
(and logged) on the second pass. -/
theorem fixTextureSeam_idempotent_output (verts : List ℚ) (idxs : List ℕ)
    (is32 : Bool) (n : ℕ) (hn : verts.length = 8 * n) (hidx : ∀ x ∈ idxs, x < n)
    (hcap : n + idxs.length ≤ 65536) (hu0 : ∀ i, i < n → 0 ≤ uOf verts i) :
    fixTextureSeamProperly (fixTextureSeamProperly verts idxs is32).1
        (fixTextureSeamProperly verts idxs is32).2 is32 =
      fixTextureSeamProperly verts idxs is32 := by
  obtain ⟨h1, h2, h3, h4, h5, h6⟩ := fixSeam_spec verts idxs is32 n hn hidx hcap
  have hpre : verts <+: verts ++ (fixLoop verts idxs n).1 := ⟨_, rfl⟩
  have hdle := dupCount_le verts idxs
  have hlen2 : (verts ++ (fixLoop verts idxs n).1).length =
      8 * (n + dupCount verts idxs) := by
    simp [hn, h4]; ring
  -- on the second pass no corner of any (possibly re-flagged) triangle
  -- satisfies the duplication condition
  have hprem : ∀ k, 3 * k + 2 < (fixLoop verts idxs n).2.length →
      seamCrossing
          (uOf (verts ++ (fixLoop verts idxs n).1)
            ((fixLoop verts idxs n).2.getD (3 * k) 0))
          (uOf (verts ++ (fixLoop verts idxs n).1)
            ((fixLoop verts idxs n).2.getD (3 * k + 1) 0))
          (uOf (verts ++ (fixLoop verts idxs n).1)
            ((fixLoop verts idxs n).2.getD (3 * k + 2) 0)) →
        ¬ dupCond (uOf (verts ++ (fixLoop verts idxs n).1)
              ((fixLoop verts idxs n).2.getD (3 * k) 0))
            (uOf (verts ++ (fixLoop verts idxs n).1)
              ((fixLoop verts idxs n).2.getD (3 * k + 1) 0))
            (uOf (verts ++ (fixLoop verts idxs n).1)
              ((fixLoop verts idxs n).2.getD (3 * k + 2) 0))
            (uOf (verts ++ (fixLoop verts idxs n).1)
              ((fixLoop verts idxs n).2.getD (3 * k) 0)) ∧
        ¬ dupCond (uOf (verts ++ (fixLoop verts idxs n).1)
              ((fixLoop verts idxs n).2.getD (3 * k) 0))
            (uOf (verts ++ (fixLoop verts idxs n).1)
              ((fixLoop verts idxs n).2.getD (3 * k + 1) 0))
            (uOf (verts ++ (fixLoop verts idxs n).1)
              ((fixLoop verts idxs n).2.getD (3 * k + 2) 0))
            (uOf (verts ++ (fixLoop verts idxs n).1)
              ((fixLoop verts idxs n).2.getD (3 * k + 1) 0)) ∧
        ¬ dupCond (uOf (verts ++ (fixLoop verts idxs n).1)
              ((fixLoop verts idxs n).2.getD (3 * k) 0))
            (uOf (verts ++ (fixLoop verts idxs n).1)
              ((fixLoop verts idxs n).2.getD (3 * k + 1) 0))
            (uOf (verts ++ (fixLoop verts idxs n).1)
              ((fixLoop verts idxs n).2.getD (3 * k + 2) 0))
            (uOf (verts ++ (fixLoop verts idxs n).1)
              ((fixLoop verts idxs n).2.getD (3 * k + 2) 0)) := by
    intro k hk2 hsc2
    rw [h3] at hk2
    have htri := h6 k hk2
    have hm0 : idxs.getD (3 * k) 0 < n := hidx _ (getD_mem (by omega))
    have hm1 : idxs.getD (3 * k + 1) 0 < n := hidx _ (getD_mem (by omega))
    have hm2 : idxs.getD (3 * k + 2) 0 < n := hidx _ (getD_mem (by omega))
    by_cases hsc : seamCrossing (uOf verts (idxs.getD (3 * k) 0))
        (uOf verts (idxs.getD (3 * k + 1) 0)) (uOf verts (idxs.getD (3 * k + 2) 0))
    · obtain ⟨c0, c1, c2⟩ := htri.2 hsc
      by_cases hh : uOf verts (idxs.getD (3 * k) 0) > 7/10 ∨
          uOf verts (idxs.getD (3 * k + 1) 0) > 7/10 ∨
          uOf verts (idxs.getD (3 * k + 2) 0) > 7/10
      · -- some original corner is high: every repaired corner ends ≥ 0.3
        have hw : ∀ (i j : ℕ), i < n →
            CornerRes verts (verts ++ (fixLoop verts idxs n).1)
              (uOf verts (idxs.getD (3 * k) 0))
              (uOf verts (idxs.getD (3 * k + 1) 0))
              (uOf verts (idxs.getD (3 * k + 2) 0)) i j n
              (n + dupCount verts idxs) →
            ¬ uOf (verts ++ (fixLoop verts idxs n).1) j < 3/10 := by
          intro i j hi hc
          by_cases hlow : uOf verts i < 3/10
          · obtain ⟨_, _, hval, _⟩ := hc.dup_val ⟨hlow, hh⟩
            rw [hval]
            have := hu0 i hi
            intro hcon; linarith
          · rw [hc.2 fun hd => hlow hd.1, uOf_prefix hpre hn hi]
            intro hcon; exact hlow (by linarith)
        exact ⟨fun hd => hw _ _ hm0 c0 hd.1, fun hd => hw _ _ hm1 c1 hd.1,
          fun hd => hw _ _ hm2 c2 hd.1⟩
      · -- no original corner is high: nothing was duplicated, values kept
        have hnd : ∀ (i j : ℕ), i < n →
            CornerRes verts (verts ++ (fixLoop verts idxs n).1)
              (uOf verts (idxs.getD (3 * k) 0))
              (uOf verts (idxs.getD (3 * k + 1) 0))
              (uOf verts (idxs.getD (3 * k + 2) 0)) i j n
              (n + dupCount verts idxs) →
            uOf (verts ++ (fixLoop verts idxs n).1) j = uOf verts i := by
          intro i j hi hc
          rw [hc.2 fun hd => hh hd.2, uOf_prefix hpre hn hi]
        have e0 := hnd _ _ hm0 c0
        have e1 := hnd _ _ hm1 c1
        have e2 := hnd _ _ hm2 c2
        refine ⟨fun hd => ?_, fun hd => ?_, fun hd => ?_⟩ <;>
          { have := hd.2; rw [e0, e1, e2] at this; exact hh this }
    · obtain ⟨e0, e1, e2⟩ := htri.1 hsc
      rw [e0, e1, e2, uOf_prefix hpre hn hm0, uOf_prefix hpre hn hm1,
        uOf_prefix hpre hn hm2] at hsc2
      exact absurd hsc2 hsc
  have hid := fixLoop_id (verts ++ (fixLoop verts idxs n).1)
    (fixLoop verts idxs n).2 (n + dupCount verts idxs) hprem
  have hbig : ∀ x ∈ (fixLoop verts idxs n).2, x < 65536 := by
    intro x hx
    have := h5 x hx
    omega
  rw [h1, h2]
  show ((verts ++ (fixLoop verts idxs n).1) ++
      (fixLoop (verts ++ (fixLoop verts idxs n).1) (fixLoop verts idxs n).2
        ((verts ++ (fixLoop verts idxs n).1).length / 8)).1,
    if is32 then
      toUint32 (fixLoop (verts ++ (fixLoop verts idxs n).1) (fixLoop verts idxs n).2
        ((verts ++ (fixLoop verts idxs n).1).length / 8)).2
    else
      toUint16 (fixLoop (verts ++ (fixLoop verts idxs n).1) (fixLoop verts idxs n).2
        ((verts ++ (fixLoop verts idxs n).1).length / 8)).2) =
    fixTextureSeamProperly verts idxs is32
  have hdiv2 : (verts ++ (fixLoop verts idxs n).1).length / 8 =
      n + dupCount verts idxs := by
    rw [hlen2]; omega
  rw [hdiv2, hid]
  cases is32 with
  | false =>
    simp only [Bool.false_eq_true, if_false]
    rw [toUint16_eq_self hbig, List.append_nil, ← h1, ← h2]
  | true =>
    simp only [if_true]
    rw [toUint32_eq_self fun x hx => lt_of_lt_of_le (hbig x hx) (by norm_num),
      List.append_nil, ← h1, ← h2]

/-- Witness for C6's amended statement: a two-vertex mesh with u values
0 and 1 and one triangle (which gets repaired on the first pass). -/
theorem fixTextureSeam_idempotent_output_witness :
    (([0, 0, 0, 0, 0, 0, 0, 0, 0, 0, 0, 0, 0, 0, 1, 1] : List ℚ).length = 8 * 2 ∧
      (∀ x ∈ [0, 1, 0], x < 2) ∧ 2 + ([0, 1, 0] : List ℕ).length ≤ 65536 ∧
      (∀ i, i < 2 → 0 ≤ uOf [0, 0, 0, 0, 0, 0, 0, 0, 0, 0, 0, 0, 0, 0, 1, 1] i)) ∧
    fixTextureSeamProperly
        (fixTextureSeamProperly [0, 0, 0, 0, 0, 0, 0, 0, 0, 0, 0, 0, 0, 0, 1, 1]
          [0, 1, 0] false).1
        (fixTextureSeamProperly [0, 0, 0, 0, 0, 0, 0, 0, 0, 0, 0, 0, 0, 0, 1, 1]
          [0, 1, 0] false).2 false =
      fixTextureSeamProperly [0, 0, 0, 0, 0, 0, 0, 0, 0, 0, 0, 0, 0, 0, 1, 1]
        [0, 1, 0] false :=
  ⟨⟨by rfl, by decide, by decide, by decide⟩,
    fixTextureSeam_idempotent_output [0, 0, 0, 0, 0, 0, 0, 0, 0, 0, 0, 0, 0, 0, 1, 1]
      [0, 1, 0] false 2 (by rfl) (by decide) (by decide) (by decide)⟩

end Claims


namespace Claims

open Icosa

/-- C1: for every subdivision level `L ≥ 0`, `generateIcosahedron(L)`
emits exactly `20 * 4^L` triangles (the flat index stream holds three
indices per triangle) and exactly `12 + 10 * (4^L - 1)` deduplicated
vertices (the flat vertex stream holds six floats per vertex); in
particular level 0 yields 12 vertices and 20 triangles and level 1
yields 42 vertices and 80 triangles. -/
theorem generateIcosahedron_counts (L : ℕ) :
    (generateIcosahedron (L : ℤ)).1.length = 6 * (12 + 10 * (4 ^ L - 1)) ∧
    (generateIcosahedron (L : ℤ)).2.length = 3 * (20 * 4 ^ L) := by
  have h12 : baseVertices.length = 12 := by
    simp [baseVertices, baseRaw]
  have h20 : faces0.length = 20 := by
    simp [faces0]
  have hInv : MeshInv faces0 baseVertices.length [] := by
    rw [h12]
    exact meshInv0
  obtain ⟨h1, h2⟩ := subdivideIter_counts midSphere ⟨0, 0, 0⟩ midSphere_comm L
    faces0 baseVertices [] hInv
  rw [h12, h20] at h2
  rw [h20] at h1
  have hpow : 1 ≤ 4 ^ L := Nat.one_le_pow _ _ (by omega)
  simp only [generateIcosahedron, Int.toNat_natCast]
  constructor
  · rw [length_flatMap_const 6
      (fun v : Vec3 => [v.x, v.y, v.z, v.x, v.y, v.z]) (fun v => rfl)]
    omega
  · rw [SeamFix.toUint16, List.length_map,
      length_flatMap_const 3
        (fun f : ℕ × ℕ × ℕ => [f.1, f.2.1, f.2.2]) (fun f => rfl), h1]
    ring

/-- C2: for every subdivision level `L ≥ 0`, every vertex position in the
output of `generateIcosahedron(L)` has Euclidean norm exactly 1 (the
exact-real statement subsumes the floating-point tolerance), and each
emitted vertex's normal equals its position componentwise. -/
theorem generateIcosahedron_unit_normals (L i : ℕ)
    (hi : 6 * i + 5 < (generateIcosahedron (L : ℤ)).1.length) :
    Real.sqrt ((generateIcosahedron (L : ℤ)).1.getD (6 * i) 0 ^ 2 +
        (generateIcosahedron (L : ℤ)).1.getD (6 * i + 1) 0 ^ 2 +
        (generateIcosahedron (L : ℤ)).1.getD (6 * i + 2) 0 ^ 2) = 1 ∧
    (generateIcosahedron (L : ℤ)).1.getD (6 * i + 3) 0 =
      (generateIcosahedron (L : ℤ)).1.getD (6 * i) 0 ∧
    (generateIcosahedron (L : ℤ)).1.getD (6 * i + 4) 0 =
      (generateIcosahedron (L : ℤ)).1.getD (6 * i + 1) 0 ∧
    (generateIcosahedron (L : ℤ)).1.getD (6 * i + 5) 0 =
      (generateIcosahedron (L : ℤ)).1.getD (6 * i + 2) 0 := by
  have h12 : baseVertices.length = 12 := by
    simp [baseVertices, baseRaw]
  have hInv : MeshInv faces0 baseVertices.length [] := by
    rw [h12]
    exact meshInv0
  set W := (subdivideIter midSphere (⟨0, 0, 0⟩ : Vec3) (L : ℤ).toNat faces0
    ⟨baseVertices, []⟩).2.verts with hW
  have hlenW : (generateIcosahedron (L : ℤ)).1.length = 6 * W.length := by
    show (W.flatMap fun v => [v.x, v.y, v.z, v.x, v.y, v.z]).length =
      6 * W.length
    exact length_flatMap_const 6
      (fun v : Vec3 => [v.x, v.y, v.z, v.x, v.y, v.z]) (fun v => rfl) W
  have hiW : i < W.length := by
    rw [hlenW] at hi
    omega
  have hgetj : ∀ j, j < 6 →
      (generateIcosahedron (L : ℤ)).1.getD (6 * i + j) 0 =
      ([(W.getD i ⟨0, 0, 0⟩).x, (W.getD i ⟨0, 0, 0⟩).y,
        (W.getD i ⟨0, 0, 0⟩).z, (W.getD i ⟨0, 0, 0⟩).x,
        (W.getD i ⟨0, 0, 0⟩).y, (W.getD i ⟨0, 0, 0⟩).z] : List ℝ).getD j 0 :=
    fun j hj => getD_flatMap_blocks
      (fun v : Vec3 => [v.x, v.y, v.z, v.x, v.y, v.z]) 6 (0 : ℝ) ⟨0, 0, 0⟩
      (fun a => rfl) W i j hiW hj
  have hunit : hypot3 (W.getD i ⟨0, 0, 0⟩) = 1 := by
    apply vinv_iter (L : ℤ).toNat faces0 baseVertices [] hInv vinv0
    exact getD_mem' hiW _
  have e0 : (generateIcosahedron (L : ℤ)).1.getD (6 * i) 0 =
      (W.getD i ⟨0, 0, 0⟩).x := hgetj 0 (by omega)
  have e1 : (generateIcosahedron (L : ℤ)).1.getD (6 * i + 1) 0 =
      (W.getD i ⟨0, 0, 0⟩).y := hgetj 1 (by omega)
  have e2 : (generateIcosahedron (L : ℤ)).1.getD (6 * i + 2) 0 =
      (W.getD i ⟨0, 0, 0⟩).z := hgetj 2 (by omega)
  have e3 : (generateIcosahedron (L : ℤ)).1.getD (6 * i + 3) 0 =
      (W.getD i ⟨0, 0, 0⟩).x := hgetj 3 (by omega)
  have e4 : (generateIcosahedron (L : ℤ)).1.getD (6 * i + 4) 0 =
      (W.getD i ⟨0, 0, 0⟩).y := hgetj 4 (by omega)
  have e5 : (generateIcosahedron (L : ℤ)).1.getD (6 * i + 5) 0 =
      (W.getD i ⟨0, 0, 0⟩).z := hgetj 5 (by omega)
  refine ⟨?_, ?_, ?_, ?_⟩
  · rw [e0, e1, e2]
    exact hunit
  · rw [e3, e0]
  · rw [e4, e1]
  · rw [e5, e2]

theorem generateIcosahedron_unit_normals_witness :
    6 * 0 + 5 < (generateIcosahedron ((0 : ℕ) : ℤ)).1.length ∧
    (Real.sqrt ((generateIcosahedron ((0 : ℕ) : ℤ)).1.getD (6 * 0) 0 ^ 2 +
        (generateIcosahedron ((0 : ℕ) : ℤ)).1.getD (6 * 0 + 1) 0 ^ 2 +
        (generateIcosahedron ((0 : ℕ) : ℤ)).1.getD (6 * 0 + 2) 0 ^ 2) = 1 ∧
    (generateIcosahedron ((0 : ℕ) : ℤ)).1.getD (6 * 0 + 3) 0 =
      (generateIcosahedron ((0 : ℕ) : ℤ)).1.getD (6 * 0) 0 ∧
    (generateIcosahedron ((0 : ℕ) : ℤ)).1.getD (6 * 0 + 4) 0 =
      (generateIcosahedron ((0 : ℕ) : ℤ)).1.getD (6 * 0 + 1) 0 ∧
    (generateIcosahedron ((0 : ℕ) : ℤ)).1.getD (6 * 0 + 5) 0 =
      (generateIcosahedron ((0 : ℕ) : ℤ)).1.getD (6 * 0 + 2) 0) :=
  ⟨by decide, generateIcosahedron_unit_normals 0 0 (by decide)⟩

/-- C3: the midpoint lookup is symmetric — `getMidpoint(a,b)` and
`getMidpoint(b,a)` agree (for a commutative midpoint function), and once
the midpoint of an edge has been created, looking the edge up again (in
either orientation) returns the identical vertex index without creating
anything: the state is unchanged. -/
theorem getMidpoint_symmetric {P : Type} (mid : P → P → P) (dflt : P)
    (hmid : ∀ u v, mid u v = mid v u) (a b : ℕ) (s : SubState P) :
    getMidpoint mid dflt a b s = getMidpoint mid dflt b a s ∧
    getMidpoint mid dflt b a (getMidpoint mid dflt a b s).2 =
      ((getMidpoint mid dflt a b s).1, (getMidpoint mid dflt a b s).2) := by
  have hkey : edgeKey b a = edgeKey a b := edgeKey_comm b a
  constructor
  · unfold getMidpoint
    rw [hkey, hmid (s.verts.getD b dflt) (s.verts.getD a dflt)]
  · cases h : lookupEdge s.cache (edgeKey a b) with
    | some i =>
      have hr : getMidpoint mid dflt a b s = (i, s) := by
        unfold getMidpoint
        rw [h]
      rw [hr]
      unfold getMidpoint
      rw [hkey, h]
    | none =>
      have hr : getMidpoint mid dflt a b s =
          (s.verts.length,
           ⟨s.verts ++ [mid (s.verts.getD a dflt) (s.verts.getD b dflt)],
            (edgeKey a b, s.verts.length) :: s.cache⟩) := by
        unfold getMidpoint
        rw [h]
      rw [hr]
      unfold getMidpoint
      rw [hkey]
      simp [lookupEdge]

theorem getMidpoint_symmetric_witness :
    (∀ u v : ℕ, u + v = v + u) ∧
    (getMidpoint (· + ·) 0 0 1 ⟨[10, 20], []⟩ =
        getMidpoint (· + ·) 0 1 0 ⟨[10, 20], []⟩ ∧
      getMidpoint (· + ·) 0 1 0 (getMidpoint (· + ·) 0 0 1 ⟨[10, 20], []⟩).2 =
        ((getMidpoint (· + ·) 0 0 1 ⟨[10, 20], []⟩).1,
          (getMidpoint (· + ·) 0 0 1 ⟨[10, 20], []⟩).2)) :=
  ⟨fun u v => Nat.add_comm u v,
    getMidpoint_symmetric (· + ·) 0 (fun u v => Nat.add_comm u v) 0 1
      ⟨[10, 20], []⟩⟩

/-- C7: for every input vertex, `calculateBetterUVs` writes
`u = atan2(z, x) / (2π) + 0.5` on the normalised position, shifted by ±1
when the raw value falls outside `[0, 1]`, and
`v = 1 - clamp01(asin(clamp(y, -1, 1)) / π + 0.5)`; both emitted
coordinates lie in `[0, 1]`. -/
theorem calculateBetterUVs_spec (verts : List ℝ) (i : ℕ)
    (hi : i < verts.length / 6) :
    (calculateBetterUVs verts).getD (8 * i + 6) 0 =
      uvU (normalize3 ⟨verts.getD (i * 6) 0, verts.getD (i * 6 + 1) 0,
          verts.getD (i * 6 + 2) 0⟩).x
        (normalize3 ⟨verts.getD (i * 6) 0, verts.getD (i * 6 + 1) 0,
          verts.getD (i * 6 + 2) 0⟩).z ∧
    (calculateBetterUVs verts).getD (8 * i + 7) 0 =
      uvV (normalize3 ⟨verts.getD (i * 6) 0, verts.getD (i * 6 + 1) 0,
          verts.getD (i * 6 + 2) 0⟩).y ∧
    0 ≤ (calculateBetterUVs verts).getD (8 * i + 6) 0 ∧
    (calculateBetterUVs verts).getD (8 * i + 6) 0 ≤ 1 ∧
    0 ≤ (calculateBetterUVs verts).getD (8 * i + 7) 0 ∧
    (calculateBetterUVs verts).getD (8 * i + 7) 0 ≤ 1 := by
  have hlen : i < (List.range (verts.length / 6)).length := by
    simpa using hi
  have hrange : (List.range (verts.length / 6)).getD i 0 = i := by
    rw [List.getD_eq_getElem?_getD, List.getElem?_range hi]
    rfl
  have h6 : (calculateBetterUVs verts).getD (8 * i + 6) 0 =
      uvU (normalize3 ⟨verts.getD (i * 6) 0, verts.getD (i * 6 + 1) 0,
          verts.getD (i * 6 + 2) 0⟩).x
        (normalize3 ⟨verts.getD (i * 6) 0, verts.getD (i * 6 + 1) 0,
          verts.getD (i * 6 + 2) 0⟩).z := by
    have h := getD_flatMap_blocks
      (fun m => [verts.getD (m * 6) 0, verts.getD (m * 6 + 1) 0,
        verts.getD (m * 6 + 2) 0, verts.getD (m * 6 + 3) 0,
        verts.getD (m * 6 + 4) 0, verts.getD (m * 6 + 5) 0,
        uvU (normalize3 ⟨verts.getD (m * 6) 0, verts.getD (m * 6 + 1) 0,
            verts.getD (m * 6 + 2) 0⟩).x
          (normalize3 ⟨verts.getD (m * 6) 0, verts.getD (m * 6 + 1) 0,
            verts.getD (m * 6 + 2) 0⟩).z,
        uvV (normalize3 ⟨verts.getD (m * 6) 0, verts.getD (m * 6 + 1) 0,
            verts.getD (m * 6 + 2) 0⟩).y])
      8 (0 : ℝ) 0 (fun a => rfl) (List.range (verts.length / 6)) i 6 hlen
      (by omega)
    rw [hrange] at h
    exact h
  have h7 : (calculateBetterUVs verts).getD (8 * i + 7) 0 =
      uvV (normalize3 ⟨verts.getD (i * 6) 0, verts.getD (i * 6 + 1) 0,
          verts.getD (i * 6 + 2) 0⟩).y := by
    have h := getD_flatMap_blocks
      (fun m => [verts.getD (m * 6) 0, verts.getD (m * 6 + 1) 0,
        verts.getD (m * 6 + 2) 0, verts.getD (m * 6 + 3) 0,
        verts.getD (m * 6 + 4) 0, verts.getD (m * 6 + 5) 0,
        uvU (normalize3 ⟨verts.getD (m * 6) 0, verts.getD (m * 6 + 1) 0,
            verts.getD (m * 6 + 2) 0⟩).x
          (normalize3 ⟨verts.getD (m * 6) 0, verts.getD (m * 6 + 1) 0,
            verts.getD (m * 6 + 2) 0⟩).z,
        uvV (normalize3 ⟨verts.getD (m * 6) 0, verts.getD (m * 6 + 1) 0,
            verts.getD (m * 6 + 2) 0⟩).y])
      8 (0 : ℝ) 0 (fun a => rfl) (List.range (verts.length / 6)) i 7 hlen
      (by omega)
    rw [hrange] at h
    exact h
  refine ⟨h6, h7, ?_, ?_, ?_, ?_⟩
  · rw [h6]
    exact (uvU_mem _ _).1
  · rw [h6]
    exact (uvU_mem _ _).2
  · rw [h7]
    exact (uvV_mem _).1
  · rw [h7]
    exact (uvV_mem _).2

theorem calculateBetterUVs_spec_witness :
    0 < ([1, 0, 0, 1, 0, 0] : List ℝ).length / 6 ∧
    ((calculateBetterUVs [1, 0, 0, 1, 0, 0]).getD 6 0 =
      uvU (normalize3 ⟨([1, 0, 0, 1, 0, 0] : List ℝ).getD 0 0,
          ([1, 0, 0, 1, 0, 0] : List ℝ).getD 1 0,
          ([1, 0, 0, 1, 0, 0] : List ℝ).getD 2 0⟩).x
        (normalize3 ⟨([1, 0, 0, 1, 0, 0] : List ℝ).getD 0 0,
          ([1, 0, 0, 1, 0, 0] : List ℝ).getD 1 0,
          ([1, 0, 0, 1, 0, 0] : List ℝ).getD 2 0⟩).z ∧
    (calculateBetterUVs [1, 0, 0, 1, 0, 0]).getD 7 0 =
      uvV (normalize3 ⟨([1, 0, 0, 1, 0, 0] : List ℝ).getD 0 0,
          ([1, 0, 0, 1, 0, 0] : List ℝ).getD 1 0,
          ([1, 0, 0, 1, 0, 0] : List ℝ).getD 2 0⟩).y ∧
    0 ≤ (calculateBetterUVs [1, 0, 0, 1, 0, 0]).getD 6 0 ∧
    (calculateBetterUVs [1, 0, 0, 1, 0, 0]).getD 6 0 ≤ 1 ∧
    0 ≤ (calculateBetterUVs [1, 0, 0, 1, 0, 0]).getD 7 0 ∧
    (calculateBetterUVs [1, 0, 0, 1, 0, 0]).getD 7 0 ≤ 1) :=
  ⟨by norm_num, calculateBetterUVs_spec [1, 0, 0, 1, 0, 0] 0 (by norm_num)⟩

/-- C9 counterexample: a negative subdivision level does not fail — it is
silently treated as level 0, and `generateIcosahedron(-1)` returns
exactly the unsubdivided base mesh. -/
theorem generateIcosahedron_negative_cex :
    generateIcosahedron (-1) = generateIcosahedron 0 := by
  have h : (-1 : ℤ).toNat = (0 : ℤ).toNat := rfl
  simp only [generateIcosahedron, h]

/-- C9 amended: `generateIcosahedron` performs no input validation and no
overflow detection: every nonpositive level silently produces the level-0
mesh, and for every level each stored index is reduced modulo 2^16
(always below 65536) instead of being surfaced as an error. -/
theorem generateIcosahedron_no_validation (s : ℤ) (hs : s ≤ 0) :
    generateIcosahedron s = generateIcosahedron 0 ∧
    ∀ t : ℤ, ∀ i ∈ (generateIcosahedron t).2, i < 65536 := by
  constructor
  · simp only [generateIcosahedron, Int.toNat_of_nonpos hs, Int.toNat_zero]
  · intro t i hi
    simp only [generateIcosahedron, SeamFix.toUint16] at hi
    obtain ⟨x, _, rfl⟩ := List.mem_map.1 hi
    exact Nat.mod_lt _ (by omega)

theorem generateIcosahedron_no_validation_witness :
    (-5 : ℤ) ≤ 0 ∧
    (generateIcosahedron (-5) = generateIcosahedron 0 ∧
      ∀ t : ℤ, ∀ i ∈ (generateIcosahedron t).2, i < 65536) :=
  ⟨by decide, generateIcosahedron_no_validation (-5) (by decide)⟩

/-- C10: `generateIcosahedron` always stores its indices through a
`Uint16Array` (each stored index is the computed index modulo 2^16, hence
below 65536, at every level), and `fixTextureSeamProperly` keeps the
input's index width: a 32-bit input yields the raw rewritten indices
modulo 2^32, a 16-bit input yields them modulo 2^16 (hence below 65536)
even when the post-repair vertex count exceeds 65535. -/
theorem index_width_modulo (s : ℤ) (verts : List ℚ) (idxs : List ℕ) :
    (generateIcosahedron s).2 =
      SeamFix.toUint16 ((subdivideIter midSphere ⟨0, 0, 0⟩ s.toNat faces0
        ⟨baseVertices, []⟩).1.flatMap fun f => [f.1, f.2.1, f.2.2]) ∧
    (∀ i ∈ (generateIcosahedron s).2, i < 65536) ∧
    (SeamFix.fixTextureSeamProperly verts idxs true).2 =
      SeamFix.toUint32
        (SeamFix.fixLoop verts idxs (verts.length / 8)).2 ∧
    (SeamFix.fixTextureSeamProperly verts idxs false).2 =
      SeamFix.toUint16
        (SeamFix.fixLoop verts idxs (verts.length / 8)).2 ∧
    (∀ i ∈ (SeamFix.fixTextureSeamProperly verts idxs false).2, i < 65536) := by
  refine ⟨rfl, ?_, ?_, ?_, ?_⟩
  · intro i hi
    simp only [generateIcosahedron, SeamFix.toUint16] at hi
    obtain ⟨x, _, rfl⟩ := List.mem_map.1 hi
    exact Nat.mod_lt _ (by omega)
  · simp [SeamFix.fixTextureSeamProperly]
  · simp [SeamFix.fixTextureSeamProperly]
  · intro i hi
    simp only [SeamFix.fixTextureSeamProperly, if_neg, Bool.false_eq_true,
      not_false_iff, SeamFix.toUint16] at hi
    obtain ⟨x, _, rfl⟩ := List.mem_map.1 hi
    exact Nat.mod_lt _ (by omega)

end Claims
